import Mathlib

/-!
# musl_math.h : sign/magnitude helpers, rounding family and square root

A shallow embedding of `src/source/musl_math.h`.

A `float` or `double` is represented by its storage bit pattern, a natural
number below `2 ^ 32` respectively `2 ^ 64`; the unions of the C source
(`union {double f; uint64_t i;}`) are therefore the identity.  Unsigned C
arithmetic is arithmetic on `Nat` reduced modulo `2 ^ 32` / `2 ^ 64` wherever
the C operation can wrap, `int` variables are `Int`.
-/

namespace MuslMath

/-! ## Definitions -/

/-- Bitwise complement of a `uint32_t`. -/
def not32 (m : Nat) : Nat := 0xffffffff ^^^ m

/-- Bitwise complement of a `uint64_t`. -/
def not64 (m : Nat) : Nat := 0xffffffffffffffff ^^^ m

/-- The function `signbit`: `y.i >> 63` on the 64-bit pattern of `x`. -/
def signbit (x : Nat) : Nat := x >>> 63

/-- The function `fabs`: `u.i &= -1ULL/2`. -/
def fabs (x : Nat) : Nat := x &&& (0xffffffffffffffff / 2)

/-- The function `fabsf`: `u.i &= 0x7fffffff`. -/
def fabsf (x : Nat) : Nat := x &&& 0x7fffffff

/-- The function `copysign`. -/
def copysign (x y : Nat) : Nat :=
  (x &&& (0xffffffffffffffff / 2)) ||| (y &&& (1 <<< 63))

/-- The function `copysignf`. -/
def copysignf (x y : Nat) : Nat :=
  (x &&& 0x7fffffff) ||| (y &&& 0x80000000)

/-- The function `ceilf`.  The two `FORCE_EVAL(x + 0x1p120f)` statements only
raise floating-point flags and do not take part in the returned value. -/
def ceilf (x : Nat) : Nat :=
  let e : Int := (((x >>> 23) &&& 0xff : Nat) : Int) - 0x7f
  if e ≥ 23 then x
  else if e ≥ 0 then
    let m := 0x007fffff >>> e.toNat
    if x &&& m = 0 then x
    else
      let u := if x >>> 31 = 0 then (x + m) % 2 ^ 32 else x
      u &&& not32 m
  else
    if x >>> 31 ≠ 0 then 0x80000000
    else if (x <<< 1) % 2 ^ 32 ≠ 0 then 0x3f800000
    else x

/-- The function `floorf`. -/
def floorf (x : Nat) : Nat :=
  let e : Int := (((x >>> 23) &&& 0xff : Nat) : Int) - 0x7f
  if e ≥ 23 then x
  else if e ≥ 0 then
    let m := 0x007fffff >>> e.toNat
    if x &&& m = 0 then x
    else
      let u := if x >>> 31 ≠ 0 then (x + m) % 2 ^ 32 else x
      u &&& not32 m
  else
    if x >>> 31 = 0 then 0
    else if (x <<< 1) % 2 ^ 32 ≠ 0 then 0xbf800000
    else x

/-- The function `trunc`. -/
def trunc (x : Nat) : Nat :=
  let e : Int := (((x >>> 52) &&& 0x7ff : Nat) : Int) - 0x3ff + 12
  if e ≥ 52 + 12 then x
  else
    let e : Int := if e < 12 then 1 else e
    let m := 0xffffffffffffffff >>> e.toNat
    if x &&& m = 0 then x
    else x &&& not64 m

/-- The function `truncf`. -/
def truncf (x : Nat) : Nat :=
  let e : Int := (((x >>> 23) &&& 0xff : Nat) : Int) - 0x7f + 9
  if e ≥ 23 + 9 then x
  else
    let e : Int := if e < 9 then 1 else e
    let m := 0xffffffff >>> e.toNat
    if x &&& m = 0 then x
    else x &&& not32 m


/-! ### IEEE-754 reading of a bit pattern

A binary format has `p` stored significand bits and `w` exponent bits
(`p = 23, w = 8` for `float`, `p = 52, w = 11` for `double`).  The value of a
finite pattern is `± magOf * 2 ^ (-scaleOf)`; working with the scaled
magnitude keeps everything in `Nat`/`Int`, and `valOf` is the rational value
itself. -/

/-- Biased exponent field of a pattern. -/
def expOf (p w u : Nat) : Nat := u / 2 ^ p % 2 ^ w

/-- Stored significand field of a pattern. -/
def manOf (p u : Nat) : Nat := u % 2 ^ p

/-- Sign bit of a pattern. -/
def sgnOf (p w u : Nat) : Nat := u / 2 ^ (p + w) % 2

/-- Magnitude of a finite pattern in units of the smallest subnormal. -/
def magOf (p w u : Nat) : Nat :=
  if expOf p w u = 0 then manOf p u else (2 ^ p + manOf p u) <<< (expOf p w u - 1)

/-- Signed value of a finite pattern in units of the smallest subnormal. -/
def svalOf (p w u : Nat) : Int :=
  if sgnOf p w u = 0 then (magOf p w u : Int) else -(magOf p w u : Int)

/-- The smallest subnormal is `2 ^ (-scaleOf p w)`: 149 for `float`, 1074 for `double`. -/
def scaleOf (p w : Nat) : Nat := 2 ^ (w - 1) - 1 + p - 1

/-- Rational value of a finite pattern. -/
def valOf (p w u : Nat) : ℚ := (svalOf p w u : ℚ) / 2 ^ scaleOf p w

/-- The pattern is neither an infinity nor a NaN. -/
def isFiniteOf (p w u : Nat) : Prop := expOf p w u ≠ 2 ^ w - 1

instance (p w u : Nat) : Decidable (isFiniteOf p w u) := by
  unfold isFiniteOf; infer_instance

/-- The pattern is a NaN. -/
def isNaNOf (p w u : Nat) : Prop := expOf p w u = 2 ^ w - 1 ∧ manOf p u ≠ 0

instance (p w u : Nat) : Decidable (isNaNOf p w u) := by
  unfold isNaNOf; infer_instance

/-- A rational is integer-valued. -/
def IsIntVal (q : ℚ) : Prop := ∃ n : ℤ, q = n

/-- Value of a finite `float` pattern. -/
def val32 (u : Nat) : ℚ := valOf 23 8 u

/-- Value of a finite `double` pattern. -/
def val64 (u : Nat) : ℚ := valOf 52 11 u

/-- A `float` pattern that is neither infinite nor NaN. -/
def isFinite32 (u : Nat) : Prop := isFiniteOf 23 8 u

/-- A `double` pattern that is neither infinite nor NaN. -/
def isFinite64 (u : Nat) : Prop := isFiniteOf 52 11 u

instance (u : Nat) : Decidable (isFinite32 u) := by
  unfold isFinite32; infer_instance

instance (u : Nat) : Decidable (isFinite64 u) := by
  unfold isFinite64; infer_instance


/-! ### IEEE-754 arithmetic on bit patterns

The C operators `+`, `-`, `*`, `/`, `==`, `<` on `float`/`double` are modelled
as the IEEE-754 operations in the default rounding mode (round to nearest,
ties to even), evaluated in the precision of the operand type.  The payload of
a NaN result is implementation-defined in C; every NaN result is modelled as
the positive quiet NaN `qnanOf`. -/

/-- Binary search for the position of the leading one bit: `ilog2Aux n j acc`
adds to `acc` the largest `t < 2 ^ j` with `n >>> (acc + t) ≠ 0`. -/
def ilog2Aux (n : Nat) : Nat → Nat → Nat
  | 0, acc => acc
  | j + 1, acc =>
    if n >>> (acc + 2 ^ j) ≠ 0 then ilog2Aux n j (acc + 2 ^ j) else ilog2Aux n j acc

/-- Position of the leading one bit, `⌊log₂ n⌋`, for `0 < n < 2 ^ 8192`. -/
def ilog2 (n : Nat) : Nat := ilog2Aux n 13 0

/-- Pattern (sign clear) of `+Inf`. -/
def infOf (p w : Nat) : Nat := (2 ^ w - 1) <<< p

/-- Pattern of the positive quiet NaN. -/
def qnanOf (p w : Nat) : Nat := ((2 ^ w - 1) <<< p) + 2 ^ (p - 1)

/-- The pattern is an infinity. -/
def isInfOf (p w u : Nat) : Prop := expOf p w u = 2 ^ w - 1 ∧ manOf p u = 0

instance (p w u : Nat) : Decidable (isInfOf p w u) := by
  unfold isInfOf; infer_instance

/-- The pattern is `+0` or `-0`. -/
def isZeroOf (p w u : Nat) : Prop := u % 2 ^ (p + w) = 0

instance (p w u : Nat) : Decidable (isZeroOf p w u) := by
  unfold isZeroOf; infer_instance

/-- Round to nearest, ties to even: the pattern (sign clear) of the nearest
representable value to `n * 2 ^ (-sh)` units of the smallest subnormal, `+Inf`
on overflow.  `k` low bits of `n` are dropped: `sh` of them in the subnormal
range and the first binade, and all but the leading `p + 1` bits above. -/
def roundOf (p w sh n : Nat) : Nat :=
  let k := max sh (ilog2 n - p)
  let q := n >>> k
  let r := n % (1 <<< k)
  let q' := if 2 * r > 1 <<< k ∨ (2 * r = 1 <<< k ∧ q % 2 = 1) then q + 1 else q
  let bits := ((k - sh) <<< p) + q'
  if bits ≥ infOf p w then infOf p w else bits

/-- Sign flip of a pattern. -/
def fnegOf (p w a : Nat) : Nat :=
  if sgnOf p w a = 0 then a + 2 ^ (p + w) else a - 2 ^ (p + w)

/-- IEEE addition, round to nearest even. -/
def faddOf (p w a b : Nat) : Nat :=
  if isNaNOf p w a ∨ isNaNOf p w b then qnanOf p w
  else if isInfOf p w a then
    (if isInfOf p w b ∧ sgnOf p w a ≠ sgnOf p w b then qnanOf p w else a)
  else if isInfOf p w b then b
  else
    let v : Int := svalOf p w a + svalOf p w b
    if v = 0 then (if sgnOf p w a = 1 ∧ sgnOf p w b = 1 then 1 <<< (p + w) else 0)
    else if 0 < v then roundOf p w 0 v.toNat
    else (1 <<< (p + w)) + roundOf p w 0 (-v).toNat

/-- IEEE subtraction: `a - b = a + (-b)`. -/
def fsubOf (p w a b : Nat) : Nat := faddOf p w a (fnegOf p w b)

/-- IEEE multiplication, round to nearest even. -/
def fmulOf (p w a b : Nat) : Nat :=
  if isNaNOf p w a ∨ isNaNOf p w b then qnanOf p w
  else if (isInfOf p w a ∧ isZeroOf p w b) ∨ (isZeroOf p w a ∧ isInfOf p w b) then qnanOf p w
  else
    let s := ((sgnOf p w a ^^^ sgnOf p w b) <<< (p + w))
    if isInfOf p w a ∨ isInfOf p w b then s + infOf p w
    else s + roundOf p w (scaleOf p w) (magOf p w a * magOf p w b)

/-- IEEE division, round to nearest even.  The quotient is taken with `p + 3`
extra bits and a sticky bit for the remainder. -/
def fdivOf (p w a b : Nat) : Nat :=
  if isNaNOf p w a ∨ isNaNOf p w b then qnanOf p w
  else if (isInfOf p w a ∧ isInfOf p w b) ∨ (isZeroOf p w a ∧ isZeroOf p w b) then qnanOf p w
  else
    let s := ((sgnOf p w a ^^^ sgnOf p w b) <<< (p + w))
    if isInfOf p w a then s + infOf p w
    else if isInfOf p w b then s
    else if isZeroOf p w b then s + infOf p w
    else
      let n := magOf p w a <<< (scaleOf p w + p + 3)
      let sticky := if n % magOf p w b = 0 then 0 else 1
      s + roundOf p w (p + 4) (2 * (n / magOf p w b) + sticky)

/-- Position of a non-NaN pattern in the order of the extended reals. -/
def ordKeyOf (p w a : Nat) : Int :=
  if sgnOf p w a = 0 then ((a % 2 ^ (p + w) : Nat) : Int) else -((a % 2 ^ (p + w) : Nat) : Int)

/-- IEEE `a < b`: false when an operand is NaN. -/
def fltOf (p w a b : Nat) : Prop :=
  ¬ isNaNOf p w a ∧ ¬ isNaNOf p w b ∧ ordKeyOf p w a < ordKeyOf p w b

instance (p w a b : Nat) : Decidable (fltOf p w a b) := by
  unfold fltOf; infer_instance

/-- IEEE `a == b`: false when an operand is NaN, true for `+0 == -0`. -/
def feqOf (p w a b : Nat) : Prop :=
  ¬ isNaNOf p w a ∧ ¬ isNaNOf p w b ∧ ordKeyOf p w a = ordKeyOf p w b

instance (p w a b : Nat) : Decidable (feqOf p w a b) := by
  unfold feqOf; infer_instance

/-- The constant `toint = 1/__DBL_EPSILON__ = 0x1p52`. -/
def toint : Nat := 0x4330000000000000

/-- The constant `tointf = 1/__FLT_EPSILON__ = 0x1p23f`. -/
def tointf : Nat := 0x4b000000

/-- The function `ceil`.  `FORCE_EVAL(y)` only raises flags. -/
def ceil (x : Nat) : Nat :=
  let e : Int := (((x >>> 52) &&& 0x7ff : Nat) : Int)
  if e ≥ 0x3ff + 52 ∨ feqOf 52 11 x 0 then x
  else
    let y :=
      if x >>> 63 ≠ 0 then fsubOf 52 11 (faddOf 52 11 (fsubOf 52 11 x toint) toint) x
      else fsubOf 52 11 (fsubOf 52 11 (faddOf 52 11 x toint) toint) x
    if e ≤ 0x3ff - 1 then
      (if x >>> 63 ≠ 0 then 0x8000000000000000 else 0x3ff0000000000000)
    else if fltOf 52 11 y 0 then faddOf 52 11 (faddOf 52 11 x y) 0x3ff0000000000000
    else faddOf 52 11 x y

/-- The function `floor`. -/
def floor (x : Nat) : Nat :=
  let e : Int := (((x >>> 52) &&& 0x7ff : Nat) : Int)
  if e ≥ 0x3ff + 52 ∨ feqOf 52 11 x 0 then x
  else
    let y :=
      if x >>> 63 ≠ 0 then fsubOf 52 11 (faddOf 52 11 (fsubOf 52 11 x toint) toint) x
      else fsubOf 52 11 (fsubOf 52 11 (faddOf 52 11 x toint) toint) x
    if e ≤ 0x3ff - 1 then
      (if x >>> 63 ≠ 0 then 0xbff0000000000000 else 0)
    else if fltOf 52 11 0 y then fsubOf 52 11 (faddOf 52 11 x y) 0x3ff0000000000000
    else faddOf 52 11 x y

/-- The function `rint`. -/
def rint (x : Nat) : Nat :=
  let e : Int := (((x >>> 52) &&& 0x7ff : Nat) : Int)
  let s : Int := ((x >>> 63 : Nat) : Int)
  if e ≥ 0x3ff + 52 then x
  else
    let y :=
      if s ≠ 0 then faddOf 52 11 (fsubOf 52 11 x toint) toint
      else fsubOf 52 11 (faddOf 52 11 x toint) toint
    if feqOf 52 11 y 0 then (if s ≠ 0 then 0x8000000000000000 else 0)
    else y

/-- The function `rintf`. -/
def rintf (x : Nat) : Nat :=
  let e : Int := (((x >>> 23) &&& 0xff : Nat) : Int)
  let s : Int := ((x >>> 31 : Nat) : Int)
  if e ≥ 0x7f + 23 then x
  else
    let y :=
      if s ≠ 0 then faddOf 23 8 (fsubOf 23 8 x tointf) tointf
      else fsubOf 23 8 (faddOf 23 8 x tointf) tointf
    if feqOf 23 8 y 0 then (if s ≠ 0 then 0x80000000 else 0)
    else y


/-- Nearest integer to `X / C`, ties to the even integer. -/
def rneDiv (X C : Nat) : Nat :=
  X / C + (if 2 * (X % C) > C ∨ (2 * (X % C) = C ∧ X / C % 2 = 1) then 1 else 0)

/-- The rational `v` is the integer nearest to `q`, the even one of the two
when `q` lies halfway between two integers. -/
def IsNearestEven (q v : ℚ) : Prop :=
  ∃ n : ℤ, v = n ∧ |(n : ℚ) - q| ≤ 1 / 2 ∧ (|(n : ℚ) - q| = 1 / 2 → Even n)

/-! ### Square root -/

/-- Subtraction `a - b` in `uint32_t` arithmetic. -/
def sub32 (a b : Nat) : Nat := (a + (2 ^ 32 - b % 2 ^ 32)) % 2 ^ 32

/-- Subtraction `a - b` in `uint64_t` arithmetic. -/
def sub64 (a b : Nat) : Nat := (a + (2 ^ 64 - b % 2 ^ 64)) % 2 ^ 64

/-- The function `mul32`: `(uint64_t)a*b >> 32` of the `uint32_t` parameters
(an argument wider than 32 bits is truncated by the call). -/
def mul32 (a b : Nat) : Nat := ((a % 2 ^ 32) * (b % 2 ^ 32)) >>> 32

/-- The function `mul64`, the sum taken in `uint64_t` arithmetic. -/
def mul64 (a b : Nat) : Nat :=
  let ahi := a >>> 32
  let alo := a &&& 0xffffffff
  let bhi := b >>> 32
  let blo := b &&& 0xffffffff
  (ahi * bhi + ((ahi * blo) >>> 32) + ((alo * bhi) >>> 32)) % 2 ^ 64

/-- The function `__math_invalid`: `(x - x) / (x - x)`. -/
def __math_invalid (x : Nat) : Nat := fdivOf 52 11 (fsubOf 52 11 x x) (fsubOf 52 11 x x)

/-- The function `__math_invalidf`: `(x - x) / (x - x)`. -/
def __math_invalidf (x : Nat) : Nat := fdivOf 23 8 (fsubOf 23 8 x x) (fsubOf 23 8 x x)

/-- The table `__rsqrt_tab`. -/
def __rsqrt_tab : List Nat := [
  0xb451, 0xb2f0, 0xb196, 0xb044, 0xaef9, 0xadb6, 0xac79, 0xab43,
  0xaa14, 0xa8eb, 0xa7c8, 0xa6aa, 0xa592, 0xa480, 0xa373, 0xa26b,
  0xa168, 0xa06a, 0x9f70, 0x9e7b, 0x9d8a, 0x9c9d, 0x9bb5, 0x9ad1,
  0x99f0, 0x9913, 0x983a, 0x9765, 0x9693, 0x95c4, 0x94f8, 0x9430,
  0x936b, 0x92a9, 0x91ea, 0x912e, 0x9075, 0x8fbe, 0x8f0a, 0x8e59,
  0x8daa, 0x8cfe, 0x8c54, 0x8bac, 0x8b07, 0x8a64, 0x89c4, 0x8925,
  0x8889, 0x87ee, 0x8756, 0x86c0, 0x862b, 0x8599, 0x8508, 0x8479,
  0x83ec, 0x8361, 0x82d8, 0x8250, 0x81c9, 0x8145, 0x80c2, 0x8040,
  0xff02, 0xfd0e, 0xfb25, 0xf947, 0xf773, 0xf5aa, 0xf3ea, 0xf234,
  0xf087, 0xeee3, 0xed47, 0xebb3, 0xea27, 0xe8a3, 0xe727, 0xe5b2,
  0xe443, 0xe2dc, 0xe17a, 0xe020, 0xdecb, 0xdd7d, 0xdc34, 0xdaf1,
  0xd9b3, 0xd87b, 0xd748, 0xd61a, 0xd4f1, 0xd3cd, 0xd2ad, 0xd192,
  0xd07b, 0xcf69, 0xce5b, 0xcd51, 0xcc4a, 0xcb48, 0xca4a, 0xc94f,
  0xc858, 0xc764, 0xc674, 0xc587, 0xc49d, 0xc3b7, 0xc2d4, 0xc1f4,
  0xc116, 0xc03c, 0xbf65, 0xbe90, 0xbdbe, 0xbcef, 0xbc23, 0xbb59,
  0xba91, 0xb9cc, 0xb90a, 0xb84a, 0xb78c, 0xb6d0, 0xb617, 0xb560]

/-- The part of `sqrt` after the special-case block, as a function of the
values of `ix` and `top` on leaving that block. -/
def sqrtBody (ix top : Nat) : Nat :=
  let even := top &&& 1
  let m := ((ix <<< 11) % 2 ^ 64) ||| 0x8000000000000000
  let m := if even ≠ 0 then m >>> 1 else m
  let top := ((top + 0x3ff) % 2 ^ 64) >>> 1
  let three := 0xc0000000
  let i := (ix >>> 46) % 128
  let r := (__rsqrt_tab.getD i 0 <<< 16) % 2 ^ 32
  let s := mul32 (m >>> 32) r
  let d := mul32 s r
  let u := sub64 three d
  let r := (mul32 r u <<< 1) % 2 ^ 32
  let s := (mul32 s u <<< 1) % 2 ^ 32
  let d := mul32 s r
  let u := sub64 three d
  let r := (mul32 r u <<< 1) % 2 ^ 32
  let r := (r <<< 32) % 2 ^ 64
  let s := mul64 m r
  let d := mul64 s r
  let u := sub64 (three <<< 32) d
  let s := mul64 s u
  let s := (sub64 s 2) >>> 9
  let d0 := sub64 ((m <<< 42) % 2 ^ 64) ((s * s) % 2 ^ 64)
  let d1 := sub64 s d0
  let d2 := (d1 + s + 1) % 2 ^ 64
  let s := (s + (d1 >>> 63)) % 2 ^ 64
  let s := s &&& 0x000fffffffffffff
  let s := s ||| ((top <<< 52) % 2 ^ 64)
  let y := s
  let tiny := if d2 = 0 then 0 else 0x0010000000000000
  let tiny := tiny ||| ((d1 ^^^ d2) &&& 0x8000000000000000)
  let t := tiny
  faddOf 52 11 y t

/-- The function `sqrt` (`FENV_SUPPORT` is 1). -/
def sqrt (x : Nat) : Nat :=
  let ix := x
  let top := ix >>> 52
  if sub64 top 0x001 ≥ 0x7ff - 0x001 then
    if (ix * 2) % 2 ^ 64 = 0 then x
    else if ix = 0x7ff0000000000000 then x
    else if ix > 0x7ff0000000000000 then __math_invalid x
    else
      let ix := fmulOf 52 11 x 0x4330000000000000
      let top := ix >>> 52
      let top := sub64 top 52
      sqrtBody ix top
  else sqrtBody ix top

/-- The part of `sqrtf` after the special-case block, as a function of the
value of `ix` on leaving that block. -/
def sqrtfBody (ix : Nat) : Nat :=
  let even := ix &&& 0x00800000
  let m1 := ((ix <<< 8) % 2 ^ 32) ||| 0x80000000
  let m0 := ((ix <<< 7) % 2 ^ 32) &&& 0x7fffffff
  let m := if even ≠ 0 then m0 else m1
  let ey := ix >>> 1
  let ey := (ey + (0x3f800000 >>> 1)) % 2 ^ 32
  let ey := ey &&& 0x7f800000
  let three := 0xc0000000
  let i := (ix >>> 17) % 128
  let r := (__rsqrt_tab.getD i 0 <<< 16) % 2 ^ 32
  let s := mul32 m r
  let d := mul32 s r
  let u := sub32 three d
  let r := (mul32 r u <<< 1) % 2 ^ 32
  let s := (mul32 s u <<< 1) % 2 ^ 32
  let d := mul32 s r
  let u := sub32 three d
  let s := mul32 s u
  let s := (sub32 s 1) >>> 6
  let d0 := sub32 ((m <<< 16) % 2 ^ 32) ((s * s) % 2 ^ 32)
  let d1 := sub32 s d0
  let d2 := (d1 + s + 1) % 2 ^ 32
  let s := (s + (d1 >>> 31)) % 2 ^ 32
  let s := s &&& 0x007fffff
  let s := s ||| ey
  let y := s
  let tiny := if d2 = 0 then 0 else 0x01000000
  let tiny := tiny ||| ((d1 ^^^ d2) &&& 0x80000000)
  let t := tiny
  faddOf 23 8 y t

/-- The function `sqrtf` (`FENV_SUPPORT` is 1). -/
def sqrtf (x : Nat) : Nat :=
  let ix := x
  if sub32 ix 0x00800000 ≥ 0x7f800000 - 0x00800000 then
    if (ix * 2) % 2 ^ 32 = 0 then x
    else if ix = 0x7f800000 then x
    else if ix > 0x7f800000 then __math_invalidf x
    else
      let ix := fmulOf 23 8 x 0x4b000000
      let ix := sub32 ix (23 <<< 23)
      sqrtfBody ix
  else sqrtfBody ix

/-! ### Stages of the square root

The statements of `sqrt` and `sqrtf` once more, cut at the points the
properties of the intermediate values speak about: the special-case block,
the argument reduction, the table lookup, the Goldschmidt iterations and the
final rounding.  `sqrtBody_parts`, `sqrt_main` and `sqrt_none` below (and
`sqrtfBody_parts`, `sqrtf_main`, `sqrtf_none`) show that the stages compose to
`sqrt` and `sqrtf`. -/

/-- Special-case block of `sqrt`: `none` when the function returns from inside
the block, otherwise the values of `ix` and `top` on leaving it. -/
def sqrtNorm (x : Nat) : Option (Nat × Nat) :=
  let ix := x
  let top := ix >>> 52
  if sub64 top 0x001 ≥ 0x7ff - 0x001 then
    if (ix * 2) % 2 ^ 64 = 0 then none
    else if ix = 0x7ff0000000000000 then none
    else if ix > 0x7ff0000000000000 then none
    else
      let ix := fmulOf 52 11 x 0x4330000000000000
      let top := ix >>> 52
      let top := sub64 top 52
      some (ix, top)
  else some (ix, top)

/-- The flag `int even = top & 1` of `sqrt`. -/
def sqrtEven (top : Nat) : Nat := top &&& 1

/-- The fixed-point mantissa `m` of `sqrt` after `if (even) m >>= 1`. -/
def sqrtM (ix top : Nat) : Nat :=
  let even := top &&& 1
  let m := ((ix <<< 11) % 2 ^ 64) ||| 0x8000000000000000
  if even ≠ 0 then m >>> 1 else m

/-- The result exponent field `top = (top + 0x3ff) >> 1` of `sqrt`. -/
def sqrtTop (top : Nat) : Nat := ((top + 0x3ff) % 2 ^ 64) >>> 1

/-- The table index `i = (ix >> 46) % 128` of `sqrt`. -/
def sqrtIdx (ix : Nat) : Nat := (ix >>> 46) % 128

/-- The initial estimate `r = (uint32_t)__rsqrt_tab[i] << 16`. -/
def rsqrtEst (i : Nat) : Nat := (__rsqrt_tab.getD i 0 <<< 16) % 2 ^ 32

/-- The Goldschmidt iterations of `sqrt`: from `m` and the initial estimate
`r` to the approximation `s` in the representation 3.61. -/
def sqrtApprox (m r : Nat) : Nat :=
  let three := 0xc0000000
  let s := mul32 (m >>> 32) r
  let d := mul32 s r
  let u := sub64 three d
  let r := (mul32 r u <<< 1) % 2 ^ 32
  let s := (mul32 s u <<< 1) % 2 ^ 32
  let d := mul32 s r
  let u := sub64 three d
  let r := (mul32 r u <<< 1) % 2 ^ 32
  let r := (r <<< 32) % 2 ^ 64
  let s := mul64 m r
  let d := mul64 s r
  let u := sub64 (three <<< 32) d
  mul64 s u

/-- The final rounding of `sqrt`: from `m`, the approximation `s` (3.61) and
the result exponent field `top` to the assembled result `y` and the
perturbation `t`. -/
def sqrtFinal (m s top : Nat) : Nat × Nat :=
  let s := (sub64 s 2) >>> 9
  let d0 := sub64 ((m <<< 42) % 2 ^ 64) ((s * s) % 2 ^ 64)
  let d1 := sub64 s d0
  let d2 := (d1 + s + 1) % 2 ^ 64
  let s := (s + (d1 >>> 63)) % 2 ^ 64
  let s := s &&& 0x000fffffffffffff
  let s := s ||| ((top <<< 52) % 2 ^ 64)
  let y := s
  let tiny := if d2 = 0 then 0 else 0x0010000000000000
  let tiny := tiny ||| ((d1 ^^^ d2) &&& 0x8000000000000000)
  let t := tiny
  (y, t)

/-- The assembled result `y` and the perturbation `t` of `sqrt` on the main
path, before `y = eval_as_double(y + t)`. -/
def sqrtParts (ix top : Nat) : Nat × Nat :=
  sqrtFinal (sqrtM ix top) (sqrtApprox (sqrtM ix top) (rsqrtEst (sqrtIdx ix))) (sqrtTop top)

/-- Special-case block of `sqrtf`: `none` when the function returns from
inside the block, otherwise the value of `ix` on leaving it. -/
def sqrtfNorm (x : Nat) : Option Nat :=
  let ix := x
  if sub32 ix 0x00800000 ≥ 0x7f800000 - 0x00800000 then
    if (ix * 2) % 2 ^ 32 = 0 then none
    else if ix = 0x7f800000 then none
    else if ix > 0x7f800000 then none
    else
      let ix := fmulOf 23 8 x 0x4b000000
      let ix := sub32 ix (23 <<< 23)
      some ix
  else some ix

/-- The fixed-point mantissa `m = even ? m0 : m1` of `sqrtf`. -/
def sqrtfM (ix : Nat) : Nat :=
  let even := ix &&& 0x00800000
  let m1 := ((ix <<< 8) % 2 ^ 32) ||| 0x80000000
  let m0 := ((ix <<< 7) % 2 ^ 32) &&& 0x7fffffff
  if even ≠ 0 then m0 else m1

/-- The result exponent bits `ey` of `sqrtf`. -/
def sqrtfEy (ix : Nat) : Nat :=
  let ey := ix >>> 1
  let ey := (ey + (0x3f800000 >>> 1)) % 2 ^ 32
  ey &&& 0x7f800000

/-- The table index `i = (ix >> 17) % 128` of `sqrtf`. -/
def sqrtfIdx (ix : Nat) : Nat := (ix >>> 17) % 128

/-- The Goldschmidt iterations of `sqrtf`: from `m` and the initial estimate
`r` to the approximation `s` in the representation 3.29. -/
def sqrtfApprox (m r : Nat) : Nat :=
  let three := 0xc0000000
  let s := mul32 m r
  let d := mul32 s r
  let u := sub32 three d
  let r := (mul32 r u <<< 1) % 2 ^ 32
  let s := (mul32 s u <<< 1) % 2 ^ 32
  let d := mul32 s r
  let u := sub32 three d
  mul32 s u

/-- The final rounding of `sqrtf`: from `m`, the approximation `s` (3.29) and
the exponent bits `ey` to the assembled result `y` and the perturbation `t`. -/
def sqrtfFinal (m s ey : Nat) : Nat × Nat :=
  let s := (sub32 s 1) >>> 6
  let d0 := sub32 ((m <<< 16) % 2 ^ 32) ((s * s) % 2 ^ 32)
  let d1 := sub32 s d0
  let d2 := (d1 + s + 1) % 2 ^ 32
  let s := (s + (d1 >>> 31)) % 2 ^ 32
  let s := s &&& 0x007fffff
  let s := s ||| ey
  let y := s
  let tiny := if d2 = 0 then 0 else 0x01000000
  let tiny := tiny ||| ((d1 ^^^ d2) &&& 0x80000000)
  let t := tiny
  (y, t)

/-- The assembled result `y` and the perturbation `t` of `sqrtf` on the main
path, before `y = eval_as_float(y + t)`. -/
def sqrtfParts (ix : Nat) : Nat × Nat :=
  sqrtfFinal (sqrtfM ix) (sqrtfApprox (sqrtfM ix) (rsqrtEst (sqrtfIdx ix))) (sqrtfEy ix)

/-- Conversion `(float)d` of a finite `double` pattern to `float`, round to
nearest even: the magnitude of `d`, in units of `2 ^ (-1074)`, is rounded to
the `float` grid, whose unit `2 ^ (-149)` is `2 ^ 925` of these. -/
def doubleToFloat (d : Nat) : Nat :=
  (sgnOf 52 11 d <<< 31) + roundOf 23 8 925 (magOf 52 11 d)

/-- Unit in the last place of a finite pattern: the distance between
neighbouring representable values in its binade (the subnormal range has the
spacing of the first binade). -/
def ulpOf (p w u : Nat) : ℚ := 2 ^ (expOf p w u - 1) / 2 ^ scaleOf p w

/-! ## Bit-operation lemmas -/

theorem and_low_mask (x k : Nat) : x &&& (2 ^ k - 1) = x % 2 ^ k :=
  Nat.and_pow_two_sub_one_eq_mod x k

theorem and_bit (x k : Nat) : x &&& 2 ^ k = x / 2 ^ k % 2 * 2 ^ k := by
  apply Nat.eq_of_testBit_eq; intro i
  rw [Nat.testBit_and, Nat.testBit_two_pow, Nat.mul_comm, Nat.testBit_mul_pow_two]
  by_cases h : k = i
  · subst h
    simp [Nat.testBit, Nat.shiftRight_eq_div_pow]
  · simp [h]
    intro hik
    have : x / 2 ^ k % 2 < 2 ^ (i - k) := by
      have : 2 ^ 1 ≤ 2 ^ (i - k) := Nat.pow_le_pow_right (by norm_num) (by omega)
      omega
    exact Nat.testBit_lt_two_pow this

theorem and_high_mask (x n k : Nat) (hk : k ≤ n) :
    x &&& ((2 ^ n - 1) ^^^ (2 ^ k - 1)) = x % 2 ^ n / 2 ^ k * 2 ^ k := by
  apply Nat.eq_of_testBit_eq; intro i
  rw [Nat.testBit_and, Nat.testBit_xor, Nat.testBit_two_pow_sub_one, Nat.testBit_two_pow_sub_one,
    Nat.mul_comm, Nat.testBit_mul_pow_two, ← Nat.shiftRight_eq_div_pow, Nat.testBit_shiftRight,
    Nat.testBit_mod_two_pow]
  by_cases h2 : i < k
  · have h1 : i < n := by omega
    have h3 : ¬ k ≤ i := by omega
    simp [h1, h2, h3]
  · have h3 : k ≤ i := by omega
    have h4 : k + (i - k) = i := by omega
    rw [h4]
    by_cases h1 : i < n <;> simp [h1, h2, h3]

theorem or_disjoint (a b k : Nat) (hb : b < 2 ^ k) : (a * 2 ^ k) ||| b = a * 2 ^ k + b := by
  rw [Nat.mul_comm, Nat.mul_add_lt_is_or hb]

theorem magOf_def (p w u : Nat) :
    magOf p w u =
      if expOf p w u = 0 then manOf p u else (2 ^ p + manOf p u) * 2 ^ (expOf p w u - 1) := by
  unfold magOf; rw [Nat.shiftLeft_eq]

/-! ## Sign/magnitude helpers -/

theorem fabs_eq (x : Nat) : fabs x = x % 2 ^ 63 := by
  have h1 : (0xffffffffffffffff / 2 : Nat) = 2 ^ 63 - 1 := by norm_num
  rw [fabs, h1, and_low_mask]

theorem fabsf_eq (x : Nat) : fabsf x = x % 2 ^ 31 := by
  have h1 : (0x7fffffff : Nat) = 2 ^ 31 - 1 := by norm_num
  rw [fabsf, h1, and_low_mask]

theorem copysign_eq (x y : Nat) (hy : y < 2 ^ 64) :
    copysign x y = y / 2 ^ 63 * 2 ^ 63 + x % 2 ^ 63 := by
  have h1 : (0xffffffffffffffff / 2 : Nat) = 2 ^ 63 - 1 := by norm_num
  have h2 : (1 <<< 63 : Nat) = 2 ^ 63 := by simp [Nat.shiftLeft_eq]
  rw [copysign, h1, h2, and_low_mask, and_bit]
  have h3 : y / 2 ^ 63 % 2 = y / 2 ^ 63 := by omega
  rw [h3, Nat.lor_comm, or_disjoint _ _ _ (Nat.mod_lt _ (by norm_num))]

theorem copysignf_eq (x y : Nat) (hy : y < 2 ^ 32) :
    copysignf x y = y / 2 ^ 31 * 2 ^ 31 + x % 2 ^ 31 := by
  have h1 : (0x7fffffff : Nat) = 2 ^ 31 - 1 := by norm_num
  have h2 : (0x80000000 : Nat) = 2 ^ 31 := by norm_num
  rw [copysignf, h1, h2, and_low_mask, and_bit]
  have h3 : y / 2 ^ 31 % 2 = y / 2 ^ 31 := by omega
  rw [h3, Nat.lor_comm, or_disjoint _ _ _ (Nat.mod_lt _ (by norm_num))]

/-- C10: for all 64-bit patterns `x`, `y` (NaNs, infinities and signed zeros
included) `signbit (copysign x y) = signbit y` and `fabs (copysign x y)` is
bit-for-bit `fabs x`; for all 32-bit patterns the sign bit of `copysignf x y`
is the sign bit of `y` and `fabsf (copysignf x y)` is bit-for-bit `fabsf x`. -/
theorem copysign_signbit_fabs (x y : Nat) :
    (x < 2 ^ 64 → y < 2 ^ 64 →
      signbit (copysign x y) = signbit y ∧ fabs (copysign x y) = fabs x) ∧
    (x < 2 ^ 32 → y < 2 ^ 32 →
      copysignf x y >>> 31 = y >>> 31 ∧ fabsf (copysignf x y) = fabsf x) := by
  constructor
  · intro _ hy
    rw [fabs_eq, fabs_eq, copysign_eq x y hy, signbit, signbit,
      Nat.shiftRight_eq_div_pow, Nat.shiftRight_eq_div_pow]
    constructor <;> omega
  · intro _ hy
    rw [fabsf_eq, fabsf_eq, copysignf_eq x y hy,
      Nat.shiftRight_eq_div_pow, Nat.shiftRight_eq_div_pow]
    constructor <;> omega

/-- Witness for C10 at `x = 2.5`, `y = -0.0` (double) and `x = 1.0f`,
`y = -NaN` (float, taken as 64-bit and 32-bit patterns respectively). -/
theorem copysign_signbit_fabs_witness :
    (signbit (copysign 0x4004000000000000 0x8000000000000000) = signbit 0x8000000000000000 ∧
      fabs (copysign 0x4004000000000000 0x8000000000000000) = fabs 0x4004000000000000) ∧
    (copysignf 0x3f800000 0xffc00000 >>> 31 = 0xffc00000 >>> 31 ∧
      fabsf (copysignf 0x3f800000 0xffc00000) = fabsf 0x3f800000) :=
  ⟨(copysign_signbit_fabs 0x4004000000000000 0x8000000000000000).1 (by decide) (by decide),
   (copysign_signbit_fabs 0x3f800000 0xffc00000).2 (by decide) (by decide)⟩

theorem ones_shiftRight (n e : Nat) (h : e ≤ n) : (2 ^ n - 1) >>> e = 2 ^ (n - e) - 1 := by
  rw [Nat.shiftRight_eq_div_pow]
  have h1 : 2 ^ n = 2 ^ (n - e) * 2 ^ e := by rw [← pow_add]; congr 1; omega
  have h2 : 0 < 2 ^ e := Nat.pos_pow_of_pos e (by norm_num)
  have h3 : 0 < 2 ^ (n - e) := Nat.pos_pow_of_pos _ (by norm_num)
  rw [h1]
  apply Nat.div_eq_of_lt_le
  · have : (2 ^ (n - e) - 1) * 2 ^ e = 2 ^ (n - e) * 2 ^ e - 2 ^ e := by
      rw [Nat.sub_mul, one_mul]
    rw [this]
    have : 2 ^ e ≤ 2 ^ (n - e) * 2 ^ e := Nat.le_mul_of_pos_left _ h3
    omega
  · have : (2 ^ (n - e) - 1).succ = 2 ^ (n - e) := by omega
    show _ < (2 ^ (n - e) - 1).succ * 2 ^ e
    rw [this]
    have : 0 < 2 ^ (n - e) * 2 ^ e := Nat.mul_pos h3 h2
    omega

theorem mask_clear (N x n e : Nat) (hN : N = 2 ^ n - 1) (hx : x < 2 ^ n) (he : e ≤ n) :
    (if x &&& (N >>> e) = 0 then x else x &&& (N ^^^ (N >>> e))) =
      x / 2 ^ (n - e) * 2 ^ (n - e) := by
  subst hN
  rw [ones_shiftRight n e he, and_low_mask, and_high_mask x n _ (by omega), Nat.mod_eq_of_lt hx]
  split
  · next h =>
    have := Nat.div_add_mod x (2 ^ (n - e))
    rw [h, Nat.mul_comm] at this
    omega
  · rfl

theorem trunc_eq (x : Nat) (hx : x < 2 ^ 64) :
    trunc x = if expOf 52 11 x ≥ 1023 + 52 then x
      else x / 2 ^ (if expOf 52 11 x < 1023 then 63 else 52 - (expOf 52 11 x - 1023)) *
        2 ^ (if expOf 52 11 x < 1023 then 63 else 52 - (expOf 52 11 x - 1023)) := by
  have hE : (x >>> 52) &&& 0x7ff = expOf 52 11 x := by
    have h1 : (0x7ff : Nat) = 2 ^ 11 - 1 := by norm_num
    rw [h1, and_low_mask, Nat.shiftRight_eq_div_pow, expOf]
  unfold trunc not64
  rw [hE]
  generalize hEd : expOf 52 11 x = E
  have hElt : E < 2 ^ 11 := by rw [← hEd]; exact Nat.mod_lt _ (by norm_num)
  dsimp only
  by_cases h1 : E ≥ 1023 + 52
  · have : (E : Int) - 0x3ff + 12 ≥ 52 + 12 := by omega
    rw [if_pos this, if_pos h1]
  · have h1' : ¬ ((E : Int) - 0x3ff + 12 ≥ 52 + 12) := by omega
    rw [if_neg h1', if_neg h1]
    by_cases h2 : E < 1023
    · have h2' : (E : Int) - 0x3ff + 12 < 12 := by omega
      rw [if_pos h2, if_pos h2']
      exact mask_clear _ x 64 1 (by norm_num) hx (by norm_num)
    · have h2' : ¬ ((E : Int) - 0x3ff + 12 < 12) := by omega
      rw [if_neg h2, if_neg h2']
      have h3 : ((E : Int) - 0x3ff + 12).toNat = E - 1011 := by omega
      have h4 : 52 - (E - 1023) = 64 - (E - 1011) := by omega
      rw [h3, h4]
      exact mask_clear _ x 64 _ (by norm_num) hx (by omega)

theorem truncf_eq (x : Nat) (hx : x < 2 ^ 32) :
    truncf x = if expOf 23 8 x ≥ 127 + 23 then x
      else x / 2 ^ (if expOf 23 8 x < 127 then 31 else 23 - (expOf 23 8 x - 127)) *
        2 ^ (if expOf 23 8 x < 127 then 31 else 23 - (expOf 23 8 x - 127)) := by
  have hE : (x >>> 23) &&& 0xff = expOf 23 8 x := by
    have h1 : (0xff : Nat) = 2 ^ 8 - 1 := by norm_num
    rw [h1, and_low_mask, Nat.shiftRight_eq_div_pow, expOf]
  unfold truncf not32
  rw [hE]
  generalize hEd : expOf 23 8 x = E
  have hElt : E < 2 ^ 8 := by rw [← hEd]; exact Nat.mod_lt _ (by norm_num)
  dsimp only
  by_cases h1 : E ≥ 127 + 23
  · have : (E : Int) - 0x7f + 9 ≥ 23 + 9 := by omega
    rw [if_pos this, if_pos h1]
  · have h1' : ¬ ((E : Int) - 0x7f + 9 ≥ 23 + 9) := by omega
    rw [if_neg h1', if_neg h1]
    by_cases h2 : E < 127
    · have h2' : (E : Int) - 0x7f + 9 < 9 := by omega
      rw [if_pos h2, if_pos h2']
      exact mask_clear _ x 32 1 (by norm_num) hx (by norm_num)
    · have h2' : ¬ ((E : Int) - 0x7f + 9 < 9) := by omega
      rw [if_neg h2, if_neg h2']
      have h3 : ((E : Int) - 0x7f + 9).toNat = E - 118 := by omega
      have h4 : 23 - (E - 127) = 32 - (E - 118) := by omega
      rw [h3, h4]
      exact mask_clear _ x 32 _ (by norm_num) hx (by omega)

theorem two_pow_split (p k : Nat) (hk : k ≤ p) : 2 ^ p = 2 ^ (p - k) * 2 ^ k := by
  rw [← pow_add]; congr 1; omega

theorem div_mul_div_pow (x p k : Nat) (hk : k ≤ p) : x / 2 ^ k * 2 ^ k / 2 ^ p = x / 2 ^ p := by
  rw [two_pow_split p k hk, Nat.mul_comm (2 ^ (p - k)), ← Nat.div_div_eq_div_mul,
    Nat.mul_div_cancel _ (Nat.pos_pow_of_pos k (by norm_num)), Nat.div_div_eq_div_mul]

theorem div_mul_mod_pow (x p k : Nat) (hk : k ≤ p) :
    x / 2 ^ k * 2 ^ k % 2 ^ p = x % 2 ^ p / 2 ^ k * 2 ^ k := by
  rw [two_pow_split p k hk, Nat.mul_mod_mul_right, Nat.mul_comm (2 ^ (p - k)),
    Nat.mod_mul_right_div_self]

theorem expOf_clear_low (p w x k : Nat) (hk : k ≤ p) :
    expOf p w (x / 2 ^ k * 2 ^ k) = expOf p w x := by
  unfold expOf; rw [div_mul_div_pow x p k hk]

theorem sgnOf_clear_low (p w x k : Nat) (hk : k ≤ p + w) :
    sgnOf p w (x / 2 ^ k * 2 ^ k) = sgnOf p w x := by
  unfold sgnOf; rw [div_mul_div_pow x (p + w) k hk]

theorem manOf_clear_low (p x k : Nat) (hk : k ≤ p) :
    manOf p (x / 2 ^ k * 2 ^ k) = manOf p x / 2 ^ k * 2 ^ k := by
  unfold manOf; rw [div_mul_mod_pow x p k hk]

theorem magOf_clear_low (p w x k : Nat) (hk : k ≤ p) (hE : expOf p w x ≠ 0) :
    magOf p w (x / 2 ^ k * 2 ^ k) =
      magOf p w x / (2 ^ k * 2 ^ (expOf p w x - 1)) * (2 ^ k * 2 ^ (expOf p w x - 1)) := by
  simp only [magOf_def]
  rw [expOf_clear_low p w x k hk, manOf_clear_low p x k hk, if_neg hE, if_neg hE]
  have hB : 0 < 2 ^ (expOf p w x - 1) := Nat.pos_pow_of_pos _ (by norm_num)
  rw [Nat.mul_div_mul_right _ _ hB]
  have h1 : (2 ^ p + manOf p x) / 2 ^ k = 2 ^ (p - k) + manOf p x / 2 ^ k := by
    rw [two_pow_split p k hk, Nat.add_comm, Nat.add_mul_div_right _ _ (Nat.pos_pow_of_pos k (by norm_num)),
      Nat.add_comm]
  rw [h1, ← Nat.mul_assoc, Nat.add_mul (2 ^ (p - k)), ← two_pow_split p k hk, Nat.add_mul]
theorem two_pow_pos' (n : Nat) : 0 < 2 ^ n := Nat.pos_pow_of_pos n (by norm_num)

theorem manOf_lt (p u : Nat) : manOf p u < 2 ^ p := Nat.mod_lt _ (two_pow_pos' p)

theorem expOf_lt (p w u : Nat) : expOf p w u < 2 ^ w := Nat.mod_lt _ (two_pow_pos' w)

/-- A pattern whose exponent is at least `b + p` has a magnitude that is a
multiple of `2 ^ (b + p - 1)`. -/
theorem magOf_large_dvd (p w b x : Nat) (hp : 1 ≤ p) (hE : expOf p w x ≥ b + p) :
    2 ^ (b + p - 1) ∣ magOf p w x := by
  simp only [magOf_def]
  rw [if_neg (by omega)]
  apply Dvd.dvd.mul_left
  exact pow_dvd_pow 2 (by omega)

/-- A pattern whose exponent is below `b` has magnitude below `2 ^ (b + p - 1)`. -/
theorem magOf_small_lt (p w b x : Nat) (hE : expOf p w x < b) :
    magOf p w x < 2 ^ (b + p - 1) := by
  simp only [magOf_def]
  have hM := manOf_lt p x
  split
  · exact lt_of_lt_of_le hM (Nat.pow_le_pow_right (by norm_num) (by omega))
  · next h =>
    have h1 : (2 ^ p + manOf p x) * 2 ^ (expOf p w x - 1) < 2 ^ (p + 1) * 2 ^ (expOf p w x - 1) := by
      apply Nat.mul_lt_mul_of_pos_right _ (two_pow_pos' _)
      rw [pow_succ]; omega
    rw [← pow_add] at h1
    exact lt_of_lt_of_le h1 (Nat.pow_le_pow_right (by norm_num) (by omega))

theorem magOf_eq_zero_iff (p w x : Nat) :
    magOf p w x = 0 ↔ x % 2 ^ (p + w) = 0 := by
  have hmod : x % 2 ^ (p + w) = manOf p x + 2 ^ p * expOf p w x := by
    unfold manOf expOf; rw [pow_add, Nat.mod_mul]
  rw [hmod]
  simp only [magOf_def]
  have h2 := two_pow_pos' p
  split
  · next h => rw [h]; simp
  · next h =>
    have h3 := two_pow_pos' (expOf p w x - 1)
    constructor
    · intro h0
      have : 0 < (2 ^ p + manOf p x) * 2 ^ (expOf p w x - 1) := Nat.mul_pos (by omega) h3
      omega
    · intro h0
      have : 0 < 2 ^ p * expOf p w x := Nat.mul_pos h2 (by omega)
      omega

theorem magOf_whole_clear (p w x : Nat) : magOf p w (x / 2 ^ (p + w) * 2 ^ (p + w)) = 0 := by
  rw [magOf_eq_zero_iff]; exact Nat.mul_mod_left _ _

theorem truncG_core (p w b x y : Nat) (hb : 1 ≤ b) (hp : 1 ≤ p)
    (hy : y = if expOf p w x ≥ b + p then x
      else x / 2 ^ (if expOf p w x < b then p + w else p - (expOf p w x - b)) *
        2 ^ (if expOf p w x < b then p + w else p - (expOf p w x - b))) :
    magOf p w y = magOf p w x / 2 ^ (b + p - 1) * 2 ^ (b + p - 1) ∧
    sgnOf p w y = sgnOf p w x ∧
    (y = x ↔ 2 ^ (b + p - 1) ∣ magOf p w x) := by
  by_cases h1 : expOf p w x ≥ b + p
  · rw [if_pos h1] at hy
    subst hy
    have hd := magOf_large_dvd p w b y hp h1
    exact ⟨(Nat.div_mul_cancel hd).symm, rfl, by simp [hd]⟩
  · rw [if_neg h1] at hy
    by_cases h2 : expOf p w x < b
    · rw [if_pos h2] at hy
      have hlt := magOf_small_lt p w b x h2
      have hy0 : magOf p w y = 0 := by rw [hy]; exact magOf_whole_clear p w x
      refine ⟨?_, ?_, ?_⟩
      · rw [hy0, Nat.div_eq_of_lt hlt]; simp
      · rw [hy]; exact sgnOf_clear_low p w x (p + w) (le_refl _)
      · constructor
        · intro hyx
          rw [hyx] at hy0; rw [hy0]; exact dvd_zero _
        · intro hd
          have hx0 : magOf p w x = 0 := Nat.eq_zero_of_dvd_of_lt hd hlt
          rw [magOf_eq_zero_iff] at hx0
          rw [hy]
          exact Nat.div_mul_cancel (Nat.dvd_of_mod_eq_zero hx0)
    · rw [if_neg h2] at hy
      have hE0 : expOf p w x ≠ 0 := by omega
      have hk : p - (expOf p w x - b) ≤ p := by omega
      have hpow : 2 ^ (p - (expOf p w x - b)) * 2 ^ (expOf p w x - 1) = 2 ^ (b + p - 1) := by
        rw [← pow_add]; congr 1; omega
      have hmag := magOf_clear_low p w x _ hk hE0
      rw [hpow, ← hy] at hmag
      refine ⟨hmag, ?_, ?_⟩
      · rw [hy]; exact sgnOf_clear_low p w x _ (by omega)
      · rw [← hpow]
        have hmx : magOf p w x = (2 ^ p + manOf p x) * 2 ^ (expOf p w x - 1) := by
          rw [magOf_def, if_neg hE0]
        rw [hmx, Nat.mul_dvd_mul_iff_right (two_pow_pos' _)]
        have hkp : 2 ^ (p - (expOf p w x - b)) ∣ 2 ^ p := pow_dvd_pow 2 hk
        rw [(Nat.dvd_add_right hkp), manOf, Nat.dvd_mod_iff hkp, hy]
        constructor
        · intro h; exact Dvd.intro_left _ h
        · intro h; exact Nat.div_mul_cancel h

theorem abs_valOf (p w u : Nat) :
    |valOf p w u| = (magOf p w u : ℚ) / 2 ^ scaleOf p w := by
  unfold valOf svalOf
  have hC : (0 : ℚ) < 2 ^ scaleOf p w := by positivity
  rw [abs_div, abs_of_pos hC]
  split
  · rw [Int.cast_natCast, abs_of_nonneg (by positivity)]
  · rw [Int.cast_neg, Int.cast_natCast, abs_neg, abs_of_nonneg (by positivity)]

theorem isIntVal_valOf_iff (p w u : Nat) :
    IsIntVal (valOf p w u) ↔ 2 ^ scaleOf p w ∣ magOf p w u := by
  have hC : (2 : ℚ) ^ scaleOf p w ≠ 0 := by positivity
  have key : IsIntVal (valOf p w u) ↔ ((2 ^ scaleOf p w : Nat) : Int) ∣ svalOf p w u := by
    unfold IsIntVal valOf
    constructor
    · rintro ⟨n, hn⟩
      rw [div_eq_iff hC] at hn
      refine ⟨n, ?_⟩
      have : ((svalOf p w u : Int) : ℚ) = ((((2 ^ scaleOf p w : Nat) : Int) * n : Int) : ℚ) := by
        rw [hn]; push_cast; ring
      exact_mod_cast this
    · rintro ⟨n, hn⟩
      refine ⟨n, ?_⟩
      rw [div_eq_iff hC, hn]; push_cast; ring
  rw [key]
  unfold svalOf
  split
  · exact Int.natCast_dvd_natCast
  · rw [Int.dvd_neg]; exact Int.natCast_dvd_natCast

/-- Value-level reading of `mag y = ⌊mag x / C⌋ * C`: `y` is the integer part of `x`. -/
theorem val_of_mag_floor (p w x y : Nat)
    (h : magOf p w y = magOf p w x / 2 ^ scaleOf p w * 2 ^ scaleOf p w) :
    IsIntVal (valOf p w y) ∧ |valOf p w x| - 1 < |valOf p w y| ∧
      |valOf p w y| ≤ |valOf p w x| := by
  have hC : (0 : ℚ) < 2 ^ scaleOf p w := by positivity
  have hCn : 0 < 2 ^ scaleOf p w := two_pow_pos' _
  refine ⟨?_, ?_, ?_⟩
  · rw [isIntVal_valOf_iff, h]; exact Nat.dvd_mul_left _ _
  · rw [abs_valOf, abs_valOf, sub_lt_iff_lt_add, div_lt_iff₀ hC, add_mul, div_mul_cancel₀ _ hC.ne',
      one_mul]
    have h1 : magOf p w x < magOf p w y + 2 ^ scaleOf p w := by
      rw [h]; exact Nat.lt_div_mul_add hCn
    exact_mod_cast h1
  · rw [abs_valOf, abs_valOf, div_le_div_iff_of_pos_right hC]
    have h1 : magOf p w y ≤ magOf p w x := by rw [h]; exact Nat.div_mul_le_self _ _
    exact_mod_cast h1

theorem expOf_whole_clear (p w x : Nat) : expOf p w (x / 2 ^ (p + w) * 2 ^ (p + w)) = 0 := by
  unfold expOf
  rw [pow_add, Nat.mul_comm (2 ^ p), ← Nat.mul_assoc, Nat.mul_div_cancel _ (two_pow_pos' p)]
  exact Nat.mul_mod_left _ _

theorem truncG_exp (p w b x y : Nat)
    (hy : y = if expOf p w x ≥ b + p then x
      else x / 2 ^ (if expOf p w x < b then p + w else p - (expOf p w x - b)) *
        2 ^ (if expOf p w x < b then p + w else p - (expOf p w x - b))) :
    expOf p w y ≤ expOf p w x ∧ y ≤ x := by
  by_cases h1 : expOf p w x ≥ b + p
  · rw [if_pos h1] at hy; subst hy; exact ⟨le_refl _, le_refl _⟩
  · rw [if_neg h1] at hy
    refine ⟨?_, by rw [hy]; exact Nat.div_mul_le_self _ _⟩
    by_cases h2 : expOf p w x < b
    · rw [if_pos h2] at hy
      rw [hy, expOf_whole_clear]; exact Nat.zero_le _
    · rw [if_neg h2] at hy
      rw [hy, expOf_clear_low p w x _ (by omega)]

theorem scaleOf_double : scaleOf 52 11 = 1074 := by norm_num [scaleOf]

theorem scaleOf_float : scaleOf 23 8 = 149 := by norm_num [scaleOf]

theorem trunc_spec (x : Nat) (hx : x < 2 ^ 64) (hfin : isFinite64 x) :
    trunc x < 2 ^ 64 ∧ isFinite64 (trunc x) ∧ IsIntVal (val64 (trunc x)) ∧
    signbit (trunc x) = signbit x ∧
    |val64 x| - 1 < |val64 (trunc x)| ∧ |val64 (trunc x)| ≤ |val64 x| ∧
    (trunc x = x ↔ IsIntVal (val64 x)) := by
  have hy := trunc_eq x hx
  obtain ⟨hmag, hsgn, hiff⟩ := truncG_core 52 11 1023 x (trunc x) (by norm_num) (by norm_num) hy
  obtain ⟨hexp, hle⟩ := truncG_exp 52 11 1023 x (trunc x) hy
  have hc : 1023 + 52 - 1 = scaleOf 52 11 := by rw [scaleOf_double]
  rw [hc] at hmag hiff
  obtain ⟨h1, h2, h3⟩ := val_of_mag_floor 52 11 x (trunc x) hmag
  have hlt : trunc x < 2 ^ 64 := lt_of_le_of_lt hle hx
  refine ⟨hlt, ?_, h1, ?_, h2, h3, ?_⟩
  · unfold isFinite64 isFiniteOf at *
    have := expOf_lt 52 11 x
    omega
  · unfold sgnOf at hsgn
    unfold signbit
    rw [Nat.shiftRight_eq_div_pow, Nat.shiftRight_eq_div_pow]
    omega
  · unfold val64; rw [isIntVal_valOf_iff]; exact hiff

theorem truncf_spec (x : Nat) (hx : x < 2 ^ 32) (hfin : isFinite32 x) :
    truncf x < 2 ^ 32 ∧ isFinite32 (truncf x) ∧ IsIntVal (val32 (truncf x)) ∧
    truncf x >>> 31 = x >>> 31 ∧
    |val32 x| - 1 < |val32 (truncf x)| ∧ |val32 (truncf x)| ≤ |val32 x| ∧
    (truncf x = x ↔ IsIntVal (val32 x)) := by
  have hy := truncf_eq x hx
  obtain ⟨hmag, hsgn, hiff⟩ := truncG_core 23 8 127 x (truncf x) (by norm_num) (by norm_num) hy
  obtain ⟨hexp, hle⟩ := truncG_exp 23 8 127 x (truncf x) hy
  have hc : 127 + 23 - 1 = scaleOf 23 8 := by rw [scaleOf_float]
  rw [hc] at hmag hiff
  obtain ⟨h1, h2, h3⟩ := val_of_mag_floor 23 8 x (truncf x) hmag
  have hlt : truncf x < 2 ^ 32 := lt_of_le_of_lt hle hx
  refine ⟨hlt, ?_, h1, ?_, h2, h3, ?_⟩
  · unfold isFinite32 isFiniteOf at *
    have := expOf_lt 23 8 x
    omega
  · unfold sgnOf at hsgn
    rw [Nat.shiftRight_eq_div_pow, Nat.shiftRight_eq_div_pow]
    omega
  · unfold val32; rw [isIntVal_valOf_iff]; exact hiff

/-- C5: `trunc` and `truncf` round toward zero.  For every finite `x` the
result is a finite integer-valued pattern with the sign bit of `x`, it
satisfies `|x| - 1 < |trunc x| ≤ |x|`, and it is `x` itself exactly when `x` is
integer-valued; `trunc (-2.7) = -2.0`. -/
theorem trunc_truncf_toward_zero (x z : Nat) (hx : x < 2 ^ 64) (hxf : isFinite64 x)
    (hz : z < 2 ^ 32) (hzf : isFinite32 z) :
    (isFinite64 (trunc x) ∧ IsIntVal (val64 (trunc x)) ∧ signbit (trunc x) = signbit x ∧
      |val64 x| - 1 < |val64 (trunc x)| ∧ |val64 (trunc x)| ≤ |val64 x| ∧
      (trunc x = x ↔ IsIntVal (val64 x))) ∧
    (isFinite32 (truncf z) ∧ IsIntVal (val32 (truncf z)) ∧ truncf z >>> 31 = z >>> 31 ∧
      |val32 z| - 1 < |val32 (truncf z)| ∧ |val32 (truncf z)| ≤ |val32 z| ∧
      (truncf z = z ↔ IsIntVal (val32 z))) ∧
    trunc 0xc00599999999999a = 0xc000000000000000 :=
  ⟨(trunc_spec x hx hxf).2, (truncf_spec z hz hzf).2, by decide⟩

/-- Witness for C5 at `x = -2.7` and `z = 1.5f`. -/
theorem trunc_truncf_toward_zero_witness :
    trunc 0xc00599999999999a = 0xc000000000000000 ∧ truncf 0x3fc00000 = 0x3f800000 ∧
    |val64 0xc00599999999999a| - 1 < |val64 (trunc 0xc00599999999999a)| :=
  ⟨by decide, by decide,
   (trunc_truncf_toward_zero 0xc00599999999999a 0x3fc00000 (by decide) (by decide)
      (by decide) (by decide)).1.2.2.2.1⟩

theorem fields_of_parts (p w s E M : Nat) (hM : M < 2 ^ p) (hE : E < 2 ^ w) (hs : s < 2) :
    expOf p w (s * 2 ^ (p + w) + E * 2 ^ p + M) = E ∧
    manOf p (s * 2 ^ (p + w) + E * 2 ^ p + M) = M ∧
    sgnOf p w (s * 2 ^ (p + w) + E * 2 ^ p + M) = s := by
  have hP := two_pow_pos' p
  have hW := two_pow_pos' w
  have e1 : s * 2 ^ (p + w) + E * 2 ^ p + M = M + 2 ^ p * (E + 2 ^ w * s) := by
    rw [pow_add]; ring
  have hdiv : (M + 2 ^ p * (E + 2 ^ w * s)) / 2 ^ p = E + 2 ^ w * s := by
    rw [Nat.add_mul_div_left _ _ hP, Nat.div_eq_of_lt hM, Nat.zero_add]
  refine ⟨?_, ?_, ?_⟩
  · unfold expOf
    rw [e1, hdiv, Nat.add_mul_mod_self_left, Nat.mod_eq_of_lt hE]
  · unfold manOf
    rw [e1, Nat.add_mul_mod_self_left, Nat.mod_eq_of_lt hM]
  · unfold sgnOf
    rw [e1, pow_add, ← Nat.div_div_eq_div_mul, hdiv, Nat.add_mul_div_left _ _ hW,
      Nat.div_eq_of_lt hE, Nat.zero_add, Nat.mod_eq_of_lt hs]

theorem parts_of_fields (p w x : Nat) (hx : x < 2 ^ (p + w + 1)) :
    x = sgnOf p w x * 2 ^ (p + w) + expOf p w x * 2 ^ p + manOf p x ∧ sgnOf p w x < 2 := by
  unfold sgnOf expOf manOf
  have h1 := Nat.div_add_mod x (2 ^ p)
  have h2 := Nat.div_add_mod (x / 2 ^ p) (2 ^ w)
  have h3 : x / 2 ^ p / 2 ^ w = x / 2 ^ (p + w) := by rw [Nat.div_div_eq_div_mul, pow_add]
  have h4 : x / 2 ^ (p + w) < 2 := by
    rw [Nat.div_lt_iff_lt_mul (two_pow_pos' _), Nat.mul_comm, ← pow_succ]; exact hx
  rw [h3] at h2
  refine ⟨?_, Nat.mod_lt _ (by norm_num)⟩
  rw [Nat.mod_eq_of_lt h4]
  calc x = 2 ^ p * (x / 2 ^ p) + x % 2 ^ p := h1.symm
    _ = 2 ^ p * (2 ^ w * (x / 2 ^ (p + w)) + x / 2 ^ p % 2 ^ w) + x % 2 ^ p := by rw [h2]
    _ = _ := by rw [pow_add]; ring

/-- Magnitude of the pattern `s, e * 2 ^ p + A` for a full significand
`2 ^ p ≤ A ≤ 2 ^ (p + 1)`: the carry of `A = 2 ^ (p + 1)` into the exponent
field gives the right value. -/
theorem enc_fields (p w s e A : Nat) (hs : s < 2) (hA1 : 2 ^ p ≤ A) (hA2 : A ≤ 2 ^ (p + 1))
    (he : e + 2 < 2 ^ w) :
    magOf p w (s * 2 ^ (p + w) + e * 2 ^ p + A) = A * 2 ^ e ∧
    sgnOf p w (s * 2 ^ (p + w) + e * 2 ^ p + A) = s ∧
    e + 1 ≤ expOf p w (s * 2 ^ (p + w) + e * 2 ^ p + A) ∧
    expOf p w (s * 2 ^ (p + w) + e * 2 ^ p + A) ≤ e + 2 ∧
    (A < 2 ^ (p + 1) → expOf p w (s * 2 ^ (p + w) + e * 2 ^ p + A) = e + 1) := by
  have hpow : 2 ^ (p + 1) = 2 ^ p + 2 ^ p := by rw [pow_succ]; omega
  by_cases hA : A < 2 ^ (p + 1)
  · have e1 : s * 2 ^ (p + w) + e * 2 ^ p + A = s * 2 ^ (p + w) + (e + 1) * 2 ^ p + (A - 2 ^ p) := by
      rw [Nat.add_mul, one_mul]; omega
    obtain ⟨h1, h2, h3⟩ := fields_of_parts p w s (e + 1) (A - 2 ^ p) (by omega) (by omega) hs
    rw [← e1] at h1 h2 h3
    refine ⟨?_, h3, by omega, by omega, fun _ => h1⟩
    simp only [magOf_def]
    rw [h1, h2, if_neg (by omega)]
    have : 2 ^ p + (A - 2 ^ p) = A := by omega
    rw [this]; rfl
  · have hAe : A = 2 ^ (p + 1) := by omega
    have e1 : s * 2 ^ (p + w) + e * 2 ^ p + A = s * 2 ^ (p + w) + (e + 2) * 2 ^ p + 0 := by
      rw [Nat.add_mul, hAe, hpow]; omega
    obtain ⟨h1, h2, h3⟩ := fields_of_parts p w s (e + 2) 0 (two_pow_pos' p) (by omega) hs
    rw [← e1] at h1 h2 h3
    refine ⟨?_, h3, by omega, by omega, fun h => absurd h hA⟩
    simp only [magOf_def]
    rw [h1, h2, if_neg (by omega), hAe]
    have : e + 2 - 1 = e + 1 := by omega
    rw [this, Nat.add_zero, pow_succ, pow_succ]; ring

theorem mask_down (N1 N2 x n q e : Nat) (hN1 : N1 = 2 ^ q - 1) (hN2 : N2 = 2 ^ n - 1)
    (he : e ≤ q) (hq : q ≤ n) (hx : x < 2 ^ n) :
    (if x &&& (N1 >>> e) = 0 then x else x &&& (N2 ^^^ (N1 >>> e))) =
      x / 2 ^ (q - e) * 2 ^ (q - e) := by
  subst hN1 hN2
  rw [ones_shiftRight q e he, and_low_mask, and_high_mask x n _ (by omega), Nat.mod_eq_of_lt hx]
  split
  · next h =>
    have := Nat.div_add_mod x (2 ^ (q - e))
    rw [h, Nat.mul_comm] at this
    omega
  · rfl

theorem mask_up (N1 N2 x n q e : Nat) (hN1 : N1 = 2 ^ q - 1) (hN2 : N2 = 2 ^ n - 1)
    (he : e ≤ q) (hq : q ≤ n) (hx : x + (2 ^ (q - e) - 1) < 2 ^ n) :
    (if x &&& (N1 >>> e) = 0 then x else ((x + (N1 >>> e)) % 2 ^ n) &&& (N2 ^^^ (N1 >>> e))) =
      (x + (2 ^ (q - e) - 1)) / 2 ^ (q - e) * 2 ^ (q - e) := by
  subst hN1 hN2
  rw [ones_shiftRight q e he, and_low_mask, and_high_mask _ n _ (by omega), Nat.mod_eq_of_lt hx,
    Nat.mod_eq_of_lt hx]
  split
  · next h =>
    have hK := two_pow_pos' (q - e)
    obtain ⟨t, ht⟩ : 2 ^ (q - e) ∣ x := Nat.dvd_of_mod_eq_zero h
    subst ht
    generalize 2 ^ (q - e) = K at *
    rw [Nat.mul_add_div hK, Nat.div_eq_of_lt (by omega), Nat.add_zero, Nat.mul_comm]
  · rfl

theorem ceilf_eq (x : Nat) (hx : x < 2 ^ 32) :
    ceilf x = if expOf 23 8 x ≥ 150 then x
      else if expOf 23 8 x ≥ 127 then
        (if x / 2 ^ 31 = 0 then
          (x + (2 ^ (150 - expOf 23 8 x) - 1)) / 2 ^ (150 - expOf 23 8 x) *
            2 ^ (150 - expOf 23 8 x)
        else x / 2 ^ (150 - expOf 23 8 x) * 2 ^ (150 - expOf 23 8 x))
      else if x / 2 ^ 31 ≠ 0 then 0x80000000 else if x ≠ 0 then 0x3f800000 else x := by
  have hE : (x >>> 23) &&& 0xff = expOf 23 8 x := by
    have h1 : (0xff : Nat) = 2 ^ 8 - 1 := by norm_num
    rw [h1, and_low_mask, Nat.shiftRight_eq_div_pow, expOf]
  have hEx : expOf 23 8 x = x / 2 ^ 23 % 2 ^ 8 := rfl
  unfold ceilf not32
  rw [hE, Nat.shiftRight_eq_div_pow, Nat.shiftLeft_eq]
  generalize hEd : expOf 23 8 x = E at *
  have hElt : E < 2 ^ 8 := by rw [← hEd]; exact Nat.mod_lt _ (by norm_num)
  dsimp only
  by_cases h1 : E ≥ 150
  · have : (E : Int) - 0x7f ≥ 23 := by omega
    rw [if_pos this, if_pos h1]
  · have h1' : ¬ ((E : Int) - 0x7f ≥ 23) := by omega
    rw [if_neg h1', if_neg h1]
    by_cases h2 : E ≥ 127
    · have h2' : (E : Int) - 0x7f ≥ 0 := by omega
      rw [if_pos h2, if_pos h2']
      have h3 : ((E : Int) - 0x7f).toNat = E - 127 := by omega
      have h4 : 150 - E = 23 - (E - 127) := by omega
      rw [h3, h4]
      by_cases h5 : x / 2 ^ 31 = 0
      · simp only [h5, if_true]
        have hK : 2 ^ (23 - (E - 127)) ≤ 2 ^ 23 := Nat.pow_le_pow_right (by norm_num) (by omega)
        rw [← ones_shiftRight 23 (E - 127) (by omega)]
        have := mask_up (0x007fffff) (0xffffffff) x 32 23 (E - 127) (by norm_num) (by norm_num)
          (by omega) (by norm_num) (by omega)
        rw [← ones_shiftRight 23 (E - 127) (by omega)] at this
        exact this
      · simp only [h5, if_false]
        exact mask_down (0x007fffff) (0xffffffff) x 32 23 (E - 127) (by norm_num) (by norm_num)
          (by omega) (by norm_num) hx
    · have h2' : ¬ ((E : Int) - 0x7f ≥ 0) := by omega
      rw [if_neg h2, if_neg h2']
      by_cases h5 : x / 2 ^ 31 = 0
      · have h6 : ¬ (x / 2 ^ 31 ≠ 0) := by omega
        rw [if_neg h6, if_neg h6]
        by_cases h7 : x = 0
        · subst h7; simp
        · have h8 : x * 2 ^ 1 % 2 ^ 32 ≠ 0 := by omega
          rw [if_pos h8, if_pos h7]
      · rw [if_pos h5, if_pos h5]
theorem floorf_eq (x : Nat) (hx : x < 2 ^ 32) :
    floorf x = if expOf 23 8 x ≥ 150 then x
      else if expOf 23 8 x ≥ 127 then
        (if x / 2 ^ 31 ≠ 0 then
          (x + (2 ^ (150 - expOf 23 8 x) - 1)) / 2 ^ (150 - expOf 23 8 x) *
            2 ^ (150 - expOf 23 8 x)
        else x / 2 ^ (150 - expOf 23 8 x) * 2 ^ (150 - expOf 23 8 x))
      else if x / 2 ^ 31 = 0 then 0 else if x ≠ 0x80000000 then 0xbf800000 else x := by
  have hE : (x >>> 23) &&& 0xff = expOf 23 8 x := by
    have h1 : (0xff : Nat) = 2 ^ 8 - 1 := by norm_num
    rw [h1, and_low_mask, Nat.shiftRight_eq_div_pow, expOf]
  have hEx : expOf 23 8 x = x / 2 ^ 23 % 2 ^ 8 := rfl
  unfold floorf not32
  rw [hE, Nat.shiftRight_eq_div_pow, Nat.shiftLeft_eq]
  generalize hEd : expOf 23 8 x = E at *
  have hElt : E < 2 ^ 8 := by rw [← hEd]; exact Nat.mod_lt _ (by norm_num)
  dsimp only
  by_cases h1 : E ≥ 150
  · have : (E : Int) - 0x7f ≥ 23 := by omega
    rw [if_pos this, if_pos h1]
  · have h1' : ¬ ((E : Int) - 0x7f ≥ 23) := by omega
    rw [if_neg h1', if_neg h1]
    by_cases h2 : E ≥ 127
    · have h2' : (E : Int) - 0x7f ≥ 0 := by omega
      rw [if_pos h2, if_pos h2']
      have h3 : ((E : Int) - 0x7f).toNat = E - 127 := by omega
      have h4 : 150 - E = 23 - (E - 127) := by omega
      rw [h3, h4]
      by_cases h5 : x / 2 ^ 31 ≠ 0
      · rw [if_pos h5, if_pos h5]
        have hK : 2 ^ (23 - (E - 127)) ≤ 2 ^ 23 := Nat.pow_le_pow_right (by norm_num) (by omega)
        rw [← ones_shiftRight 23 (E - 127) (by omega)]
        have := mask_up (0x007fffff) (0xffffffff) x 32 23 (E - 127) (by norm_num) (by norm_num)
          (by omega) (by norm_num) (by omega)
        rw [← ones_shiftRight 23 (E - 127) (by omega)] at this
        exact this
      · rw [if_neg h5, if_neg h5]
        exact mask_down (0x007fffff) (0xffffffff) x 32 23 (E - 127) (by norm_num) (by norm_num)
          (by omega) (by norm_num) hx
    · have h2' : ¬ ((E : Int) - 0x7f ≥ 0) := by omega
      rw [if_neg h2, if_neg h2']
      by_cases h5 : x / 2 ^ 31 = 0
      · rw [if_pos h5, if_pos h5]
      · rw [if_neg h5, if_neg h5]
        by_cases h7 : x = 0x80000000
        · subst h7; simp
        · have h8 : x * 2 ^ 1 % 2 ^ 32 ≠ 0 := by omega
          rw [if_pos h8, if_pos h7]

theorem ceil_div_mul (a K B : Nat) (hK : 0 < K) (hB : 0 < B) :
    (a * B + K * B - 1) / (K * B) = (a + K - 1) / K := by
  rcases Nat.eq_zero_or_pos a with h0 | hpos
  · subst h0
    have h1 : 0 < K * B := Nat.mul_pos hK hB
    rw [Nat.zero_mul, Nat.zero_add, Nat.zero_add, Nat.div_eq_of_lt (by omega),
      Nat.div_eq_of_lt (by omega)]
  · obtain ⟨a', rfl⟩ : ∃ a', a = a' + 1 := ⟨a - 1, by omega⟩
    have e1 : (a' + 1) * B + K * B - 1 = (a' * B + (B - 1)) + K * B := by
      rw [Nat.add_mul, one_mul]; omega
    have e2 : a' + 1 + K - 1 = a' + K := by omega
    rw [e1, e2, Nat.add_div_right _ (Nat.mul_pos hK hB), Nat.add_div_right _ hK,
      Nat.mul_comm K B, ← Nat.div_div_eq_div_mul, Nat.mul_comm a' B,
      Nat.mul_add_div hB, Nat.div_eq_of_lt (by omega : B - 1 < B)]
    rfl

theorem dvd_mid_iff (p w b x : Nat) (hb : 1 ≤ b) (hE1 : b ≤ expOf p w x)
    (hE2 : expOf p w x < b + p) :
    2 ^ (b + p - 1) ∣ magOf p w x ↔ 2 ^ (p - (expOf p w x - b)) ∣ x := by
  have hE0 : expOf p w x ≠ 0 := by omega
  have hk : p - (expOf p w x - b) ≤ p := by omega
  have hpow : 2 ^ (p - (expOf p w x - b)) * 2 ^ (expOf p w x - 1) = 2 ^ (b + p - 1) := by
    rw [← pow_add]; congr 1; omega
  have hmx : magOf p w x = (2 ^ p + manOf p x) * 2 ^ (expOf p w x - 1) := by
    rw [magOf_def, if_neg hE0]
  have hkp : 2 ^ (p - (expOf p w x - b)) ∣ 2 ^ p := pow_dvd_pow 2 hk
  rw [← hpow, hmx, Nat.mul_dvd_mul_iff_right (two_pow_pos' _), (Nat.dvd_add_right hkp), manOf,
    Nat.dvd_mod_iff hkp]

theorem magOf_round_up (p w b x : Nat) (hx : x < 2 ^ (p + w + 1)) (hb : 1 ≤ b)
    (hE1 : b ≤ expOf p w x) (hE2 : expOf p w x < b + p) (hbw : b + p + 1 < 2 ^ w) :
    magOf p w ((x + (2 ^ (p - (expOf p w x - b)) - 1)) / 2 ^ (p - (expOf p w x - b)) *
        2 ^ (p - (expOf p w x - b))) =
      (magOf p w x + 2 ^ (b + p - 1) - 1) / 2 ^ (b + p - 1) * 2 ^ (b + p - 1) ∧
    sgnOf p w ((x + (2 ^ (p - (expOf p w x - b)) - 1)) / 2 ^ (p - (expOf p w x - b)) *
        2 ^ (p - (expOf p w x - b))) = sgnOf p w x ∧
    expOf p w ((x + (2 ^ (p - (expOf p w x - b)) - 1)) / 2 ^ (p - (expOf p w x - b)) *
        2 ^ (p - (expOf p w x - b))) ≤ expOf p w x + 1 ∧
    (x + (2 ^ (p - (expOf p w x - b)) - 1)) / 2 ^ (p - (expOf p w x - b)) *
        2 ^ (p - (expOf p w x - b)) < 2 ^ (p + w + 1) := by
  obtain ⟨hparts, hs⟩ := parts_of_fields p w x hx
  have hM := manOf_lt p x
  have hE0 : expOf p w x ≠ 0 := by omega
  have hmx : magOf p w x = (2 ^ p + manOf p x) * 2 ^ (expOf p w x - 1) := by
    rw [magOf_def, if_neg hE0]
  have hpow : 2 ^ (p - (expOf p w x - b)) * 2 ^ (expOf p w x - 1) = 2 ^ (b + p - 1) := by
    rw [← pow_add]; congr 1; omega
  have hkp : p - (expOf p w x - b) ≤ p := by omega
  have hP := two_pow_split p _ hkp
  rw [hmx]
  generalize hsd : sgnOf p w x = s at *
  generalize hEd : expOf p w x = E at *
  generalize hMd : manOf p x = M at *
  generalize hkd : p - (E - b) = k at *
  generalize hKd : 2 ^ k = K at *
  generalize hBd : 2 ^ (E - 1) = B at *
  generalize hQd : 2 ^ (p - k) = Q at *
  have hK : 0 < K := by rw [← hKd]; exact two_pow_pos' _
  have hB : 0 < B := by rw [← hBd]; exact two_pow_pos' _
  have hQ : 0 < Q := by rw [← hQd]; exact two_pow_pos' _
  -- the rounded pattern
  have hy : (x + (K - 1)) / K * K =
      s * 2 ^ (p + w) + (E - 1) * 2 ^ p + (2 ^ p + (M + K - 1) / K * K) := by
    have e1 : x + (K - 1) = (M + K - 1) + (s * (Q * 2 ^ w) + E * Q) * K := by
      rw [hparts, pow_add, hP]
      have : s * (Q * K * 2 ^ w) + E * (Q * K) = (s * (Q * 2 ^ w) + E * Q) * K := by ring
      omega
    have e2 : (E - 1) * 2 ^ p + 2 ^ p = E * 2 ^ p := by
      obtain ⟨E', rfl⟩ : ∃ E', E = E' + 1 := ⟨E - 1, by omega⟩
      rw [Nat.add_sub_cancel, Nat.add_mul, one_mul]
    rw [e1, Nat.add_mul_div_right _ _ hK, Nat.add_mul, Nat.add_assoc (s * 2 ^ (p + w)),
      ← Nat.add_assoc ((E - 1) * 2 ^ p), e2, pow_add, hP]
    ring
  have hA1 : 2 ^ p ≤ 2 ^ p + (M + K - 1) / K * K := Nat.le_add_right _ _
  have hA2 : 2 ^ p + (M + K - 1) / K * K ≤ 2 ^ (p + 1) := by
    have h1 : (M + K - 1) / K ≤ Q := by
      rw [Nat.div_le_iff_le_mul_add_pred hK, Nat.mul_comm K Q, ← hP]; omega
    have h2 : (M + K - 1) / K * K ≤ Q * K := Nat.mul_le_mul_right K h1
    rw [pow_succ]; omega
  obtain ⟨g1, g2, g3, g4, _⟩ := enc_fields p w s (E - 1) _ hs hA1 hA2 (by omega)
  rw [← hy] at g1 g2 g3 g4
  rw [hBd] at g1
  refine ⟨?_, g2, by omega, ?_⟩
  · rw [g1, ← hpow, ceil_div_mul _ K B hK hB]
    have h3 : (2 ^ p + M + K - 1) / K = Q + (M + K - 1) / K := by
      have : 2 ^ p + M + K - 1 = (M + K - 1) + Q * K := by omega
      rw [this, Nat.add_mul_div_right _ _ hK, Nat.add_comm]
    rw [h3, hP]; ring
  · rw [hy]
    have hW : 2 ^ (p + w) = 2 ^ p * 2 ^ w := pow_add 2 p w
    have h1 : 2 ^ (p + w + 1) = 2 ^ p * 2 ^ w + 2 ^ p * 2 ^ w := by rw [pow_succ, hW]; omega
    have h2 : 2 ^ (p + 1) = 2 ^ p + 2 ^ p := by rw [pow_succ]; omega
    have h3 : (E - 1) * 2 ^ p + 2 ^ p + 2 ^ p + 2 ^ p ≤ 2 ^ p * 2 ^ w := by
      have h5 : E + 2 ≤ 2 ^ w := by omega
      have h6 := Nat.mul_le_mul_left (2 ^ p) h5
      obtain ⟨E', rfl⟩ : ∃ E', E = E' + 1 := ⟨E - 1, by omega⟩
      rw [Nat.add_sub_cancel]
      have : 2 ^ p * (E' + 1 + 2) = E' * 2 ^ p + 2 ^ p + 2 ^ p + 2 ^ p := by ring
      omega
    have hs' : s * (2 ^ p * 2 ^ w) ≤ 2 ^ p * 2 ^ w := by
      have := Nat.mul_le_mul_right (2 ^ p * 2 ^ w) (Nat.le_of_lt_succ hs)
      omega
    have hPpos := two_pow_pos' p
    rw [h1, hW]
    rw [h2] at hA2
    omega

theorem ceil_mul_of_dvd (m C : Nat) (hC : 0 < C) (h : C ∣ m) : (m + C - 1) / C * C = m := by
  obtain ⟨t, rfl⟩ := h
  have : C * t + C - 1 = C * t + (C - 1) := by omega
  rw [this, Nat.mul_add_div hC, Nat.div_eq_of_lt (by omega : C - 1 < C), Nat.add_zero,
    Nat.mul_comm]

theorem upG_core (p w b x y : Nat) (hx : x < 2 ^ (p + w + 1)) (hb : 1 ≤ b) (hp : 1 ≤ p)
    (hbw : b + p + 1 < 2 ^ w)
    (hy : y = if expOf p w x ≥ b + p then x
      else if expOf p w x ≥ b then
        (x + (2 ^ (p - (expOf p w x - b)) - 1)) / 2 ^ (p - (expOf p w x - b)) *
          2 ^ (p - (expOf p w x - b))
      else if x % 2 ^ (p + w) = 0 then x else sgnOf p w x * 2 ^ (p + w) + b * 2 ^ p) :
    magOf p w y = (magOf p w x + 2 ^ (b + p - 1) - 1) / 2 ^ (b + p - 1) * 2 ^ (b + p - 1) ∧
    sgnOf p w y = sgnOf p w x ∧ y < 2 ^ (p + w + 1) ∧
    (isFiniteOf p w x → isFiniteOf p w y) ∧
    (2 ^ (b + p - 1) ∣ magOf p w x → y = x) := by
  have hC := two_pow_pos' (b + p - 1)
  by_cases h1 : expOf p w x ≥ b + p
  · rw [if_pos h1] at hy
    subst hy
    have hd := magOf_large_dvd p w b y hp h1
    exact ⟨(ceil_mul_of_dvd _ _ hC hd).symm, rfl, hx, id, fun _ => rfl⟩
  · rw [if_neg h1] at hy
    by_cases h2 : expOf p w x ≥ b
    · rw [if_pos h2] at hy
      obtain ⟨g1, g2, g3, g4⟩ := magOf_round_up p w b x hx hb h2 (by omega) hbw
      rw [← hy] at g1 g2 g3 g4
      refine ⟨g1, g2, g4, ?_, ?_⟩
      · intro _; unfold isFiniteOf; omega
      · intro hd
        rw [dvd_mid_iff p w b x hb h2 (by omega)] at hd
        rw [hy]
        obtain ⟨t, ht⟩ := hd
        have hK := two_pow_pos' (p - (expOf p w x - b))
        generalize 2 ^ (p - (expOf p w x - b)) = K at *
        rw [ht, Nat.mul_add_div hK, Nat.div_eq_of_lt (by omega : K - 1 < K), Nat.add_zero,
          Nat.mul_comm]
    · rw [if_neg h2] at hy
      have hlt := magOf_small_lt p w b x (by omega)
      by_cases h3 : x % 2 ^ (p + w) = 0
      · rw [if_pos h3] at hy
        subst hy
        have h0 := (magOf_eq_zero_iff p w y).2 h3
        refine ⟨?_, rfl, hx, id, fun _ => rfl⟩
        rw [h0, Nat.zero_add, Nat.div_eq_of_lt (by omega)]; simp
      · rw [if_neg h3] at hy
        have hs := (parts_of_fields p w x hx).2
        have e1 : sgnOf p w x * 2 ^ (p + w) + b * 2 ^ p =
            sgnOf p w x * 2 ^ (p + w) + (b - 1) * 2 ^ p + 2 ^ p := by
          obtain ⟨b', rfl⟩ : ∃ b', b = b' + 1 := ⟨b - 1, by omega⟩
          rw [Nat.add_sub_cancel, Nat.add_mul, one_mul, Nat.add_assoc]
        have hpp : 2 ^ p < 2 ^ (p + 1) := by rw [pow_succ]; have := two_pow_pos' p; omega
        obtain ⟨g1, g2, g3, g4, g5⟩ := enc_fields p w (sgnOf p w x) (b - 1) (2 ^ p) hs (le_refl _)
          (le_of_lt hpp) (by omega)
        have g5 := g5 hpp
        rw [← e1, ← hy] at g1 g2 g5
        have hne : magOf p w x ≠ 0 := fun h => h3 ((magOf_eq_zero_iff p w x).1 h)
        have hCe : 2 ^ p * 2 ^ (b - 1) = 2 ^ (b + p - 1) := by
          rw [← pow_add]; congr 1; omega
        refine ⟨?_, g2, ?_, ?_, ?_⟩
        · rw [g1, hCe]
          have : (magOf p w x + 2 ^ (b + p - 1) - 1) / 2 ^ (b + p - 1) = 1 := by
            apply Nat.div_eq_of_lt_le <;> omega
          rw [this, one_mul]
        · rw [hy, e1]
          have hW : 2 ^ (p + w) = 2 ^ p * 2 ^ w := pow_add 2 p w
          have h1 : 2 ^ (p + w + 1) = 2 ^ p * 2 ^ w + 2 ^ p * 2 ^ w := by rw [pow_succ, hW]; omega
          have h5 : (b - 1) * 2 ^ p + 2 ^ p < 2 ^ p * 2 ^ w := by
            have h6 : b < 2 ^ w := by omega
            have h7 := Nat.mul_lt_mul_of_pos_left h6 (two_pow_pos' p)
            obtain ⟨b', rfl⟩ : ∃ b', b = b' + 1 := ⟨b - 1, by omega⟩
            rw [Nat.add_sub_cancel]
            have : 2 ^ p * (b' + 1) = b' * 2 ^ p + 2 ^ p := by ring
            omega
          have hs' : sgnOf p w x * (2 ^ p * 2 ^ w) ≤ 2 ^ p * 2 ^ w := by
            have := Nat.mul_le_mul_right (2 ^ p * 2 ^ w) (Nat.le_of_lt_succ hs)
            omega
          rw [h1, hW]; omega
        · intro _; unfold isFiniteOf; omega
        · intro hd
          exact absurd (Nat.eq_zero_of_dvd_of_lt hd hlt) hne

theorem ceilf_up (x : Nat) (hx : x < 2 ^ 32) (hs : x / 2 ^ 31 = 0) :
    ceilf x = if expOf 23 8 x ≥ 127 + 23 then x
      else if expOf 23 8 x ≥ 127 then
        (x + (2 ^ (23 - (expOf 23 8 x - 127)) - 1)) / 2 ^ (23 - (expOf 23 8 x - 127)) *
          2 ^ (23 - (expOf 23 8 x - 127))
      else if x % 2 ^ (23 + 8) = 0 then x else sgnOf 23 8 x * 2 ^ (23 + 8) + 127 * 2 ^ 23 := by
  rw [ceilf_eq x hx]
  have hsg : sgnOf 23 8 x = 0 := by unfold sgnOf; omega
  rw [hsg]
  by_cases h1 : expOf 23 8 x ≥ 150
  · rw [if_pos h1, if_pos h1]
  · rw [if_neg h1, if_neg h1]
    by_cases h2 : expOf 23 8 x ≥ 127
    · rw [if_pos h2, if_pos h2, if_pos hs]
      have : 150 - expOf 23 8 x = 23 - (expOf 23 8 x - 127) := by omega
      rw [this]
    · rw [if_neg h2, if_neg h2, if_neg (by omega)]
      by_cases h3 : x = 0
      · subst h3; simp
      · rw [if_pos h3, if_neg (by omega)]; norm_num

theorem ceilf_down (x : Nat) (hx : x < 2 ^ 32) (hs : x / 2 ^ 31 ≠ 0) :
    ceilf x = if expOf 23 8 x ≥ 127 + 23 then x
      else x / 2 ^ (if expOf 23 8 x < 127 then 23 + 8 else 23 - (expOf 23 8 x - 127)) *
        2 ^ (if expOf 23 8 x < 127 then 23 + 8 else 23 - (expOf 23 8 x - 127)) := by
  rw [ceilf_eq x hx]
  by_cases h1 : expOf 23 8 x ≥ 150
  · rw [if_pos h1, if_pos h1]
  · rw [if_neg h1, if_neg h1]
    by_cases h2 : expOf 23 8 x ≥ 127
    · rw [if_pos h2, if_neg hs, if_neg (by omega)]
      have : 150 - expOf 23 8 x = 23 - (expOf 23 8 x - 127) := by omega
      rw [this]
    · rw [if_neg h2, if_pos hs, if_pos (by omega)]
      omega

theorem floorf_up (x : Nat) (hx : x < 2 ^ 32) (hs : x / 2 ^ 31 ≠ 0) :
    floorf x = if expOf 23 8 x ≥ 127 + 23 then x
      else if expOf 23 8 x ≥ 127 then
        (x + (2 ^ (23 - (expOf 23 8 x - 127)) - 1)) / 2 ^ (23 - (expOf 23 8 x - 127)) *
          2 ^ (23 - (expOf 23 8 x - 127))
      else if x % 2 ^ (23 + 8) = 0 then x else sgnOf 23 8 x * 2 ^ (23 + 8) + 127 * 2 ^ 23 := by
  rw [floorf_eq x hx]
  have hsg : sgnOf 23 8 x = 1 := by unfold sgnOf; omega
  rw [hsg]
  by_cases h1 : expOf 23 8 x ≥ 150
  · rw [if_pos h1, if_pos h1]
  · rw [if_neg h1, if_neg h1]
    by_cases h2 : expOf 23 8 x ≥ 127
    · rw [if_pos h2, if_pos h2, if_pos hs]
      have : 150 - expOf 23 8 x = 23 - (expOf 23 8 x - 127) := by omega
      rw [this]
    · rw [if_neg h2, if_neg h2, if_neg hs]
      by_cases h3 : x = 0x80000000
      · subst h3; simp
      · rw [if_pos h3, if_neg (by omega)]; norm_num

theorem floorf_down (x : Nat) (hx : x < 2 ^ 32) (hs : x / 2 ^ 31 = 0) :
    floorf x = if expOf 23 8 x ≥ 127 + 23 then x
      else x / 2 ^ (if expOf 23 8 x < 127 then 23 + 8 else 23 - (expOf 23 8 x - 127)) *
        2 ^ (if expOf 23 8 x < 127 then 23 + 8 else 23 - (expOf 23 8 x - 127)) := by
  rw [floorf_eq x hx]
  by_cases h1 : expOf 23 8 x ≥ 150
  · rw [if_pos h1, if_pos h1]
  · rw [if_neg h1, if_neg h1]
    by_cases h2 : expOf 23 8 x ≥ 127
    · rw [if_pos h2, if_neg (by omega), if_neg (by omega)]
      have : 150 - expOf 23 8 x = 23 - (expOf 23 8 x - 127) := by omega
      rw [this]
    · rw [if_neg h2, if_pos hs, if_pos (by omega)]
      omega

theorem floor_nat_div (m C : Nat) (hC : 0 < C) : ⌊(m : ℚ) / (C : ℚ)⌋ = ((m / C : Nat) : Int) := by
  have hCq : (0 : ℚ) < C := by exact_mod_cast hC
  rw [Int.floor_eq_iff]
  constructor
  · rw [le_div_iff₀ hCq]
    have := Nat.div_mul_le_self m C
    exact_mod_cast this
  · rw [div_lt_iff₀ hCq]
    have := Nat.lt_div_mul_add hC (a := m)
    have h2 : m < (m / C + 1) * C := by rw [Nat.add_mul, one_mul]; exact this
    exact_mod_cast h2

theorem ceil_nat_div (m C : Nat) (hC : 0 < C) :
    ⌈(m : ℚ) / (C : ℚ)⌉ = (((m + C - 1) / C : Nat) : Int) := by
  have hCq : (0 : ℚ) < C := by exact_mod_cast hC
  have h1 : (m + C - 1) / C * C ≤ m + C - 1 := Nat.div_mul_le_self _ _
  have h2 := Nat.lt_div_mul_add hC (a := m + C - 1)
  have h3 : (m + C - 1) / C * C < m + C := by omega
  have h5 : m ≤ (m + C - 1) / C * C := by omega
  generalize (m + C - 1) / C = q at *
  have h4 : (q : ℚ) * C < m + C := by exact_mod_cast h3
  have h6 : (m : ℚ) ≤ q * C := by exact_mod_cast h5
  rw [Int.ceil_eq_iff, Int.cast_natCast]
  constructor
  · rw [lt_div_iff₀ hCq]; linarith
  · rw [div_le_iff₀ hCq]; exact h6

theorem valOf_of_mag (p w y q : Nat) (h : magOf p w y = q * 2 ^ scaleOf p w) :
    valOf p w y = if sgnOf p w y = 0 then (q : ℚ) else -(q : ℚ) := by
  have hC : (2 : ℚ) ^ scaleOf p w ≠ 0 := by positivity
  unfold valOf svalOf
  rw [h]
  split
  · push_cast; field_simp
  · push_cast; field_simp

theorem valOf_eq_div (p w x : Nat) :
    valOf p w x = if sgnOf p w x = 0 then (magOf p w x : ℚ) / ((2 ^ scaleOf p w : Nat) : ℚ)
      else -((magOf p w x : ℚ) / ((2 ^ scaleOf p w : Nat) : ℚ)) := by
  unfold valOf svalOf
  split
  · push_cast; rfl
  · push_cast; ring

/-- Value-level reading of a magnitude rounded down for non-negative and up
for negative patterns: the floor. -/
theorem val_floor_of (p w x y : Nat) (hs : sgnOf p w y = sgnOf p w x)
    (hm : magOf p w y = if sgnOf p w x = 0
      then magOf p w x / 2 ^ scaleOf p w * 2 ^ scaleOf p w
      else (magOf p w x + 2 ^ scaleOf p w - 1) / 2 ^ scaleOf p w * 2 ^ scaleOf p w) :
    valOf p w y = (⌊valOf p w x⌋ : ℚ) := by
  have hC := two_pow_pos' (scaleOf p w)
  rw [valOf_eq_div p w x]
  by_cases h : sgnOf p w x = 0
  · rw [if_pos h] at hm
    rw [valOf_of_mag p w y _ hm, hs, if_pos h, if_pos h, floor_nat_div _ _ hC]; norm_cast
  · rw [if_neg h] at hm
    rw [valOf_of_mag p w y _ hm, hs, if_neg h, if_neg h, Int.floor_neg, ceil_nat_div _ _ hC]; norm_cast

/-- Value-level reading of a magnitude rounded up for non-negative and down
for negative patterns: the ceiling. -/
theorem val_ceil_of (p w x y : Nat) (hs : sgnOf p w y = sgnOf p w x)
    (hm : magOf p w y = if sgnOf p w x = 0
      then (magOf p w x + 2 ^ scaleOf p w - 1) / 2 ^ scaleOf p w * 2 ^ scaleOf p w
      else magOf p w x / 2 ^ scaleOf p w * 2 ^ scaleOf p w) :
    valOf p w y = (⌈valOf p w x⌉ : ℚ) := by
  have hC := two_pow_pos' (scaleOf p w)
  rw [valOf_eq_div p w x]
  by_cases h : sgnOf p w x = 0
  · rw [if_pos h] at hm
    rw [valOf_of_mag p w y _ hm, hs, if_pos h, if_pos h, ceil_nat_div _ _ hC]; norm_cast
  · rw [if_neg h] at hm
    rw [valOf_of_mag p w y _ hm, hs, if_neg h, if_neg h, Int.ceil_neg, floor_nat_div _ _ hC]; norm_cast

theorem ceilf_spec (x : Nat) (hx : x < 2 ^ 32) (hfin : isFinite32 x) :
    ceilf x < 2 ^ 32 ∧ isFinite32 (ceilf x) ∧ val32 (ceilf x) = (⌈val32 x⌉ : ℚ) ∧
    (IsIntVal (val32 x) → ceilf x = x) := by
  have hc : 127 + 23 - 1 = scaleOf 23 8 := by rw [scaleOf_float]
  unfold val32
  rw [isIntVal_valOf_iff]
  by_cases hs : x / 2 ^ 31 = 0
  · have hsg : sgnOf 23 8 x = 0 := by unfold sgnOf; omega
    obtain ⟨g1, g2, g3, g4, g5⟩ := upG_core 23 8 127 x (ceilf x) hx (by norm_num) (by norm_num)
      (by norm_num) (ceilf_up x hx hs)
    rw [hc] at g1 g5
    refine ⟨g3, g4 hfin, ?_, g5⟩
    apply val_ceil_of 23 8 x (ceilf x) g2
    rw [if_pos hsg]; exact g1
  · have hsg : sgnOf 23 8 x ≠ 0 := by unfold sgnOf; omega
    have hy := ceilf_down x hx hs
    obtain ⟨g1, g2, g3⟩ := truncG_core 23 8 127 x (ceilf x) (by norm_num) (by norm_num) hy
    obtain ⟨g4, g5⟩ := truncG_exp 23 8 127 x (ceilf x) hy
    rw [hc] at g1 g3
    refine ⟨lt_of_le_of_lt g5 hx, ?_, ?_, g3.2⟩
    · have := expOf_lt 23 8 x
      unfold isFinite32 isFiniteOf at *; omega
    · apply val_ceil_of 23 8 x (ceilf x) g2
      rw [if_neg hsg]; exact g1

theorem floorf_spec (x : Nat) (hx : x < 2 ^ 32) (hfin : isFinite32 x) :
    floorf x < 2 ^ 32 ∧ isFinite32 (floorf x) ∧ val32 (floorf x) = (⌊val32 x⌋ : ℚ) ∧
    (IsIntVal (val32 x) → floorf x = x) := by
  have hc : 127 + 23 - 1 = scaleOf 23 8 := by rw [scaleOf_float]
  unfold val32
  rw [isIntVal_valOf_iff]
  by_cases hs : x / 2 ^ 31 = 0
  · have hsg : sgnOf 23 8 x = 0 := by unfold sgnOf; omega
    have hy := floorf_down x hx hs
    obtain ⟨g1, g2, g3⟩ := truncG_core 23 8 127 x (floorf x) (by norm_num) (by norm_num) hy
    obtain ⟨g4, g5⟩ := truncG_exp 23 8 127 x (floorf x) hy
    rw [hc] at g1 g3
    refine ⟨lt_of_le_of_lt g5 hx, ?_, ?_, g3.2⟩
    · have := expOf_lt 23 8 x
      unfold isFinite32 isFiniteOf at *; omega
    · apply val_floor_of 23 8 x (floorf x) g2
      rw [if_pos hsg]; exact g1
  · have hsg : sgnOf 23 8 x ≠ 0 := by unfold sgnOf; omega
    obtain ⟨g1, g2, g3, g4, g5⟩ := upG_core 23 8 127 x (floorf x) hx (by norm_num) (by norm_num)
      (by norm_num) (floorf_up x hx hs)
    rw [hc] at g1 g5
    refine ⟨g3, g4 hfin, ?_, g5⟩
    apply val_floor_of 23 8 x (floorf x) g2
    rw [if_neg hsg]; exact g1

theorem isIntVal_intCast (n : Int) : IsIntVal (n : ℚ) := ⟨n, rfl⟩

/-- C1: for every finite binary32 `x`, `floorf x` is the greatest
integer-valued float not above `x` and `ceilf x` the least integer-valued
float not below `x`; hence `floorf x ≤ x ≤ ceilf x` as values, with equality on
both sides exactly when `x` is integer-valued. -/
theorem floorf_ceilf_bracket (x : Nat) (hx : x < 2 ^ 32) (hfin : isFinite32 x) :
    (isFinite32 (floorf x) ∧ IsIntVal (val32 (floorf x)) ∧ val32 (floorf x) ≤ val32 x ∧
      ∀ z, z < 2 ^ 32 → isFinite32 z → IsIntVal (val32 z) → val32 z ≤ val32 x →
        val32 z ≤ val32 (floorf x)) ∧
    (isFinite32 (ceilf x) ∧ IsIntVal (val32 (ceilf x)) ∧ val32 x ≤ val32 (ceilf x) ∧
      ∀ z, z < 2 ^ 32 → isFinite32 z → IsIntVal (val32 z) → val32 x ≤ val32 z →
        val32 (ceilf x) ≤ val32 z) ∧
    ((val32 (floorf x) = val32 x ∧ val32 x = val32 (ceilf x)) ↔ IsIntVal (val32 x)) := by
  obtain ⟨_, f2, f3, _⟩ := floorf_spec x hx hfin
  obtain ⟨_, c2, c3, _⟩ := ceilf_spec x hx hfin
  rw [f3, c3]
  refine ⟨⟨f2, isIntVal_intCast _, Int.floor_le _, ?_⟩, ⟨c2, isIntVal_intCast _, Int.le_ceil _, ?_⟩,
    ?_⟩
  · rintro z _ _ ⟨n, hn⟩ hle
    rw [hn] at hle ⊢
    exact_mod_cast Int.le_floor.2 hle
  · rintro z _ _ ⟨n, hn⟩ hle
    rw [hn] at hle ⊢
    exact_mod_cast Int.ceil_le.2 hle
  · constructor
    · rintro ⟨h1, _⟩
      exact ⟨⌊val32 x⌋, h1.symm⟩
    · rintro ⟨n, hn⟩
      rw [hn, Int.floor_intCast, Int.ceil_intCast]
      exact ⟨rfl, rfl⟩

/-- Witness for C1 at `x = -2.5f`. -/
theorem floorf_ceilf_bracket_witness :
    floorf 0xc0200000 = 0xc0400000 ∧ ceilf 0xc0200000 = 0xc0000000 ∧
    val32 (floorf 0xc0200000) ≤ val32 0xc0200000 ∧ val32 0xc0200000 ≤ val32 (ceilf 0xc0200000) :=
  ⟨by decide, by decide,
   (floorf_ceilf_bracket 0xc0200000 (by decide) (by decide)).1.2.2.1,
   (floorf_ceilf_bracket 0xc0200000 (by decide) (by decide)).2.1.2.2.1⟩

/-- C6: the integer-only rounding functions are idempotent, bit for bit:
`f (f x) = f x` for `f` among `trunc`, `truncf`, `ceilf`, `floorf` and every
finite `x`. -/
theorem int_rounding_idempotent (x z : Nat) (hx : x < 2 ^ 64) (hxf : isFinite64 x)
    (hz : z < 2 ^ 32) (hzf : isFinite32 z) :
    trunc (trunc x) = trunc x ∧ truncf (truncf z) = truncf z ∧
    ceilf (ceilf z) = ceilf z ∧ floorf (floorf z) = floorf z := by
  obtain ⟨t1, t2, t3, _⟩ := trunc_spec x hx hxf
  obtain ⟨u1, u2, u3, _⟩ := truncf_spec z hz hzf
  obtain ⟨c1, c2, c3, _⟩ := ceilf_spec z hz hzf
  obtain ⟨f1, f2, f3, _⟩ := floorf_spec z hz hzf
  refine ⟨?_, ?_, ?_, ?_⟩
  · exact (trunc_spec (trunc x) t1 t2).2.2.2.2.2.2.2 t3
  · exact (truncf_spec (truncf z) u1 u2).2.2.2.2.2.2.2 u3
  · exact (ceilf_spec (ceilf z) c1 c2).2.2.2 (by rw [c3]; exact isIntVal_intCast _)
  · exact (floorf_spec (floorf z) f1 f2).2.2.2 (by rw [f3]; exact isIntVal_intCast _)

/-- Witness for C6 at `x = -2.7` and `z = 2.5f`. -/
theorem int_rounding_idempotent_witness :
    trunc (trunc 0xc00599999999999a) = trunc 0xc00599999999999a ∧
    truncf (truncf 0x40200000) = truncf 0x40200000 ∧
    ceilf (ceilf 0x40200000) = ceilf 0x40200000 ∧
    floorf (floorf 0x40200000) = floorf 0x40200000 :=
  int_rounding_idempotent 0xc00599999999999a 0x40200000 (by decide) (by decide) (by decide)
    (by decide)

theorem expField64 (x : Nat) : (x >>> 52) &&& 0x7ff = expOf 52 11 x := by
  have h1 : (0x7ff : Nat) = 2 ^ 11 - 1 := by norm_num
  rw [h1, and_low_mask, Nat.shiftRight_eq_div_pow, expOf]

theorem expField32 (x : Nat) : (x >>> 23) &&& 0xff = expOf 23 8 x := by
  have h1 : (0xff : Nat) = 2 ^ 8 - 1 := by norm_num
  rw [h1, and_low_mask, Nat.shiftRight_eq_div_pow, expOf]

/-- C9: NaN, infinity and large values pass through the rounding family
unchanged.  For every double pattern whose unbiased exponent is at least 52
(this includes both infinities and every NaN) `ceil`, `floor`, `trunc` and
`rint` return the pattern itself; for every float pattern whose unbiased
exponent is at least 23 so do `ceilf`, `floorf`, `truncf` and `rintf`. -/
theorem rounding_large_passthrough (x z : Nat)
    (hx : (expOf 52 11 x : Int) - 1023 ≥ 52) (hz : (expOf 23 8 z : Int) - 127 ≥ 23) :
    (ceil x = x ∧ floor x = x ∧ trunc x = x ∧ rint x = x) ∧
    (ceilf z = z ∧ floorf z = z ∧ truncf z = z ∧ rintf z = z) := by
  refine ⟨⟨?_, ?_, ?_, ?_⟩, ⟨?_, ?_, ?_, ?_⟩⟩
  · unfold ceil; rw [expField64]; dsimp only
    rw [if_pos (Or.inl (by omega))]
  · unfold floor; rw [expField64]; dsimp only
    rw [if_pos (Or.inl (by omega))]
  · unfold trunc; rw [expField64]; dsimp only
    rw [if_pos (by omega)]
  · unfold rint; rw [expField64]; dsimp only
    rw [if_pos (by omega)]
  · unfold ceilf; rw [expField32]; dsimp only
    rw [if_pos (by omega)]
  · unfold floorf; rw [expField32]; dsimp only
    rw [if_pos (by omega)]
  · unfold truncf; rw [expField32]; dsimp only
    rw [if_pos (by omega)]
  · unfold rintf; rw [expField32]; dsimp only
    rw [if_pos (by omega)]

/-- Witness for C9 at the double `-Inf` and a float NaN. -/
theorem rounding_large_passthrough_witness :
    (ceil 0xfff0000000000000 = 0xfff0000000000000 ∧ floor 0xfff0000000000000 = 0xfff0000000000000 ∧
      trunc 0xfff0000000000000 = 0xfff0000000000000 ∧
      rint 0xfff0000000000000 = 0xfff0000000000000) ∧
    (ceilf 0x7fc00001 = 0x7fc00001 ∧ floorf 0x7fc00001 = 0x7fc00001 ∧
      truncf 0x7fc00001 = 0x7fc00001 ∧ rintf 0x7fc00001 = 0x7fc00001) :=
  rounding_large_passthrough 0xfff0000000000000 0x7fc00001 (by decide) (by decide)

theorem shiftRight_ne_zero_iff (n t : Nat) : n >>> t ≠ 0 ↔ 2 ^ t ≤ n := by
  rw [Nat.shiftRight_eq_div_pow, Ne, Nat.div_eq_zero_iff (two_pow_pos' t)]
  omega

theorem ilog2Aux_spec (n : Nat) : ∀ (j acc : Nat), 2 ^ acc ≤ n → n < 2 ^ (acc + 2 ^ j) →
    2 ^ (ilog2Aux n j acc) ≤ n ∧ n < 2 ^ (ilog2Aux n j acc + 1) := by
  intro j
  induction j with
  | zero =>
    intro acc h1 h2
    simpa [ilog2Aux] using ⟨h1, h2⟩
  | succ j ih =>
    intro acc h1 h2
    unfold ilog2Aux
    by_cases h : 2 ^ (acc + 2 ^ j) ≤ n
    · rw [if_pos ((shiftRight_ne_zero_iff n _).2 h)]
      apply ih _ h
      have : acc + 2 ^ j + 2 ^ j = acc + 2 ^ (j + 1) := by rw [pow_succ]; omega
      rw [this]; exact h2
    · rw [if_neg (fun hc => h ((shiftRight_ne_zero_iff n _).1 hc))]
      exact ih _ h1 (by omega)

theorem pow_two_sandwich (n L L' : Nat) (h1 : 2 ^ L ≤ n) (h2 : n < 2 ^ (L + 1))
    (h3 : 2 ^ L' ≤ n) (h4 : n < 2 ^ (L' + 1)) : L = L' := by
  have a : L < L' + 1 := (Nat.pow_lt_pow_iff_right (by norm_num : 1 < 2)).1 (lt_of_le_of_lt h1 h4)
  have b : L' < L + 1 := (Nat.pow_lt_pow_iff_right (by norm_num : 1 < 2)).1 (lt_of_le_of_lt h3 h2)
  omega

theorem ilog2_eq (n L : Nat) (h1 : 2 ^ L ≤ n) (h2 : n < 2 ^ (L + 1)) (hL : L < 8192) :
    ilog2 n = L := by
  have hn : 2 ^ 0 ≤ n := le_trans (Nat.one_le_two_pow) h1
  have hub : n < 2 ^ (0 + 2 ^ 13) :=
    lt_of_lt_of_le h2 (Nat.pow_le_pow_right (by norm_num) (by norm_num; omega))
  obtain ⟨g1, g2⟩ := ilog2Aux_spec n 13 0 hn hub
  exact pow_two_sandwich n _ _ g1 g2 h1 h2

theorem ilog2_small (p n : Nat) (hn : n < 2 ^ (p + 1)) (hp : p < 8192) : ilog2 n - p = 0 := by
  rcases Nat.eq_zero_or_pos n with h0 | hpos
  · subst h0
    have : ilog2 0 = 0 := by decide
    rw [this, Nat.zero_sub]
  · have hn0 : 2 ^ 0 ≤ n := hpos
    have hub : n < 2 ^ (0 + 2 ^ 13) :=
      lt_of_lt_of_le hn (Nat.pow_le_pow_right (by norm_num) (by norm_num; omega))
    obtain ⟨g1, g2⟩ := ilog2Aux_spec n 13 0 hn0 hub
    have : ilog2Aux n 13 0 < p + 1 :=
      (Nat.pow_lt_pow_iff_right (by norm_num : 1 < 2)).1 (lt_of_le_of_lt g1 hn)
    unfold ilog2; omega

theorem roundOf_eq (p w n L : Nat) (h1 : 2 ^ L ≤ n) (h2 : n < 2 ^ (L + 1)) (hL : L < 8192) :
    roundOf p w 0 n =
      if (L - p) * 2 ^ p + (n / 2 ^ (L - p) +
            (if 2 * (n % 2 ^ (L - p)) > 2 ^ (L - p) ∨
                (2 * (n % 2 ^ (L - p)) = 2 ^ (L - p) ∧ n / 2 ^ (L - p) % 2 = 1) then 1 else 0))
          ≥ infOf p w then infOf p w
      else (L - p) * 2 ^ p + (n / 2 ^ (L - p) +
            (if 2 * (n % 2 ^ (L - p)) > 2 ^ (L - p) ∨
                (2 * (n % 2 ^ (L - p)) = 2 ^ (L - p) ∧ n / 2 ^ (L - p) % 2 = 1) then 1 else 0)) := by
  unfold roundOf
  rw [ilog2_eq n L h1 h2 hL]
  simp only [Nat.zero_max, Nat.sub_zero, Nat.shiftLeft_eq, Nat.shiftRight_eq_div_pow, one_mul]
  by_cases hc : 2 * (n % 2 ^ (L - p)) > 2 ^ (L - p) ∨
      (2 * (n % 2 ^ (L - p)) = 2 ^ (L - p) ∧ n / 2 ^ (L - p) % 2 = 1)
  · simp only [if_pos hc]
  · simp only [if_neg hc, Nat.add_zero]

theorem infOf_eq (p w : Nat) : infOf p w = (2 ^ w - 1) * 2 ^ p := by
  unfold infOf; rw [Nat.shiftLeft_eq]

theorem roundOf_small (p w n : Nat) (hn : n < 2 ^ (p + 1)) (hp : p < 8192) (hw : 2 ≤ w) :
    roundOf p w 0 n = n := by
  unfold roundOf
  rw [ilog2_small p n hn hp]
  simp only [Nat.zero_max, Nat.sub_zero, Nat.shiftLeft_eq, Nat.shiftRight_eq_div_pow, one_mul,
    pow_zero, Nat.div_one, Nat.mod_one, Nat.mul_zero, Nat.zero_mul, Nat.zero_add]
  have hinf : n < infOf p w := by
    rw [infOf_eq]
    have h4 : 2 ^ 2 ≤ 2 ^ w := Nat.pow_le_pow_right (by norm_num) hw
    have : 2 * 2 ^ p ≤ (2 ^ w - 1) * 2 ^ p := Nat.mul_le_mul_right _ (by omega)
    rw [pow_succ] at hn; omega
  have hc : ¬ (0 > 1 ∨ (0 = 1 ∧ n % 2 = 1)) := by omega
  rw [if_neg hc, if_neg (by omega)]

theorem exists_ilog (n B : Nat) (hn : 0 < n) (hB : B ≤ 8192) (hub : n < 2 ^ B) :
    ∃ L, 2 ^ L ≤ n ∧ n < 2 ^ (L + 1) ∧ L < B := by
  have hub' : n < 2 ^ (0 + 2 ^ 13) :=
    lt_of_lt_of_le hub (Nat.pow_le_pow_right (by norm_num) (by norm_num; exact hB))
  obtain ⟨g1, g2⟩ := ilog2Aux_spec n 13 0 hn hub'
  refine ⟨ilog2Aux n 13 0, g1, g2, ?_⟩
  exact (Nat.pow_lt_pow_iff_right (by norm_num : 1 < 2)).1 (lt_of_le_of_lt g1 hub)

theorem magOf_small (p w n : Nat) (hn : n < 2 ^ (p + 1)) (hw : 2 ≤ w) :
    magOf p w n = n ∧ expOf p w n ≤ 1 ∧ sgnOf p w n = 0 := by
  have hP := two_pow_pos' p
  have h4 : 2 ^ 2 ≤ 2 ^ w := Nat.pow_le_pow_right (by norm_num) hw
  rw [pow_succ] at hn
  by_cases h : n < 2 ^ p
  · obtain ⟨g1, g2, g3⟩ := fields_of_parts p w 0 0 n h (two_pow_pos' w) (by norm_num)
    simp only [Nat.zero_mul, Nat.zero_add] at g1 g2 g3
    rw [magOf_def, g1, g2, g3]; simp
  · obtain ⟨g1, g2, g3⟩ := fields_of_parts p w 0 1 (n - 2 ^ p) (by omega) (by omega) (by norm_num)
    have e1 : 0 * 2 ^ (p + w) + 1 * 2 ^ p + (n - 2 ^ p) = n := by omega
    rw [e1] at g1 g2 g3
    rw [magOf_def, g1, g2, g3]
    refine ⟨?_, le_refl _, rfl⟩
    simp; omega

/-- Rounding is exact on a value that fits in `p + 1` significant bits. -/
theorem roundOf_exact (p w n e : Nat) (hdvd : 2 ^ e ∣ n) (hlt : n < 2 ^ (p + 1 + e))
    (he : e + 2 < 2 ^ w) (hw : 2 ≤ w) (hb : p + 1 + e ≤ 8192) :
    magOf p w (roundOf p w 0 n) = n ∧ sgnOf p w (roundOf p w 0 n) = 0 ∧
    expOf p w (roundOf p w 0 n) ≤ e + 1 ∧ roundOf p w 0 n < 2 ^ (p + w) := by
  have hP := two_pow_pos' p
  have hpw : 2 ^ (p + 1) ≤ 2 ^ (p + w) := Nat.pow_le_pow_right (by norm_num) (by omega)
  by_cases hs : n < 2 ^ (p + 1)
  · rw [roundOf_small p w n hs (by omega) hw]
    obtain ⟨g1, g2, g3⟩ := magOf_small p w n hs hw
    exact ⟨g1, g3, by omega, lt_of_lt_of_le hs hpw⟩
  · have hn0 : 0 < n := lt_of_lt_of_le (two_pow_pos' _) (not_lt.1 hs)
    obtain ⟨L, h1, h2, hLe⟩ := exists_ilog n (p + 1 + e) hn0 hb hlt
    have hL : L < 8192 := by omega
    have hLp : p + 1 ≤ L := by
      have := (Nat.pow_lt_pow_iff_right (by norm_num : 1 < 2)).1
        (lt_of_le_of_lt (not_lt.1 hs) h2)
      omega
    have hk : L - p ≤ e := by omega
    have hkd : 2 ^ (L - p) ∣ n := dvd_trans (pow_dvd_pow 2 hk) hdvd
    have hr : n % 2 ^ (L - p) = 0 := Nat.mod_eq_zero_of_dvd hkd
    have hK := two_pow_pos' (L - p)
    have hq1 : 2 ^ p ≤ n / 2 ^ (L - p) := by
      rw [Nat.le_div_iff_mul_le hK, ← pow_add]
      have : p + (L - p) = L := by omega
      rw [this]; exact h1
    have hq2 : n / 2 ^ (L - p) < 2 ^ (p + 1) := by
      rw [Nat.div_lt_iff_lt_mul hK, ← pow_add]
      have : p + 1 + (L - p) = L + 1 := by omega
      rw [this]; exact h2
    obtain ⟨g1, g2, g3, g4, g5⟩ := enc_fields p w 0 (L - p) (n / 2 ^ (L - p)) (by norm_num) hq1
      (le_of_lt hq2) (by omega)
    simp only [Nat.zero_mul, Nat.zero_add] at g1 g2 g3 g4 g5
    have hbits : roundOf p w 0 n = (L - p) * 2 ^ p + n / 2 ^ (L - p) := by
      rw [roundOf_eq p w n L h1 h2 hL, hr]
      have hc : ¬ (2 * 0 > 2 ^ (L - p) ∨ (2 * 0 = 2 ^ (L - p) ∧ n / 2 ^ (L - p) % 2 = 1)) := by
        omega
      simp only [if_neg hc, Nat.add_zero]
      rw [if_neg]
      rw [infOf_eq, not_le]
      have h5 : L - p + 2 ≤ 2 ^ w - 1 := by omega
      have h6 := Nat.mul_le_mul_right (2 ^ p) h5
      rw [pow_succ] at hq2
      have : (L - p + 2) * 2 ^ p = (L - p) * 2 ^ p + 2 ^ p * 2 := by ring
      omega
    rw [hbits]
    refine ⟨?_, g2, ?_, ?_⟩
    · rw [g1, Nat.div_mul_cancel hkd]
    · rw [g5 hq2]; omega
    · have h5 : L - p + 2 ≤ 2 ^ w := by omega
      have h6 := Nat.mul_le_mul_right (2 ^ p) h5
      rw [pow_succ] at hq2
      have : (L - p + 2) * 2 ^ p = (L - p) * 2 ^ p + 2 ^ p * 2 := by ring
      rw [pow_add, Nat.mul_comm (2 ^ p) (2 ^ w)]
      omega

/-- Rounding the magnitude of a finite pattern gives the pattern back. -/
theorem roundOf_magOf (p w u : Nat) (hu : u < 2 ^ (p + w)) (hfin : isFiniteOf p w u)
    (hw : 2 ≤ w) (hb : p + 2 ^ w ≤ 8192) :
    roundOf p w 0 (magOf p w u) = u := by
  have hP := two_pow_pos' p
  have hparts : u = expOf p w u * 2 ^ p + manOf p u := by
    obtain ⟨h, _⟩ := parts_of_fields p w u (lt_of_lt_of_le hu
      (Nat.pow_le_pow_right (by norm_num) (by omega)))
    have hs : sgnOf p w u = 0 := by
      unfold sgnOf; rw [Nat.div_eq_of_lt hu]
    rw [hs, Nat.zero_mul, Nat.zero_add] at h
    exact h
  have hM := manOf_lt p u
  have hE := expOf_lt p w u
  unfold isFiniteOf at hfin
  rw [magOf_def]
  by_cases h0 : expOf p w u = 0
  · rw [if_pos h0]
    rw [roundOf_small p w _ (lt_of_lt_of_le hM (Nat.pow_le_pow_right (by norm_num) (by omega)))
      (by omega) hw]
    rw [h0, Nat.zero_mul, Nat.zero_add] at hparts
    exact hparts.symm
  · rw [if_neg h0]
    generalize hEd : expOf p w u = E at *
    generalize hMd : manOf p u = M at *
    have hB := two_pow_pos' (E - 1)
    have h1 : 2 ^ (p + (E - 1)) ≤ (2 ^ p + M) * 2 ^ (E - 1) := by
      rw [pow_add]; exact Nat.mul_le_mul_right _ (by omega)
    have h2 : (2 ^ p + M) * 2 ^ (E - 1) < 2 ^ (p + (E - 1) + 1) := by
      have : p + (E - 1) + 1 = (p + 1) + (E - 1) := by omega
      rw [this, pow_add]
      apply Nat.mul_lt_mul_of_pos_right _ hB
      rw [pow_succ]; omega
    have hk : p + (E - 1) - p = E - 1 := by omega
    rw [roundOf_eq p w _ (p + (E - 1)) h1 h2 (by omega), hk, Nat.mul_mod_left,
      Nat.mul_div_cancel _ hB]
    have hc : ¬ (2 * 0 > 2 ^ (E - 1) ∨ (2 * 0 = 2 ^ (E - 1) ∧ (2 ^ p + M) % 2 = 1)) := by omega
    simp only [if_neg hc, Nat.add_zero]
    have e1 : (E - 1) * 2 ^ p + (2 ^ p + M) = E * 2 ^ p + M := by
      obtain ⟨E', rfl⟩ : ∃ E', E = E' + 1 := ⟨E - 1, by omega⟩
      rw [Nat.add_sub_cancel, Nat.add_mul, one_mul]; omega
    rw [e1, if_neg, ← hparts]
    rw [infOf_eq, not_le]
    have h5 : E + 1 ≤ 2 ^ w - 1 := by omega
    have h6 := Nat.mul_le_mul_right (2 ^ p) h5
    rw [Nat.add_mul, one_mul] at h6
    omega

theorem one_shl (n : Nat) : 1 <<< n = 2 ^ n := by rw [Nat.shiftLeft_eq, one_mul]

theorem svalOf_def (p w u : Nat) :
    svalOf p w u = if sgnOf p w u = 0 then (magOf p w u : Int) else -(magOf p w u : Int) := rfl

theorem fields_add_sign (p w R : Nat) (hR : R < 2 ^ (p + w)) :
    sgnOf p w (2 ^ (p + w) + R) = 1 ∧ expOf p w (2 ^ (p + w) + R) = expOf p w R ∧
    manOf p (2 ^ (p + w) + R) = manOf p R ∧ magOf p w (2 ^ (p + w) + R) = magOf p w R ∧
    sgnOf p w R = 0 := by
  have hP := two_pow_pos' p
  have hW := two_pow_pos' w
  have hs0 : sgnOf p w R = 0 := by unfold sgnOf; rw [Nat.div_eq_of_lt hR]
  have hs1 : sgnOf p w (2 ^ (p + w) + R) = 1 := by
    unfold sgnOf
    rw [Nat.add_comm, Nat.add_div_right _ (two_pow_pos' _), Nat.div_eq_of_lt hR]
  have he : expOf p w (2 ^ (p + w) + R) = expOf p w R := by
    unfold expOf
    rw [pow_add, Nat.add_comm, Nat.add_mul_div_left _ _ hP, Nat.add_mod_right]
  have hm : manOf p (2 ^ (p + w) + R) = manOf p R := by
    unfold manOf
    rw [pow_add, Nat.add_comm, Nat.add_mul_mod_self_left]
  refine ⟨hs1, he, hm, ?_, hs0⟩
  rw [magOf_def, magOf_def, he, hm]

theorem fnegOf_fields (p w a : Nat) (ha : a < 2 ^ (p + w + 1)) :
    fnegOf p w a < 2 ^ (p + w + 1) ∧ expOf p w (fnegOf p w a) = expOf p w a ∧
    manOf p (fnegOf p w a) = manOf p a ∧ magOf p w (fnegOf p w a) = magOf p w a ∧
    svalOf p w (fnegOf p w a) = -svalOf p w a ∧
    sgnOf p w (fnegOf p w a) = 1 - sgnOf p w a := by
  have h2 : 2 ^ (p + w + 1) = 2 ^ (p + w) + 2 ^ (p + w) := by rw [pow_succ]; omega
  unfold fnegOf
  by_cases hs : sgnOf p w a = 0
  · rw [if_pos hs]
    have hlt : a < 2 ^ (p + w) := by
      unfold sgnOf at hs
      have h4 : a / 2 ^ (p + w) < 2 := by
        rw [Nat.div_lt_iff_lt_mul (two_pow_pos' _), Nat.mul_comm, ← pow_succ]; exact ha
      have h5 : a / 2 ^ (p + w) = 0 := by
        generalize a / 2 ^ (p + w) = q at hs h4 ⊢
        omega
      exact (Nat.div_eq_zero_iff (two_pow_pos' _)).1 h5
    obtain ⟨g1, g2, g3, g4, g5⟩ := fields_add_sign p w a hlt
    rw [Nat.add_comm]
    refine ⟨by omega, g2, g3, g4, ?_, by omega⟩
    rw [svalOf_def, svalOf_def, g1, g4, hs]; simp
  · rw [if_neg hs]
    have hs1 : sgnOf p w a = 1 := by
      have : sgnOf p w a < 2 := Nat.mod_lt _ (by norm_num)
      omega
    have hge : 2 ^ (p + w) ≤ a := by
      by_contra hc
      have : sgnOf p w a = 0 := by unfold sgnOf; rw [Nat.div_eq_of_lt (by omega)]
      omega
    have hR : a - 2 ^ (p + w) < 2 ^ (p + w) := by omega
    obtain ⟨g1, g2, g3, g4, g5⟩ := fields_add_sign p w (a - 2 ^ (p + w)) hR
    have e1 : 2 ^ (p + w) + (a - 2 ^ (p + w)) = a := by omega
    rw [e1] at g1 g2 g3 g4
    refine ⟨by omega, g2.symm, g3.symm, g4.symm, ?_, by omega⟩
    rw [svalOf_def, svalOf_def, g5, ← g4, hs1]; simp

theorem finite_not_nan (p w a : Nat) (h : isFiniteOf p w a) : ¬ isNaNOf p w a :=
  fun hn => h hn.1

theorem finite_not_inf (p w a : Nat) (h : isFiniteOf p w a) : ¬ isInfOf p w a :=
  fun hn => h hn.1

theorem faddOf_finite (p w a b : Nat) (ha : isFiniteOf p w a) (hb : isFiniteOf p w b) :
    faddOf p w a b =
      if svalOf p w a + svalOf p w b = 0 then
        (if sgnOf p w a = 1 ∧ sgnOf p w b = 1 then 2 ^ (p + w) else 0)
      else if 0 < svalOf p w a + svalOf p w b then
        roundOf p w 0 (svalOf p w a + svalOf p w b).toNat
      else 2 ^ (p + w) + roundOf p w 0 (-(svalOf p w a + svalOf p w b)).toNat := by
  unfold faddOf
  have h1 : ¬ (isNaNOf p w a ∨ isNaNOf p w b) := by
    rintro (h | h)
    · exact finite_not_nan p w a ha h
    · exact finite_not_nan p w b hb h
  rw [if_neg h1, if_neg (finite_not_inf p w a ha), if_neg (finite_not_inf p w b hb), one_shl]

theorem zero_fields (p w : Nat) (hw : 2 ≤ w) :
    magOf p w 0 = 0 ∧ expOf p w 0 = 0 ∧ sgnOf p w 0 = 0 ∧ svalOf p w 0 = 0 := by
  obtain ⟨g1, g2, g3⟩ := magOf_small p w 0 (two_pow_pos' _) hw
  have g4 : expOf p w 0 = 0 := by unfold expOf; simp
  refine ⟨g1, g4, g3, ?_⟩
  rw [svalOf_def, g1, g3]; simp

theorem negzero_fields (p w : Nat) (hw : 2 ≤ w) :
    magOf p w (2 ^ (p + w)) = 0 ∧ expOf p w (2 ^ (p + w)) = 0 ∧ sgnOf p w (2 ^ (p + w)) = 1 ∧
    svalOf p w (2 ^ (p + w)) = 0 := by
  obtain ⟨z1, z2, z3, z4⟩ := zero_fields p w hw
  obtain ⟨g1, g2, g3, g4, g5⟩ := fields_add_sign p w 0 (two_pow_pos' _)
  rw [Nat.add_zero] at g1 g2 g3 g4
  refine ⟨by rw [g4, z1], by rw [g2, z2], g1, ?_⟩
  rw [svalOf_def, g4, z1, g1]; simp

/-- An addition whose exact result fits in `p + 1` significant bits at
exponent `e` is exact. -/
theorem faddOf_exact (p w a b e : Nat) (ha : isFiniteOf p w a) (hb : isFiniteOf p w b)
    (hdvd : ((2 ^ e : Nat) : Int) ∣ svalOf p w a + svalOf p w b)
    (hlt : (svalOf p w a + svalOf p w b).natAbs < 2 ^ (p + 1 + e))
    (he : e + 2 < 2 ^ w) (hw : 2 ≤ w) (hB : p + 1 + e ≤ 8192) :
    svalOf p w (faddOf p w a b) = svalOf p w a + svalOf p w b ∧
    isFiniteOf p w (faddOf p w a b) ∧ faddOf p w a b < 2 ^ (p + w + 1) := by
  have h2 : 2 ^ (p + w + 1) = 2 ^ (p + w) + 2 ^ (p + w) := by rw [pow_succ]; omega
  have hW4 : 2 ^ 2 ≤ 2 ^ w := Nat.pow_le_pow_right (by norm_num) hw
  rw [faddOf_finite p w a b ha hb]
  generalize svalOf p w a + svalOf p w b = v at *
  by_cases h0 : v = 0
  · rw [if_pos h0, h0]
    obtain ⟨z1, z2, z3, z4⟩ := zero_fields p w hw
    obtain ⟨n1, n2, n3, n4⟩ := negzero_fields p w hw
    have := two_pow_pos' (p + w)
    split
    · refine ⟨n4, ?_, by omega⟩
      unfold isFiniteOf; rw [n2]; omega
    · refine ⟨z4, ?_, by omega⟩
      unfold isFiniteOf; rw [z2]; omega
  · rw [if_neg h0]
    by_cases hpos : 0 < v
    · rw [if_pos hpos]
      have hn : ((v.toNat : Nat) : Int) = v := Int.toNat_of_nonneg (le_of_lt hpos)
      have hd : 2 ^ e ∣ v.toNat := by
        rw [← hn] at hdvd; exact Int.natCast_dvd_natCast.1 hdvd
      have hl : v.toNat < 2 ^ (p + 1 + e) := by
        have : v.natAbs = v.toNat := by omega
        rw [← this]; exact hlt
      obtain ⟨g1, g2, g3, g4⟩ := roundOf_exact p w v.toNat e hd hl he hw hB
      refine ⟨?_, ?_, by omega⟩
      · rw [svalOf_def, g2, g1]; simp [hn]
      · unfold isFiniteOf; omega
    · rw [if_neg hpos]
      have hn : (((-v).toNat : Nat) : Int) = -v := Int.toNat_of_nonneg (by omega)
      have hd : 2 ^ e ∣ (-v).toNat := by
        rw [← Int.dvd_neg, ← hn] at hdvd; exact Int.natCast_dvd_natCast.1 hdvd
      have hl : (-v).toNat < 2 ^ (p + 1 + e) := by
        have : v.natAbs = (-v).toNat := by omega
        rw [← this]; exact hlt
      obtain ⟨g1, g2, g3, g4⟩ := roundOf_exact p w (-v).toNat e hd hl he hw hB
      obtain ⟨f1, f2, f3, f4, f5⟩ := fields_add_sign p w _ g4
      refine ⟨?_, ?_, by omega⟩
      · rw [svalOf_def, f1, f4, g1]; simp [hn]
      · unfold isFiniteOf; rw [f2]; omega

theorem low_fields (p w u : Nat) :
    expOf p w (u % 2 ^ (p + w)) = expOf p w u ∧ manOf p (u % 2 ^ (p + w)) = manOf p u ∧
    magOf p w (u % 2 ^ (p + w)) = magOf p w u := by
  have he : expOf p w (u % 2 ^ (p + w)) = expOf p w u := by
    unfold expOf
    rw [pow_add, Nat.mod_mul_right_div_self, Nat.mod_mod]
  have hm : manOf p (u % 2 ^ (p + w)) = manOf p u := by
    unfold manOf
    rw [pow_add, Nat.mod_mul_right_mod]
  refine ⟨he, hm, ?_⟩
  rw [magOf_def, magOf_def, he, hm]

/-- A finite pattern is determined by its sign and magnitude. -/
theorem pattern_ext (p w u v : Nat) (hu : u < 2 ^ (p + w + 1)) (hv : v < 2 ^ (p + w + 1))
    (hfu : isFiniteOf p w u) (hfv : isFiniteOf p w v) (hs : sgnOf p w u = sgnOf p w v)
    (hm : magOf p w u = magOf p w v) (hw : 2 ≤ w) (hb : p + 2 ^ w ≤ 8192) : u = v := by
  obtain ⟨ue, um, umag⟩ := low_fields p w u
  obtain ⟨ve, vm, vmag⟩ := low_fields p w v
  have hS := two_pow_pos' (p + w)
  have h1 := roundOf_magOf p w (u % 2 ^ (p + w)) (Nat.mod_lt _ hS)
    (by unfold isFiniteOf at *; rw [ue]; exact hfu) hw hb
  have h2 := roundOf_magOf p w (v % 2 ^ (p + w)) (Nat.mod_lt _ hS)
    (by unfold isFiniteOf at *; rw [ve]; exact hfv) hw hb
  rw [umag] at h1
  rw [vmag, ← hm, h1] at h2
  have h3 : u / 2 ^ (p + w) = v / 2 ^ (p + w) := by
    have hu4 : u / 2 ^ (p + w) < 2 := by
      rw [Nat.div_lt_iff_lt_mul hS, Nat.mul_comm, ← pow_succ]; exact hu
    have hv4 : v / 2 ^ (p + w) < 2 := by
      rw [Nat.div_lt_iff_lt_mul hS, Nat.mul_comm, ← pow_succ]; exact hv
    unfold sgnOf at hs
    generalize u / 2 ^ (p + w) = a at *
    generalize v / 2 ^ (p + w) = b at *
    omega
  rw [← Nat.div_add_mod u (2 ^ (p + w)), ← Nat.div_add_mod v (2 ^ (p + w)), h2, h3]

theorem svalOf_neg_iff (p w y : Nat) (hy : y < 2 ^ (p + w + 1)) :
    (svalOf p w y < 0 ↔ sgnOf p w y = 1 ∧ magOf p w y ≠ 0) ∧
    (0 < svalOf p w y ↔ sgnOf p w y = 0 ∧ magOf p w y ≠ 0) ∧
    (svalOf p w y = 0 ↔ magOf p w y = 0) := by
  have hs := (parts_of_fields p w y hy).2
  rw [svalOf_def]
  by_cases h : sgnOf p w y = 0
  · rw [if_pos h]; omega
  · rw [if_neg h]; omega

theorem ordKeyOf_zero (p w : Nat) : ordKeyOf p w 0 = 0 := by
  unfold ordKeyOf; simp

theorem zero_not_nan (p w : Nat) : ¬ isNaNOf p w 0 := by
  unfold isNaNOf manOf; simp

/-- Comparison of a finite pattern with `+0`. -/
theorem cmp_zero (p w y : Nat) (hy : y < 2 ^ (p + w + 1)) (hf : isFiniteOf p w y) :
    (fltOf p w y 0 ↔ svalOf p w y < 0) ∧ (fltOf p w 0 y ↔ 0 < svalOf p w y) ∧
    (feqOf p w y 0 ↔ svalOf p w y = 0) := by
  obtain ⟨s1, s2, s3⟩ := svalOf_neg_iff p w y hy
  have hs := (parts_of_fields p w y hy).2
  have hz := magOf_eq_zero_iff p w y
  have hn := finite_not_nan p w y hf
  have h0 := zero_not_nan p w
  unfold fltOf feqOf
  rw [ordKeyOf_zero, s1, s2, s3, hz]
  unfold ordKeyOf
  by_cases h : sgnOf p w y = 0
  · rw [if_pos h]
    refine ⟨?_, ?_, ?_⟩
    · constructor
      · rintro ⟨_, _, h3⟩; omega
      · rintro ⟨h3, _⟩; omega
    · constructor
      · rintro ⟨_, _, h3⟩; exact ⟨h, by omega⟩
      · rintro ⟨_, h3⟩; exact ⟨h0, hn, by omega⟩
    · constructor
      · rintro ⟨_, _, h3⟩; omega
      · intro h3; exact ⟨hn, h0, by omega⟩
  · rw [if_neg h]
    refine ⟨?_, ?_, ?_⟩
    · constructor
      · rintro ⟨_, _, h3⟩; exact ⟨by omega, by omega⟩
      · rintro ⟨_, h3⟩; exact ⟨hn, h0, by omega⟩
    · constructor
      · rintro ⟨_, _, h3⟩; omega
      · rintro ⟨h3, _⟩; omega
    · constructor
      · rintro ⟨_, _, h3⟩; omega
      · intro h3; exact ⟨hn, h0, by omega⟩

theorem enc_lt (p w s e A : Nat) (hs : s < 2) (hA : A ≤ 2 ^ (p + 1)) (he : e + 3 ≤ 2 ^ w) :
    s * 2 ^ (p + w) + e * 2 ^ p + A < 2 ^ (p + w + 1) := by
  have hP := two_pow_pos' p
  rw [pow_succ, pow_add]
  rw [pow_succ] at hA
  generalize 2 ^ p = P at *
  generalize 2 ^ w = W at *
  have h1 : (e + 3) * P ≤ W * P := Nat.mul_le_mul_right P he
  have h2 : s * (P * W) ≤ 1 * (P * W) := Nat.mul_le_mul_right _ (by omega)
  have h3 : (e + 3) * P = e * P + 3 * P := by ring
  have h4 : W * P = P * W := Nat.mul_comm _ _
  rw [h3, h4] at h1
  rw [one_mul] at h2
  generalize P * W = PW at *
  generalize e * P = eP at *
  generalize s * PW = sPW at *
  omega

theorem rneDiv_le (X C Q : Nat) (hC : 0 < C) (hX : X < Q * C) : rneDiv X C ≤ Q := by
  unfold rneDiv
  have : X / C < Q := (Nat.div_lt_iff_lt_mul hC).2 hX
  split <;> omega

theorem roundOf_toint (p w c X : Nat) (hX : X < 2 ^ (p + c)) (hp : 1 ≤ p) (hc : c + 3 < 2 ^ w)
    (hB : p + c < 8192) :
    roundOf p w 0 (X + 2 ^ (p + c)) = c * 2 ^ p + (2 ^ p + rneDiv X (2 ^ c)) ∧
    rneDiv X (2 ^ c) ≤ 2 ^ p := by
  have hC := two_pow_pos' c
  have hP := two_pow_pos' p
  have hpc : 2 ^ (p + c) = 2 ^ p * 2 ^ c := pow_add 2 p c
  have hJ : rneDiv X (2 ^ c) ≤ 2 ^ p := rneDiv_le X _ _ hC (by rw [← hpc]; exact hX)
  refine ⟨?_, hJ⟩
  have h1 : 2 ^ (p + c) ≤ X + 2 ^ (p + c) := Nat.le_add_left _ _
  have h2 : X + 2 ^ (p + c) < 2 ^ (p + c + 1) := by rw [pow_succ]; omega
  have hk : p + c - p = c := by omega
  have hdiv : (X + 2 ^ (p + c)) / 2 ^ c = X / 2 ^ c + 2 ^ p := by
    rw [hpc, Nat.add_mul_div_right _ _ hC]
  have hmod : (X + 2 ^ (p + c)) % 2 ^ c = X % 2 ^ c := by
    rw [hpc, Nat.add_mul_mod_self_right]
  have hpar : (X / 2 ^ c + 2 ^ p) % 2 = X / 2 ^ c % 2 := by
    obtain ⟨p', rfl⟩ : ∃ p', p = p' + 1 := ⟨p - 1, by omega⟩
    rw [pow_succ, Nat.add_mul_mod_self_right]
  rw [roundOf_eq p w _ (p + c) h1 h2 hB, hk, hdiv, hmod, hpar]
  have e1 : X / 2 ^ c + 2 ^ p +
      (if 2 * (X % 2 ^ c) > 2 ^ c ∨ (2 * (X % 2 ^ c) = 2 ^ c ∧ X / 2 ^ c % 2 = 1) then 1 else 0) =
      2 ^ p + rneDiv X (2 ^ c) := by
    unfold rneDiv; omega
  rw [e1, if_neg]
  rw [infOf_eq, not_le]
  have h5 : c + 3 ≤ 2 ^ w - 1 := by omega
  have h6 := Nat.mul_le_mul_right (2 ^ p) h5
  have : (c + 3) * 2 ^ p = c * 2 ^ p + 2 ^ p + 2 ^ p + 2 ^ p := by ring
  omega

theorem svalOf_pos (p w u : Nat) (hs : sgnOf p w u = 0) : svalOf p w u = (magOf p w u : Int) := by
  rw [svalOf_def, if_pos hs]

theorem svalOf_neg (p w u : Nat) (hs : sgnOf p w u = 1) :
    svalOf p w u = -(magOf p w u : Int) := by
  rw [svalOf_def, if_neg (by omega)]

/-- The inexact step of the add-and-subtract trick: adding `toint` with the
sign of `x` rounds `|x|` to the nearest integer, ties to even. -/
theorem faddOf_toint (p w c x T : Nat) (hfx : isFiniteOf p w x) (hT : T < 2 ^ (p + w))
    (hfT : isFiniteOf p w T) (hTm : magOf p w T = 2 ^ (p + c)) (hX : magOf p w x < 2 ^ (p + c))
    (hp : 1 ≤ p) (hc : c + 3 < 2 ^ w) (hB : p + c < 8192) :
    (sgnOf p w x = 0 →
      magOf p w (faddOf p w x T) = (2 ^ p + rneDiv (magOf p w x) (2 ^ c)) * 2 ^ c ∧
      sgnOf p w (faddOf p w x T) = 0 ∧ isFiniteOf p w (faddOf p w x T) ∧
      faddOf p w x T < 2 ^ (p + w + 1)) ∧
    (sgnOf p w x = 1 →
      magOf p w (faddOf p w x (fnegOf p w T)) = (2 ^ p + rneDiv (magOf p w x) (2 ^ c)) * 2 ^ c ∧
      sgnOf p w (faddOf p w x (fnegOf p w T)) = 1 ∧
      isFiniteOf p w (faddOf p w x (fnegOf p w T)) ∧
      faddOf p w x (fnegOf p w T) < 2 ^ (p + w + 1)) := by
  have hS := two_pow_pos' (p + w)
  have hT' : T < 2 ^ (p + w + 1) := by rw [pow_succ]; omega
  have hsT : sgnOf p w T = 0 := by unfold sgnOf; rw [Nat.div_eq_of_lt hT]
  obtain ⟨r1, hJ⟩ := roundOf_toint p w c (magOf p w x) hX hp hc hB
  have hA1 : 2 ^ p ≤ 2 ^ p + rneDiv (magOf p w x) (2 ^ c) := Nat.le_add_right _ _
  have hA2 : 2 ^ p + rneDiv (magOf p w x) (2 ^ c) ≤ 2 ^ (p + 1) := by rw [pow_succ]; omega
  have hpos : 0 < magOf p w x + 2 ^ (p + c) := Nat.add_pos_right _ (two_pow_pos' _)
  constructor
  · intro hs
    have hv : svalOf p w x + svalOf p w T = ((magOf p w x + 2 ^ (p + c) : Nat) : Int) := by
      rw [svalOf_pos p w x hs, svalOf_pos p w T hsT, hTm]; push_cast; ring
    rw [faddOf_finite p w x T hfx hfT, hv, if_neg (by omega), if_pos (by omega), Int.toNat_ofNat,
      r1]
    obtain ⟨g1, g2, g3, g4, _⟩ := enc_fields p w 0 c _ (by norm_num) hA1 hA2 (by omega)
    simp only [Nat.zero_mul, Nat.zero_add] at g1 g2 g3 g4
    refine ⟨g1, g2, ?_, ?_⟩
    · unfold isFiniteOf; omega
    · have := enc_lt p w 0 c _ (by norm_num) hA2 (by omega)
      simpa using this
  · intro hs
    obtain ⟨n1, n2, n3, n4, n5, n6⟩ := fnegOf_fields p w T hT'
    have hfn : isFiniteOf p w (fnegOf p w T) := by unfold isFiniteOf at *; rw [n2]; exact hfT
    have hv : svalOf p w x + svalOf p w (fnegOf p w T) =
        -((magOf p w x + 2 ^ (p + c) : Nat) : Int) := by
      rw [svalOf_neg p w x hs, n5, svalOf_pos p w T hsT, hTm]; push_cast; ring
    rw [faddOf_finite p w x _ hfx hfn, hv, if_neg (by omega), if_neg (by omega), neg_neg,
      Int.toNat_ofNat, r1]
    obtain ⟨g1, g2, g3, g4, _⟩ := enc_fields p w 1 c _ (by norm_num) hA1 hA2 (by omega)
    simp only [Nat.one_mul] at g1 g2 g3 g4
    rw [← Nat.add_assoc]
    refine ⟨g1, g2, ?_, ?_⟩
    · unfold isFiniteOf; omega
    · have := enc_lt p w 1 c _ (by norm_num) hA2 (by omega)
      simpa using this

theorem sgn_of_sval (p w y : Nat) (hy : y < 2 ^ (p + w + 1)) :
    (0 < svalOf p w y → sgnOf p w y = 0) ∧ (svalOf p w y < 0 → sgnOf p w y = 1) ∧
    magOf p w y = (svalOf p w y).natAbs := by
  have hs := (parts_of_fields p w y hy).2
  rw [svalOf_def]
  by_cases h : sgnOf p w y = 0
  · rw [if_pos h]; omega
  · rw [if_neg h]; omega

/-- The add-and-subtract trick of `rint`/`rintf`: for `|x| < 2 ^ p` the result
has the sign of `x` and magnitude `|x|` rounded to the nearest integer, ties
to even. -/
theorem rintG_core (p w c x T y r : Nat) (hx : x < 2 ^ (p + w + 1)) (hfx : isFiniteOf p w x)
    (hT : T < 2 ^ (p + w)) (hfT : isFiniteOf p w T) (hTm : magOf p w T = 2 ^ (p + c))
    (hX : magOf p w x < 2 ^ (p + c)) (hp : 1 ≤ p) (hc : c + 3 < 2 ^ w) (hw : 2 ≤ w)
    (hB : p + 1 + c ≤ 8192)
    (hy : y = if sgnOf p w x ≠ 0 then faddOf p w (fsubOf p w x T) T
      else fsubOf p w (faddOf p w x T) T)
    (hr : r = if feqOf p w y 0 then (if sgnOf p w x ≠ 0 then 2 ^ (p + w) else 0) else y) :
    magOf p w r = rneDiv (magOf p w x) (2 ^ c) * 2 ^ c ∧ sgnOf p w r = sgnOf p w x ∧
    isFiniteOf p w r ∧ r < 2 ^ (p + w + 1) := by
  have hS := two_pow_pos' (p + w)
  have hC := two_pow_pos' c
  have h2 : 2 ^ (p + w + 1) = 2 ^ (p + w) + 2 ^ (p + w) := by rw [pow_succ]; omega
  have hT' : T < 2 ^ (p + w + 1) := by omega
  have hsT : sgnOf p w T = 0 := by unfold sgnOf; rw [Nat.div_eq_of_lt hT]
  have hsx := (parts_of_fields p w x hx).2
  obtain ⟨n1, n2, n3, n4, n5, n6⟩ := fnegOf_fields p w T hT'
  have hfn : isFiniteOf p w (fnegOf p w T) := by unfold isFiniteOf at *; rw [n2]; exact hfT
  obtain ⟨tp, tn⟩ := faddOf_toint p w c x T hfx hT hfT hTm hX hp hc (by omega)
  have hpc : 2 ^ (p + c) = 2 ^ p * 2 ^ c := pow_add 2 p c
  have hJ : rneDiv (magOf p w x) (2 ^ c) ≤ 2 ^ p :=
    rneDiv_le _ _ _ hC (by rw [← hpc]; exact hX)
  generalize hJd : rneDiv (magOf p w x) (2 ^ c) = J at *
  have hJlt : J * 2 ^ c < 2 ^ (p + 1 + c) := by
    have : p + 1 + c = (p + 1) + c := rfl
    rw [pow_add]
    apply Nat.mul_lt_mul_of_pos_right _ hC
    rw [pow_succ]; have := two_pow_pos' p; omega
  -- the value of `y`
  have key : svalOf p w y = (if sgnOf p w x = 0 then (J * 2 ^ c : Int) else -(J * 2 ^ c : Int)) ∧
      isFiniteOf p w y ∧ y < 2 ^ (p + w + 1) := by
    by_cases hs : sgnOf p w x = 0
    · obtain ⟨a1, a2, a3, a4⟩ := tp hs
      rw [if_neg (by omega)] at hy
      unfold fsubOf at hy
      have hv : svalOf p w (faddOf p w x T) + svalOf p w (fnegOf p w T) = ((J * 2 ^ c : Nat) : Int) := by
        rw [svalOf_pos p w _ a2, a1, n5, svalOf_pos p w T hsT, hTm, hpc]; push_cast; ring
      obtain ⟨e1, e2, e3⟩ := faddOf_exact p w _ _ c a3 hfn
        (by rw [hv]; exact Int.natCast_dvd_natCast.2 (Nat.dvd_mul_left _ _))
        (by rw [hv, Int.natAbs_ofNat]; exact hJlt) (by omega) hw hB
      rw [← hy, hv] at e1
      rw [← hy] at e2 e3
      rw [if_pos hs]
      exact ⟨by rw [e1]; push_cast; ring, e2, e3⟩
    · have hs1 : sgnOf p w x = 1 := by omega
      obtain ⟨a1, a2, a3, a4⟩ := tn hs1
      rw [if_pos hs] at hy
      unfold fsubOf at hy
      have hv : svalOf p w (faddOf p w x (fnegOf p w T)) + svalOf p w T =
          -((J * 2 ^ c : Nat) : Int) := by
        rw [svalOf_neg p w _ a2, a1, svalOf_pos p w T hsT, hTm, hpc]; push_cast; ring
      obtain ⟨e1, e2, e3⟩ := faddOf_exact p w _ _ c a3 hfT
        (by rw [hv, Int.dvd_neg]; exact Int.natCast_dvd_natCast.2 (Nat.dvd_mul_left _ _))
        (by rw [hv, Int.natAbs_neg, Int.natAbs_ofNat]; exact hJlt) (by omega) hw hB
      rw [← hy, hv] at e1
      rw [← hy] at e2 e3
      rw [if_neg hs]
      exact ⟨by rw [e1]; push_cast; ring, e2, e3⟩
  obtain ⟨k1, k2, k3⟩ := key
  obtain ⟨c1, c2, c3⟩ := cmp_zero p w y k3 k2
  obtain ⟨s1, s2, s3⟩ := sgn_of_sval p w y k3
  have hJC : (0 : Int) ≤ (J : Int) * 2 ^ c := by positivity
  by_cases hz : feqOf p w y 0
  · rw [if_pos hz] at hr
    have hy0 : svalOf p w y = 0 := c3.1 hz
    have hJ0 : J * 2 ^ c = 0 := by
      rw [hy0] at k1
      have : (J : Int) * 2 ^ c = 0 := by
        by_cases hs : sgnOf p w x = 0
        · rw [if_pos hs] at k1; omega
        · rw [if_neg hs] at k1; omega
      exact_mod_cast this
    rw [hJ0]
    obtain ⟨z1, z2, z3, z4⟩ := zero_fields p w hw
    obtain ⟨m1, m2, m3, m4⟩ := negzero_fields p w hw
    have hW4 : 2 ^ 2 ≤ 2 ^ w := Nat.pow_le_pow_right (by norm_num) hw
    by_cases hs : sgnOf p w x = 0
    · rw [if_neg (by omega)] at hr
      rw [hr]
      refine ⟨z1, by rw [z3, hs], ?_, by omega⟩
      unfold isFiniteOf; rw [z2]; omega
    · rw [if_pos hs] at hr
      rw [hr]
      refine ⟨m1, by rw [m3]; omega, ?_, by omega⟩
      unfold isFiniteOf; rw [m2]; omega
  · rw [if_neg hz] at hr
    rw [hr]
    have hy0 : svalOf p w y ≠ 0 := fun h => hz (c3.2 h)
    refine ⟨?_, ?_, k2, k3⟩
    · rw [s3, k1]
      by_cases hs : sgnOf p w x = 0
      · rw [if_pos hs]
        have : ((J : Int) * 2 ^ c) = ((J * 2 ^ c : Nat) : Int) := by push_cast; ring
        rw [this, Int.natAbs_ofNat]
      · rw [if_neg hs]
        have : ((J : Int) * 2 ^ c) = ((J * 2 ^ c : Nat) : Int) := by push_cast; ring
        rw [this, Int.natAbs_neg, Int.natAbs_ofNat]
    · by_cases hs : sgnOf p w x = 0
      · rw [if_pos hs] at k1
        rw [hs]; exact s1 (by omega)
      · rw [if_neg hs] at k1
        have : sgnOf p w x = 1 := by omega
        rw [this]; exact s2 (by omega)

theorem rneDiv_nearest_nat (X C : Nat) (hC : 0 < C) :
    (rneDiv X C * C ≤ X + C ∧ X ≤ rneDiv X C * C + C) ∧
    2 * (rneDiv X C * C) ≤ 2 * X + C ∧ 2 * X ≤ 2 * (rneDiv X C * C) + C ∧
    ((2 * (rneDiv X C * C) = 2 * X + C ∨ 2 * X = 2 * (rneDiv X C * C) + C) →
      rneDiv X C % 2 = 0) := by
  have h1 := Nat.div_add_mod X C
  have h2 := Nat.mod_lt X hC
  unfold rneDiv
  generalize X / C = q at *
  generalize X % C = r at *
  have hq : C * q = q * C := Nat.mul_comm _ _
  rw [hq] at h1
  by_cases hc : 2 * r > C ∨ (2 * r = C ∧ q % 2 = 1)
  · rw [if_pos hc, Nat.add_mul, one_mul]
    generalize q * C = qC at *
    omega
  · rw [if_neg hc, Nat.add_zero]
    generalize q * C = qC at *
    omega

theorem rneDiv_nearest (X C : Nat) (hC : 0 < C) :
    |((rneDiv X C : Nat) : ℚ) - (X : ℚ) / (C : ℚ)| ≤ 1 / 2 ∧
    (|((rneDiv X C : Nat) : ℚ) - (X : ℚ) / (C : ℚ)| = 1 / 2 → rneDiv X C % 2 = 0) := by
  obtain ⟨_, h1, h2, h3⟩ := rneDiv_nearest_nat X C hC
  have hCq : (0 : ℚ) < C := by exact_mod_cast hC
  generalize rneDiv X C = J at *
  have q1 : 2 * ((J : ℚ) * C) ≤ 2 * X + C := by exact_mod_cast h1
  have q2 : 2 * (X : ℚ) ≤ 2 * ((J : ℚ) * C) + C := by exact_mod_cast h2
  have e : (J : ℚ) - (X : ℚ) / C = ((J : ℚ) * C - X) / C := by field_simp
  rw [e, abs_div, abs_of_pos hCq]
  constructor
  · rw [div_le_iff₀ hCq, abs_le]
    constructor <;> linarith
  · intro h
    rw [div_eq_iff hCq.ne'] at h
    apply h3
    rcases abs_cases ((J : ℚ) * C - X) with ⟨ha, _⟩ | ⟨ha, _⟩
    · left
      have : 2 * ((J : ℚ) * C) = 2 * X + C := by rw [ha] at h; linarith
      exact_mod_cast this
    · right
      have : 2 * (X : ℚ) = 2 * ((J : ℚ) * C) + C := by rw [ha] at h; linarith
      exact_mod_cast this

/-- Value-level reading of `sgn r = sgn x`, `mag r = rneDiv (mag x) C * C`. -/
theorem val_nearest_of (p w x r : Nat) (hs : sgnOf p w r = sgnOf p w x)
    (hm : magOf p w r = rneDiv (magOf p w x) (2 ^ scaleOf p w) * 2 ^ scaleOf p w) :
    IsNearestEven (valOf p w x) (valOf p w r) := by
  have hC := two_pow_pos' (scaleOf p w)
  obtain ⟨n1, n2⟩ := rneDiv_nearest (magOf p w x) _ hC
  rw [valOf_of_mag p w r _ hm, hs, valOf_eq_div p w x]
  generalize rneDiv (magOf p w x) (2 ^ scaleOf p w) = J at *
  by_cases h : sgnOf p w x = 0
  · rw [if_pos h, if_pos h]
    refine ⟨(J : Int), by push_cast; rfl, ?_, ?_⟩
    · rw [Int.cast_natCast]; exact n1
    · rw [Int.cast_natCast]
      intro h5
      have := n2 h5
      exact (Int.even_coe_nat J).2 (Nat.even_iff.2 this)
  · rw [if_neg h, if_neg h]
    have e : (((-(J : Int) : Int) : ℚ)) - -((magOf p w x : ℚ) / ((2 ^ scaleOf p w : Nat) : ℚ)) =
        -((J : ℚ) - (magOf p w x : ℚ) / ((2 ^ scaleOf p w : Nat) : ℚ)) := by push_cast; ring
    refine ⟨-(J : Int), by push_cast; rfl, ?_, ?_⟩
    · rw [e, abs_neg]; exact n1
    · rw [e, abs_neg]
      intro h5
      have := n2 h5
      exact (Int.even_coe_nat J).2 (Nat.even_iff.2 this) |>.neg

theorem toint_fields : toint < 2 ^ (52 + 11) ∧ isFiniteOf 52 11 toint ∧
    magOf 52 11 toint = 2 ^ (52 + 1074) := by
  have h1 : expOf 52 11 toint = 1075 := by decide
  have h2 : manOf 52 toint = 0 := by decide
  refine ⟨by decide, by decide, ?_⟩
  rw [magOf_def, h1, h2, if_neg (by norm_num), Nat.add_zero, ← pow_add]

theorem tointf_fields : tointf < 2 ^ (23 + 8) ∧ isFiniteOf 23 8 tointf ∧
    magOf 23 8 tointf = 2 ^ (23 + 149) := by
  have h1 : expOf 23 8 tointf = 150 := by decide
  have h2 : manOf 23 tointf = 0 := by decide
  refine ⟨by decide, by decide, ?_⟩
  rw [magOf_def, h1, h2, if_neg (by norm_num), Nat.add_zero, ← pow_add]

theorem sgn64 (x : Nat) (hx : x < 2 ^ 64) : sgnOf 52 11 x = x >>> 63 := by
  unfold sgnOf; rw [Nat.shiftRight_eq_div_pow]; omega

theorem sgn32 (x : Nat) (hx : x < 2 ^ 32) : sgnOf 23 8 x = x >>> 31 := by
  unfold sgnOf; rw [Nat.shiftRight_eq_div_pow]; omega

theorem rint_spec (x : Nat) (hx : x < 2 ^ 64) (hE : expOf 52 11 x < 1075) :
    magOf 52 11 (rint x) = rneDiv (magOf 52 11 x) (2 ^ 1074) * 2 ^ 1074 ∧
    sgnOf 52 11 (rint x) = sgnOf 52 11 x ∧ isFiniteOf 52 11 (rint x) ∧ rint x < 2 ^ 64 := by
  obtain ⟨t1, t2, t3⟩ := toint_fields
  have hfx : isFiniteOf 52 11 x := by unfold isFiniteOf; omega
  have hX := magOf_small_lt 52 11 1075 x hE
  have e1 : 1075 + 52 - 1 = 52 + 1074 := by norm_num
  rw [e1] at hX
  have hsg := sgn64 x hx
  apply rintG_core 52 11 1074 x toint _ (rint x) hx hfx t1 t2 t3 hX (by norm_num) (by norm_num)
    (by norm_num) (by norm_num) rfl
  unfold rint
  rw [expField64]
  dsimp only
  rw [if_neg (by omega), ← hsg]
  by_cases hs : sgnOf 52 11 x = 0
  · have h1 : ¬ (((sgnOf 52 11 x : Nat) : Int) ≠ 0) := by omega
    have h2 : ¬ (sgnOf 52 11 x ≠ 0) := by omega
    simp only [if_neg h1, if_neg h2]
  · have h1 : ((sgnOf 52 11 x : Nat) : Int) ≠ 0 := by omega
    simp only [if_pos h1, if_pos hs]
    rfl

theorem rintf_spec (x : Nat) (hx : x < 2 ^ 32) (hE : expOf 23 8 x < 150) :
    magOf 23 8 (rintf x) = rneDiv (magOf 23 8 x) (2 ^ 149) * 2 ^ 149 ∧
    sgnOf 23 8 (rintf x) = sgnOf 23 8 x ∧ isFiniteOf 23 8 (rintf x) ∧ rintf x < 2 ^ 32 := by
  obtain ⟨t1, t2, t3⟩ := tointf_fields
  have hfx : isFiniteOf 23 8 x := by unfold isFiniteOf; omega
  have hX := magOf_small_lt 23 8 150 x hE
  have e1 : 150 + 23 - 1 = 23 + 149 := by norm_num
  rw [e1] at hX
  have hsg := sgn32 x hx
  apply rintG_core 23 8 149 x tointf _ (rintf x) hx hfx t1 t2 t3 hX (by norm_num) (by norm_num)
    (by norm_num) (by norm_num) rfl
  unfold rintf
  rw [expField32]
  dsimp only
  rw [if_neg (by omega), ← hsg]
  by_cases hs : sgnOf 23 8 x = 0
  · have h1 : ¬ (((sgnOf 23 8 x : Nat) : Int) ≠ 0) := by omega
    have h2 : ¬ (sgnOf 23 8 x ≠ 0) := by omega
    simp only [if_neg h1, if_neg h2]
  · have h1 : ((sgnOf 23 8 x : Nat) : Int) ≠ 0 := by omega
    simp only [if_pos h1, if_pos hs]
    rfl

theorem magOf_large_ge (p w b x : Nat) (hp : 1 ≤ p) (hE : expOf p w x ≥ b + p) :
    2 ^ p * 2 ^ (b + p - 1) ≤ magOf p w x := by
  rw [magOf_def, if_neg (by omega)]
  apply Nat.mul_le_mul (Nat.le_add_right _ _)
  exact Nat.pow_le_pow_right (by norm_num) (by omega)

/-- For a pattern with exponent field below `2 ^ w - 1`, `|x| < 2 ^ p` says
that the exponent field is below `b + p`, where `b` is the bias. -/
theorem abs_val_lt_iff (p w b x : Nat) (hc : scaleOf p w = b + p - 1) (hp : 1 ≤ p) :
    |valOf p w x| < 2 ^ p ↔ expOf p w x < b + p := by
  have hC : (0 : ℚ) < 2 ^ scaleOf p w := by positivity
  rw [abs_valOf, div_lt_iff₀ hC]
  constructor
  · intro h
    by_contra hge
    have h1 := magOf_large_ge p w b x hp (not_lt.1 hge)
    rw [← hc] at h1
    have h2 : ((2 ^ p * 2 ^ scaleOf p w : Nat) : ℚ) ≤ (magOf p w x : ℚ) := by exact_mod_cast h1
    push_cast at h2
    linarith
  · intro h
    have h1 := magOf_small_lt p w (b + p) x h
    have e1 : b + p + p - 1 = p + scaleOf p w := by rw [hc]; omega
    rw [e1, pow_add] at h1
    exact_mod_cast h1

theorem scaleOf_double' : scaleOf 52 11 = 1023 + 52 - 1 := by norm_num [scaleOf]

theorem scaleOf_float' : scaleOf 23 8 = 127 + 23 - 1 := by norm_num [scaleOf]

/-- C8: with additions modelled as IEEE round-to-nearest-even, for every
double `x` with `|x| < 2 ^ 52` the value of `rint x` is the integer nearest to
`x`, ties going to the even integer, and `rint x` carries the sign bit of `x`
(also when the result is zero); `rint 2.5 = 2.0`, `rint (-0.3) = -0.0` with
`signbit` 1.  The same holds for `rintf` with `|x| < 2 ^ 23`. -/
theorem rint_nearest_even (x z : Nat) (hx : x < 2 ^ 64) (_hxf : isFinite64 x)
    (hxb : |val64 x| < 2 ^ 52) (hz : z < 2 ^ 32) (_hzf : isFinite32 z)
    (hzb : |val32 z| < 2 ^ 23) :
    (IsNearestEven (val64 x) (val64 (rint x)) ∧ signbit (rint x) = signbit x) ∧
    (IsNearestEven (val32 z) (val32 (rintf z)) ∧ rintf z >>> 31 = z >>> 31) ∧
    rint 0x4004000000000000 = 0x4000000000000000 ∧
    rint 0xbfd3333333333333 = 0x8000000000000000 ∧ signbit (rint 0xbfd3333333333333) = 1 := by
  refine ⟨?_, ?_, by decide, by decide, by decide⟩
  · have hE := (abs_val_lt_iff 52 11 1023 x scaleOf_double' (by norm_num)).1 hxb
    obtain ⟨r1, r2, r3, r4⟩ := rint_spec x hx hE
    refine ⟨?_, ?_⟩
    · apply val_nearest_of 52 11 x (rint x) r2
      rw [scaleOf_double]; exact r1
    · unfold signbit; rw [← sgn64 x hx, ← sgn64 _ r4, r2]
  · have hE := (abs_val_lt_iff 23 8 127 z scaleOf_float' (by norm_num)).1 hzb
    obtain ⟨r1, r2, r3, r4⟩ := rintf_spec z hz hE
    refine ⟨?_, ?_⟩
    · apply val_nearest_of 23 8 z (rintf z) r2
      rw [scaleOf_float]; exact r1
    · rw [← sgn32 z hz, ← sgn32 _ r4, r2]

/-- Witness for C8 at `x = 2.5` and `z = -0.5f`. -/
theorem rint_nearest_even_witness :
    (IsNearestEven (val64 0x4004000000000000) (val64 (rint 0x4004000000000000)) ∧
      signbit (rint 0x4004000000000000) = signbit 0x4004000000000000) ∧
    (IsNearestEven (val32 0xbf000000) (val32 (rintf 0xbf000000)) ∧
      rintf 0xbf000000 >>> 31 = 0xbf000000 >>> 31) :=
  ⟨(rint_nearest_even 0x4004000000000000 0xbf000000 (by decide) (by decide)
      ((abs_val_lt_iff 52 11 1023 _ scaleOf_double' (by decide)).2 (by decide)) (by decide)
      (by decide) ((abs_val_lt_iff 23 8 127 _ scaleOf_float' (by decide)).2 (by decide))).1,
   (rint_nearest_even 0x4004000000000000 0xbf000000 (by decide) (by decide)
      ((abs_val_lt_iff 52 11 1023 _ scaleOf_double' (by decide)).2 (by decide)) (by decide)
      (by decide) ((abs_val_lt_iff 23 8 127 _ scaleOf_float' (by decide)).2 (by decide))).2.1⟩

/-- The first two additions of the add-and-subtract trick: the result is
`|x|` rounded to the nearest integer, with the sign of `x`, as a signed
value. -/
theorem addsub_sval (p w c x T y : Nat) (hx : x < 2 ^ (p + w + 1)) (hfx : isFiniteOf p w x)
    (hT : T < 2 ^ (p + w)) (hfT : isFiniteOf p w T) (hTm : magOf p w T = 2 ^ (p + c))
    (hX : magOf p w x < 2 ^ (p + c)) (hp : 1 ≤ p) (hc : c + 3 < 2 ^ w) (hw : 2 ≤ w)
    (hB : p + 1 + c ≤ 8192)
    (hy : y = if sgnOf p w x ≠ 0 then faddOf p w (fsubOf p w x T) T
      else fsubOf p w (faddOf p w x T) T) :
    svalOf p w y = (if sgnOf p w x = 0 then ((rneDiv (magOf p w x) (2 ^ c) * 2 ^ c : Nat) : Int)
      else -((rneDiv (magOf p w x) (2 ^ c) * 2 ^ c : Nat) : Int)) ∧
    isFiniteOf p w y ∧ y < 2 ^ (p + w + 1) := by
  have hS := two_pow_pos' (p + w)
  have hC := two_pow_pos' c
  have h2 : 2 ^ (p + w + 1) = 2 ^ (p + w) + 2 ^ (p + w) := by rw [pow_succ]; omega
  have hT' : T < 2 ^ (p + w + 1) := by omega
  have hsT : sgnOf p w T = 0 := by unfold sgnOf; rw [Nat.div_eq_of_lt hT]
  have hsx := (parts_of_fields p w x hx).2
  obtain ⟨n1, n2, n3, n4, n5, n6⟩ := fnegOf_fields p w T hT'
  have hfn : isFiniteOf p w (fnegOf p w T) := by unfold isFiniteOf at *; rw [n2]; exact hfT
  obtain ⟨tp, tn⟩ := faddOf_toint p w c x T hfx hT hfT hTm hX hp hc (by omega)
  have hpc : 2 ^ (p + c) = 2 ^ p * 2 ^ c := pow_add 2 p c
  have hJ : rneDiv (magOf p w x) (2 ^ c) ≤ 2 ^ p :=
    rneDiv_le _ _ _ hC (by rw [← hpc]; exact hX)
  generalize hJd : rneDiv (magOf p w x) (2 ^ c) = J at *
  have hJlt : J * 2 ^ c < 2 ^ (p + 1 + c) := by
    rw [pow_add]
    apply Nat.mul_lt_mul_of_pos_right _ hC
    rw [pow_succ]; have := two_pow_pos' p; omega
  by_cases hs : sgnOf p w x = 0
  · obtain ⟨a1, a2, a3, a4⟩ := tp hs
    rw [if_neg (by omega)] at hy
    unfold fsubOf at hy
    have hv : svalOf p w (faddOf p w x T) + svalOf p w (fnegOf p w T) = ((J * 2 ^ c : Nat) : Int) := by
      rw [svalOf_pos p w _ a2, a1, n5, svalOf_pos p w T hsT, hTm, hpc]; push_cast; ring
    obtain ⟨e1, e2, e3⟩ := faddOf_exact p w _ _ c a3 hfn
      (by rw [hv]; exact Int.natCast_dvd_natCast.2 (Nat.dvd_mul_left _ _))
      (by rw [hv, Int.natAbs_ofNat]; exact hJlt) (by omega) hw hB
    rw [← hy, hv] at e1
    rw [← hy] at e2 e3
    rw [if_pos hs]
    exact ⟨e1, e2, e3⟩
  · have hs1 : sgnOf p w x = 1 := by omega
    obtain ⟨a1, a2, a3, a4⟩ := tn hs1
    rw [if_pos hs] at hy
    unfold fsubOf at hy
    have hv : svalOf p w (faddOf p w x (fnegOf p w T)) + svalOf p w T =
        -((J * 2 ^ c : Nat) : Int) := by
      rw [svalOf_neg p w _ a2, a1, svalOf_pos p w T hsT, hTm, hpc]; push_cast; ring
    obtain ⟨e1, e2, e3⟩ := faddOf_exact p w _ _ c a3 hfT
      (by rw [hv, Int.dvd_neg]; exact Int.natCast_dvd_natCast.2 (Nat.dvd_mul_left _ _))
      (by rw [hv, Int.natAbs_neg, Int.natAbs_ofNat]; exact hJlt) (by omega) hw hB
    rw [← hy, hv] at e1
    rw [← hy] at e2 e3
    rw [if_neg hs]
    exact ⟨e1, e2, e3⟩

theorem fsubOf_exact (p w a b e : Nat) (ha : isFiniteOf p w a) (hb : isFiniteOf p w b)
    (hbl : b < 2 ^ (p + w + 1))
    (hdvd : ((2 ^ e : Nat) : Int) ∣ svalOf p w a - svalOf p w b)
    (hlt : (svalOf p w a - svalOf p w b).natAbs < 2 ^ (p + 1 + e))
    (he : e + 2 < 2 ^ w) (hw : 2 ≤ w) (hB : p + 1 + e ≤ 8192) :
    svalOf p w (fsubOf p w a b) = svalOf p w a - svalOf p w b ∧
    isFiniteOf p w (fsubOf p w a b) ∧ fsubOf p w a b < 2 ^ (p + w + 1) := by
  obtain ⟨n1, n2, n3, n4, n5, n6⟩ := fnegOf_fields p w b hbl
  have hfn : isFiniteOf p w (fnegOf p w b) := by unfold isFiniteOf at *; rw [n2]; exact hb
  unfold fsubOf
  have e1 : svalOf p w a + svalOf p w (fnegOf p w b) = svalOf p w a - svalOf p w b := by
    rw [n5]; ring
  have := faddOf_exact p w a (fnegOf p w b) e ha hfn (by rw [e1]; exact hdvd)
    (by rw [e1]; exact hlt) he hw hB
  rw [e1] at this
  exact this

/-- The exact additions that follow the add-and-subtract trick in `ceil` and
`floor`, for `1 ≤ |x| < 2 ^ p`: `y = y0 - x`, `x + y`, `x + y + 1` and
`x + y - 1` are all computed without rounding error. -/
theorem mid_steps (p w c x T one y0 : Nat) (hx : x < 2 ^ (p + w + 1)) (hfx : isFiniteOf p w x)
    (hT : T < 2 ^ (p + w)) (hfT : isFiniteOf p w T) (hTm : magOf p w T = 2 ^ (p + c))
    (hX : magOf p w x < 2 ^ (p + c)) (hp : 1 ≤ p) (hc : c + 3 < 2 ^ w) (hw : 2 ≤ w)
    (hB : p + 1 + c ≤ 8192)
    (hE1 : 1 ≤ expOf p w x) (hEc : expOf p w x ≤ c) (hEb : c ≤ p + expOf p w x)
    (hone : one < 2 ^ (p + w)) (hfone : isFiniteOf p w one) (honem : magOf p w one = 2 ^ c)
    (hy0 : y0 = if sgnOf p w x ≠ 0 then faddOf p w (fsubOf p w x T) T
      else fsubOf p w (faddOf p w x T) T) :
    (svalOf p w (fsubOf p w y0 x) = svalOf p w y0 - svalOf p w x ∧
      isFiniteOf p w (fsubOf p w y0 x) ∧ fsubOf p w y0 x < 2 ^ (p + w + 1)) ∧
    (svalOf p w (faddOf p w x (fsubOf p w y0 x)) = svalOf p w y0 ∧
      isFiniteOf p w (faddOf p w x (fsubOf p w y0 x)) ∧
      faddOf p w x (fsubOf p w y0 x) < 2 ^ (p + w + 1)) ∧
    (svalOf p w (faddOf p w (faddOf p w x (fsubOf p w y0 x)) one) = svalOf p w y0 + 2 ^ c ∧
      isFiniteOf p w (faddOf p w (faddOf p w x (fsubOf p w y0 x)) one) ∧
      faddOf p w (faddOf p w x (fsubOf p w y0 x)) one < 2 ^ (p + w + 1)) ∧
    (svalOf p w (fsubOf p w (faddOf p w x (fsubOf p w y0 x)) one) = svalOf p w y0 - 2 ^ c ∧
      isFiniteOf p w (fsubOf p w (faddOf p w x (fsubOf p w y0 x)) one) ∧
      fsubOf p w (faddOf p w x (fsubOf p w y0 x)) one < 2 ^ (p + w + 1)) := by
  have hC := two_pow_pos' c
  have hP := two_pow_pos' p
  have h2 : 2 ^ (p + w + 1) = 2 ^ (p + w) + 2 ^ (p + w) := by rw [pow_succ]; omega
  have hone' : one < 2 ^ (p + w + 1) := by omega
  have hsone : sgnOf p w one = 0 := by unfold sgnOf; rw [Nat.div_eq_of_lt hone]
  have hvone : svalOf p w one = ((2 ^ c : Nat) : Int) := by rw [svalOf_pos p w one hsone, honem]
  obtain ⟨k1, k2, k3⟩ := addsub_sval p w c x T y0 hx hfx hT hfT hTm hX hp hc hw hB hy0
  obtain ⟨_, n1, n2, _⟩ := rneDiv_nearest_nat (magOf p w x) (2 ^ c) hC
  have hpc : 2 ^ (p + c) = 2 ^ p * 2 ^ c := pow_add 2 p c
  have hJ : rneDiv (magOf p w x) (2 ^ c) ≤ 2 ^ p :=
    rneDiv_le _ _ _ hC (by rw [← hpc]; exact hX)
  have hsx := (parts_of_fields p w x hx).2
  have hdX : 2 ^ (expOf p w x - 1) ∣ magOf p w x := by
    rw [magOf_def, if_neg (by omega)]; exact Dvd.intro_left _ rfl
  have hdC : 2 ^ (expOf p w x - 1) ∣ 2 ^ c := pow_dvd_pow 2 (by omega)
  have hpE : 2 ^ c ≤ 2 ^ (p + 1 + (expOf p w x - 1)) :=
    Nat.pow_le_pow_right (by norm_num) (by omega)
  have hpE0 := two_pow_pos' (p + 1 + (expOf p w x - 1))
  have hp1 : 2 ^ (p + 1 + c) = 2 * (2 ^ p * 2 ^ c) := by rw [pow_add, pow_succ]; ring
  have hP2 : 2 ≤ 2 ^ p := by
    have := Nat.pow_le_pow_right (by norm_num : 0 < 2) hp
    simpa using this
  generalize hJd : rneDiv (magOf p w x) (2 ^ c) = J at *
  have hdJ : 2 ^ (expOf p w x - 1) ∣ J * 2 ^ c := Dvd.dvd.mul_left hdC J
  have hJC : J * 2 ^ c ≤ 2 ^ p * 2 ^ c := Nat.mul_le_mul_right _ hJ
  have hvx : svalOf p w x = if sgnOf p w x = 0 then (magOf p w x : Int)
      else -(magOf p w x : Int) := svalOf_def p w x
  -- y = y0 - x
  have hd1 : ((2 ^ (expOf p w x - 1) : Nat) : Int) ∣ svalOf p w y0 - svalOf p w x := by
    rw [k1, hvx]
    split
    · exact dvd_sub (Int.natCast_dvd_natCast.2 hdJ) (Int.natCast_dvd_natCast.2 hdX)
    · exact dvd_sub (Int.natCast_dvd_natCast.2 hdJ).neg_right
        (Int.natCast_dvd_natCast.2 hdX).neg_right
  have hl1 : (svalOf p w y0 - svalOf p w x).natAbs < 2 ^ (p + 1 + (expOf p w x - 1)) := by
    rw [k1, hvx]
    generalize J * 2 ^ c = JC at *
    generalize magOf p w x = X at *
    generalize 2 ^ (p + 1 + (expOf p w x - 1)) = U at *
    generalize 2 ^ c = C at *
    split <;> omega
  obtain ⟨y1, y2, y3⟩ := fsubOf_exact p w y0 x (expOf p w x - 1) k2 hfx hx hd1 hl1 (by omega) hw
    (by omega)
  -- r1 = x + y
  have hv2 : svalOf p w x + svalOf p w (fsubOf p w y0 x) = svalOf p w y0 := by rw [y1]; ring
  have hd2 : ((2 ^ c : Nat) : Int) ∣ svalOf p w y0 := by
    rw [k1]
    split
    · exact Int.natCast_dvd_natCast.2 (Nat.dvd_mul_left _ _)
    · exact (Int.natCast_dvd_natCast.2 (Nat.dvd_mul_left _ _)).neg_right
  have hl2 : (svalOf p w y0).natAbs = J * 2 ^ c := by
    rw [k1]; split
    · exact Int.natAbs_ofNat _
    · rw [Int.natAbs_neg]; exact Int.natAbs_ofNat _
  obtain ⟨r1, r2, r3⟩ := faddOf_exact p w x (fsubOf p w y0 x) c hfx y2 (by rw [hv2]; exact hd2)
    (by rw [hv2, hl2, hp1]; omega) (by omega) hw hB
  rw [hv2] at r1
  -- r1 ± 1
  have hCC : 2 ^ p * 2 ^ c + 2 ^ c < 2 * (2 ^ p * 2 ^ c) := by
    have : 2 * 2 ^ c ≤ 2 ^ p * 2 ^ c := Nat.mul_le_mul_right _ hP2
    omega
  have hl3 : ∀ v : Int, v.natAbs ≤ J * 2 ^ c + 2 ^ c → v.natAbs < 2 ^ (p + 1 + c) := by
    intro v hv; rw [hp1]; omega
  obtain ⟨a1, a2, a3⟩ := faddOf_exact p w (faddOf p w x (fsubOf p w y0 x)) one c r2 hfone
    (by rw [r1, hvone]; exact dvd_add hd2 (dvd_refl _))
    (by rw [r1, hvone]; apply hl3; omega) (by omega) hw hB
  obtain ⟨s1, s2, s3⟩ := fsubOf_exact p w (faddOf p w x (fsubOf p w y0 x)) one c r2 hfone hone'
    (by rw [r1, hvone]; exact dvd_sub hd2 (dvd_refl _))
    (by rw [r1, hvone]; apply hl3; omega) (by omega) hw hB
  rw [r1, hvone] at a1 s1
  exact ⟨⟨y1, y2, y3⟩, ⟨r1, r2, r3⟩, ⟨by rw [a1]; push_cast; rfl, a2, a3⟩,
    ⟨by rw [s1]; push_cast; rfl, s2, s3⟩⟩

theorem ceil_div_cases (X C : Nat) (hC : 0 < C) :
    (X + C - 1) / C * C = if X % C = 0 then X / C * C else X / C * C + C := by
  have h1 := Nat.div_add_mod X C
  have h2 := Nat.mod_lt X hC
  by_cases h : X % C = 0
  · rw [if_pos h]
    have hd : C ∣ X := Nat.dvd_of_mod_eq_zero h
    rw [ceil_mul_of_dvd X C hC hd, Nat.div_mul_cancel hd]
  · rw [if_neg h]
    have e : X + C - 1 = (X % C - 1) + C * (X / C + 1) := by
      have : C * (X / C + 1) = C * (X / C) + C := by ring
      omega
    rw [e, Nat.add_mul_div_left _ _ hC, Nat.div_eq_of_lt (by omega), Nat.zero_add, Nat.add_mul,
      one_mul]

/-- How the nearest integer compares with floor and ceiling. -/
theorem rneDiv_floor_ceil (X C : Nat) (hC : 0 < C) :
    (rneDiv X C * C < X → rneDiv X C * C + C = (X + C - 1) / C * C) ∧
    (¬ rneDiv X C * C < X → rneDiv X C * C = (X + C - 1) / C * C) ∧
    (X < rneDiv X C * C → rneDiv X C * C = X / C * C + C) ∧
    (¬ X < rneDiv X C * C → rneDiv X C * C = X / C * C) ∧
    (C ∣ X → rneDiv X C * C = X) := by
  rw [ceil_div_cases X C hC]
  have h1 := Nat.div_add_mod X C
  have h2 := Nat.mod_lt X hC
  have h3 : C ∣ X → X % C = 0 := Nat.mod_eq_zero_of_dvd
  unfold rneDiv
  generalize X / C = q at *
  generalize X % C = r at *
  have hq : C * q = q * C := Nat.mul_comm _ _
  rw [hq] at h1
  by_cases hc : 2 * r > C ∨ (2 * r = C ∧ q % 2 = 1)
  · rw [if_pos hc, Nat.add_mul, one_mul]
    generalize q * C = qC at *
    refine ⟨?_, ?_, ?_, ?_, ?_⟩
    · intro h; omega
    · intro _; rw [if_neg (by omega)]
    · intro _; rfl
    · intro h; omega
    · intro h; have := h3 h; omega
  · rw [if_neg hc, Nat.add_zero]
    generalize q * C = qC at *
    refine ⟨?_, ?_, ?_, ?_, ?_⟩
    · intro h; rw [if_neg (by omega)]
    · intro h; rw [if_pos (by omega)]
    · intro h; omega
    · intro _; rfl
    · intro h; have := h3 h; omega

theorem of_sval (p w R x M : Nat) (hR : R < 2 ^ (p + w + 1)) (hx : x < 2 ^ (p + w + 1))
    (hM : 0 < M)
    (h : svalOf p w R = if sgnOf p w x = 0 then (M : Int) else -(M : Int)) :
    sgnOf p w R = sgnOf p w x ∧ magOf p w R = M := by
  obtain ⟨s1, s2, s3⟩ := sgn_of_sval p w R hR
  have hsx := (parts_of_fields p w x hx).2
  by_cases hs : sgnOf p w x = 0
  · rw [if_pos hs] at h
    exact ⟨by rw [hs]; exact s1 (by omega), by omega⟩
  · rw [if_neg hs] at h
    exact ⟨by rw [s2 (by omega)]; omega, by omega⟩

/-- The results of `ceil` and `floor` for `1 ≤ |x| < 2 ^ p`: the sign of `x`
and the magnitude of `x` rounded up or down to a multiple of `2 ^ c`. -/
theorem mid_round (p w c x T one y0 : Nat) (hx : x < 2 ^ (p + w + 1)) (hfx : isFiniteOf p w x)
    (hT : T < 2 ^ (p + w)) (hfT : isFiniteOf p w T) (hTm : magOf p w T = 2 ^ (p + c))
    (hX : magOf p w x < 2 ^ (p + c)) (hp : 1 ≤ p) (hc : c + 3 < 2 ^ w) (hw : 2 ≤ w)
    (hB : p + 2 ^ w ≤ 8192)
    (hE1 : 1 ≤ expOf p w x) (hEc : expOf p w x ≤ c) (hEb : c ≤ p + expOf p w x)
    (hone : one < 2 ^ (p + w)) (hfone : isFiniteOf p w one) (honem : magOf p w one = 2 ^ c)
    (hXC : 2 ^ c ≤ magOf p w x)
    (hy0 : y0 = if sgnOf p w x ≠ 0 then faddOf p w (fsubOf p w x T) T
      else fsubOf p w (faddOf p w x T) T) :
    (sgnOf p w (if fltOf p w (fsubOf p w y0 x) 0
          then faddOf p w (faddOf p w x (fsubOf p w y0 x)) one
          else faddOf p w x (fsubOf p w y0 x)) = sgnOf p w x ∧
      magOf p w (if fltOf p w (fsubOf p w y0 x) 0
          then faddOf p w (faddOf p w x (fsubOf p w y0 x)) one
          else faddOf p w x (fsubOf p w y0 x)) =
        (if sgnOf p w x = 0 then (magOf p w x + 2 ^ c - 1) / 2 ^ c * 2 ^ c
          else magOf p w x / 2 ^ c * 2 ^ c) ∧
      isFiniteOf p w (if fltOf p w (fsubOf p w y0 x) 0
          then faddOf p w (faddOf p w x (fsubOf p w y0 x)) one
          else faddOf p w x (fsubOf p w y0 x)) ∧
      (if fltOf p w (fsubOf p w y0 x) 0
          then faddOf p w (faddOf p w x (fsubOf p w y0 x)) one
          else faddOf p w x (fsubOf p w y0 x)) < 2 ^ (p + w + 1)) ∧
    (sgnOf p w (if fltOf p w 0 (fsubOf p w y0 x)
          then fsubOf p w (faddOf p w x (fsubOf p w y0 x)) one
          else faddOf p w x (fsubOf p w y0 x)) = sgnOf p w x ∧
      magOf p w (if fltOf p w 0 (fsubOf p w y0 x)
          then fsubOf p w (faddOf p w x (fsubOf p w y0 x)) one
          else faddOf p w x (fsubOf p w y0 x)) =
        (if sgnOf p w x = 0 then magOf p w x / 2 ^ c * 2 ^ c
          else (magOf p w x + 2 ^ c - 1) / 2 ^ c * 2 ^ c) ∧
      isFiniteOf p w (if fltOf p w 0 (fsubOf p w y0 x)
          then fsubOf p w (faddOf p w x (fsubOf p w y0 x)) one
          else faddOf p w x (fsubOf p w y0 x)) ∧
      (if fltOf p w 0 (fsubOf p w y0 x)
          then fsubOf p w (faddOf p w x (fsubOf p w y0 x)) one
          else faddOf p w x (fsubOf p w y0 x)) < 2 ^ (p + w + 1)) := by
  have hC := two_pow_pos' c
  have hW4 : 2 ^ 2 ≤ 2 ^ w := Nat.pow_le_pow_right (by norm_num) hw
  obtain ⟨k1, k2, k3⟩ := addsub_sval p w c x T y0 hx hfx hT hfT hTm hX hp hc hw (by omega) hy0
  obtain ⟨⟨y1, y2, y3⟩, ⟨r1, r2, r3⟩, ⟨a1, a2, a3⟩, ⟨s1, s2, s3⟩⟩ :=
    mid_steps p w c x T one y0 hx hfx hT hfT hTm hX hp hc hw (by omega) hE1 hEc hEb hone hfone
      honem hy0
  obtain ⟨c1, c2, _⟩ := cmp_zero p w _ y3 y2
  obtain ⟨f1, f2, f3, f4, _⟩ := rneDiv_floor_ceil (magOf p w x) (2 ^ c) hC
  have hq1 : 2 ^ c ≤ magOf p w x / 2 ^ c * 2 ^ c := by
    have : 1 ≤ magOf p w x / 2 ^ c := (Nat.one_le_div_iff hC).2 hXC
    calc 2 ^ c = 1 * 2 ^ c := (one_mul _).symm
      _ ≤ _ := Nat.mul_le_mul_right _ this
  have hq2 := Nat.div_mul_le_self (magOf p w x) (2 ^ c)
  have hvx : svalOf p w x = if sgnOf p w x = 0 then (magOf p w x : Int)
      else -(magOf p w x : Int) := svalOf_def p w x
  rw [y1, k1, hvx] at c1 c2
  rw [k1] at r1 a1 s1
  generalize hyd : fsubOf p w y0 x = y at *
  generalize hrd : faddOf p w x y = r at *
  generalize had : faddOf p w r one = ra at *
  generalize hsd : fsubOf p w r one = rs at *
  generalize hJd : rneDiv (magOf p w x) (2 ^ c) * 2 ^ c = JC at *
  generalize hXd : magOf p w x = X at *
  generalize hud : (X + 2 ^ c - 1) / 2 ^ c * 2 ^ c = U at *
  generalize hdd : X / 2 ^ c * 2 ^ c = D at *
  have hCc : ((2 ^ c : Nat) : Int) = (2 : Int) ^ c := by push_cast; rfl
  rw [← hCc] at a1 s1
  generalize hCd : 2 ^ c = C at *
  constructor
  · by_cases hs : sgnOf p w x = 0
    · simp only [if_pos hs] at c1 r1 a1 ⊢
      by_cases hlt : fltOf p w y 0
      · rw [if_pos hlt]
        have h5 : JC < X := by have := c1.1 hlt; omega
        obtain ⟨g1, g2⟩ := of_sval p w ra x (JC + C) a3 hx (by omega)
          (by rw [if_pos hs, a1]; push_cast; rfl)
        exact ⟨by rw [g1, hs], by rw [g2]; exact f1 h5, a2, a3⟩
      · rw [if_neg hlt]
        have h5 : ¬ JC < X := fun h => hlt (c1.2 (by omega))
        obtain ⟨g1, g2⟩ := of_sval p w r x JC r3 hx (by omega) (by rw [if_pos hs, r1])
        exact ⟨by rw [g1, hs], by rw [g2]; exact f2 h5, r2, r3⟩
    · simp only [if_neg hs] at c1 r1 a1 ⊢
      by_cases hlt : fltOf p w y 0
      · rw [if_pos hlt]
        have h5 : X < JC := by have := c1.1 hlt; omega
        have h6 := f3 h5
        obtain ⟨g1, g2⟩ := of_sval p w ra x D a3 hx (by omega)
          (by rw [if_neg hs, a1]; omega)
        exact ⟨g1, g2, a2, a3⟩
      · rw [if_neg hlt]
        have h5 : ¬ X < JC := fun h => hlt (c1.2 (by omega))
        have h6 := f4 h5
        obtain ⟨g1, g2⟩ := of_sval p w r x JC r3 hx (by omega) (by rw [if_neg hs, r1])
        exact ⟨g1, by rw [g2]; exact h6, r2, r3⟩
  · by_cases hs : sgnOf p w x = 0
    · simp only [if_pos hs] at c2 r1 s1 ⊢
      by_cases hlt : fltOf p w 0 y
      · rw [if_pos hlt]
        have h5 : X < JC := by have := c2.1 hlt; omega
        have h6 := f3 h5
        obtain ⟨g1, g2⟩ := of_sval p w rs x D s3 hx (by omega)
          (by rw [if_pos hs, s1]; omega)
        exact ⟨by rw [g1, hs], g2, s2, s3⟩
      · rw [if_neg hlt]
        have h5 : ¬ X < JC := fun h => hlt (c2.2 (by omega))
        have h6 := f4 h5
        obtain ⟨g1, g2⟩ := of_sval p w r x JC r3 hx (by omega) (by rw [if_pos hs, r1])
        exact ⟨by rw [g1, hs], by rw [g2]; exact h6, r2, r3⟩
    · simp only [if_neg hs] at c2 r1 s1 ⊢
      by_cases hlt : fltOf p w 0 y
      · rw [if_pos hlt]
        have h5 : JC < X := by have := c2.1 hlt; omega
        have h6 := f1 h5
        obtain ⟨g1, g2⟩ := of_sval p w rs x (JC + C) s3 hx (by omega)
          (by rw [if_neg hs, s1]; push_cast; ring)
        exact ⟨g1, by rw [g2]; exact h6, s2, s3⟩
      · rw [if_neg hlt]
        have h5 : ¬ JC < X := fun h => hlt (c2.2 (by omega))
        have h6 := f2 h5
        obtain ⟨g1, g2⟩ := of_sval p w r x JC r3 hx (by omega) (by rw [if_neg hs, r1])
        exact ⟨g1, by rw [g2]; exact h6, r2, r3⟩

theorem one_fields : (0x3ff0000000000000 : Nat) < 2 ^ (52 + 11) ∧
    isFiniteOf 52 11 0x3ff0000000000000 ∧ magOf 52 11 0x3ff0000000000000 = 2 ^ 1074 ∧
    sgnOf 52 11 0x3ff0000000000000 = 0 := by
  have h1 : expOf 52 11 0x3ff0000000000000 = 1023 := by decide
  have h2 : manOf 52 0x3ff0000000000000 = 0 := by decide
  refine ⟨by decide, by decide, ?_, by decide⟩
  rw [magOf_def, h1, h2, if_neg (by norm_num), Nat.add_zero, ← pow_add]

theorem feq_zero_iff (p w x : Nat) (hx : x < 2 ^ (p + w + 1)) (hf : isFiniteOf p w x) :
    feqOf p w x 0 ↔ magOf p w x = 0 := by
  rw [(cmp_zero p w x hx hf).2.2, (svalOf_neg_iff p w x hx).2.2]

/-- Sign and magnitude of `ceil x` and `floor x` for a finite double. -/
theorem ceil_floor_mag (x : Nat) (hx : x < 2 ^ 64) (hfin : isFiniteOf 52 11 x) :
    (sgnOf 52 11 (ceil x) = sgnOf 52 11 x ∧
      magOf 52 11 (ceil x) =
        (if sgnOf 52 11 x = 0 then (magOf 52 11 x + 2 ^ 1074 - 1) / 2 ^ 1074 * 2 ^ 1074
          else magOf 52 11 x / 2 ^ 1074 * 2 ^ 1074) ∧
      isFiniteOf 52 11 (ceil x) ∧ ceil x < 2 ^ 64) ∧
    (sgnOf 52 11 (floor x) = sgnOf 52 11 x ∧
      magOf 52 11 (floor x) =
        (if sgnOf 52 11 x = 0 then magOf 52 11 x / 2 ^ 1074 * 2 ^ 1074
          else (magOf 52 11 x + 2 ^ 1074 - 1) / 2 ^ 1074 * 2 ^ 1074) ∧
      isFiniteOf 52 11 (floor x) ∧ floor x < 2 ^ 64) := by
  have hC := two_pow_pos' 1074
  have hsg := sgn64 x hx
  have hsx := (parts_of_fields 52 11 x hx).2
  have e1074 : 1023 + 52 - 1 = 1074 := by norm_num
  by_cases hA : expOf 52 11 x ≥ 1075
  · have hd := magOf_large_dvd 52 11 1023 x (by norm_num) hA
    rw [e1074] at hd
    have hc1 : ((expOf 52 11 x : Nat) : Int) ≥ 0x3ff + 52 ∨ feqOf 52 11 x 0 := Or.inl (by omega)
    have hceil : ceil x = x := by
      unfold ceil; rw [expField64]; dsimp only; rw [if_pos hc1]
    have hfloor : floor x = x := by
      unfold floor; rw [expField64]; dsimp only; rw [if_pos hc1]
    rw [hceil, hfloor, ceil_mul_of_dvd _ _ hC hd, Nat.div_mul_cancel hd, ite_self]
    exact ⟨⟨rfl, rfl, hfin, hx⟩, ⟨rfl, rfl, hfin, hx⟩⟩
  · by_cases hZ : feqOf 52 11 x 0
    · have h0 := (feq_zero_iff 52 11 x hx hfin).1 hZ
      have hc1 : ((expOf 52 11 x : Nat) : Int) ≥ 0x3ff + 52 ∨ feqOf 52 11 x 0 := Or.inr hZ
      have hceil : ceil x = x := by
        unfold ceil; rw [expField64]; dsimp only; rw [if_pos hc1]
      have hfloor : floor x = x := by
        unfold floor; rw [expField64]; dsimp only; rw [if_pos hc1]
      have e1 : (magOf 52 11 x + 2 ^ 1074 - 1) / 2 ^ 1074 * 2 ^ 1074 = 0 := by
        rw [h0, Nat.zero_add, Nat.div_eq_of_lt (by omega), Nat.zero_mul]
      have e2 : magOf 52 11 x / 2 ^ 1074 * 2 ^ 1074 = 0 := by
        rw [h0, Nat.zero_div, Nat.zero_mul]
      rw [hceil, hfloor, e1, e2, ite_self]
      exact ⟨⟨rfl, h0, hfin, hx⟩, ⟨rfl, h0, hfin, hx⟩⟩
    · have hnz : magOf 52 11 x ≠ 0 := fun h => hZ ((feq_zero_iff 52 11 x hx hfin).2 h)
      have hcond : ¬ (((expOf 52 11 x : Nat) : Int) ≥ 0x3ff + 52 ∨ feqOf 52 11 x 0) := by
        rintro (h | h)
        · omega
        · exact hZ h
      by_cases hCs : expOf 52 11 x ≤ 1022
      · have hlt := magOf_small_lt 52 11 1023 x (by omega)
        rw [e1074] at hlt
        have hup : (magOf 52 11 x + 2 ^ 1074 - 1) / 2 ^ 1074 * 2 ^ 1074 = 2 ^ 1074 := by
          have : (magOf 52 11 x + 2 ^ 1074 - 1) / 2 ^ 1074 = 1 := by
            apply Nat.div_eq_of_lt_le <;> omega
          rw [this, one_mul]
        have hdn : magOf 52 11 x / 2 ^ 1074 * 2 ^ 1074 = 0 := by
          rw [Nat.div_eq_of_lt hlt, Nat.zero_mul]
        have hc2 : ((expOf 52 11 x : Nat) : Int) ≤ 0x3ff - 1 := by omega
        have hceil : ceil x = if sgnOf 52 11 x ≠ 0 then 0x8000000000000000
            else 0x3ff0000000000000 := by
          unfold ceil; rw [expField64, ← hsg]; dsimp only; rw [if_neg hcond, if_pos hc2]
        have hfloor : floor x = if sgnOf 52 11 x ≠ 0 then 0xbff0000000000000 else 0 := by
          unfold floor; rw [expField64, ← hsg]; dsimp only; rw [if_neg hcond, if_pos hc2]
        rw [hceil, hfloor, hup, hdn]
        obtain ⟨o1, o2, o3, o4⟩ := one_fields
        obtain ⟨z1, z2, z3, z4⟩ := zero_fields 52 11 (by norm_num)
        obtain ⟨m1, m2, m3, m4⟩ := negzero_fields 52 11 (by norm_num)
        have hm : magOf 52 11 0xbff0000000000000 = 2 ^ 1074 ∧
            sgnOf 52 11 0xbff0000000000000 = 1 ∧ isFiniteOf 52 11 0xbff0000000000000 := by
          obtain ⟨g1, g2, g3, g4, g5⟩ := fields_add_sign 52 11 0x3ff0000000000000 o1
          have e : (2 ^ (52 + 11) + 0x3ff0000000000000 : Nat) = 0xbff0000000000000 := by norm_num
          rw [e] at g1 g4
          exact ⟨by rw [g4, o3], g1, by decide⟩
        have e63 : (0x8000000000000000 : Nat) = 2 ^ (52 + 11) := by norm_num
        by_cases hs : sgnOf 52 11 x = 0
        · have hs' : ¬ (sgnOf 52 11 x ≠ 0) := by omega
          rw [if_neg hs', if_neg hs', if_pos hs, if_pos hs, hs]
          exact ⟨⟨o4, o3, o2, by norm_num⟩, ⟨z3, z1, by decide, by norm_num⟩⟩
        · have hs' : sgnOf 52 11 x ≠ 0 := hs
          rw [if_pos hs', if_pos hs', if_neg hs, if_neg hs, e63]
          exact ⟨⟨by rw [m3]; omega, m1, by decide, by norm_num⟩,
            ⟨by rw [hm.2.1]; omega, hm.1, hm.2.2, by norm_num⟩⟩
      · have hc2 : ¬ (((expOf 52 11 x : Nat) : Int) ≤ 0x3ff - 1) := by omega
        obtain ⟨t1, t2, t3⟩ := toint_fields
        obtain ⟨o1, o2, o3, o4⟩ := one_fields
        have hX := magOf_small_lt 52 11 1075 x (by omega)
        have e1 : 1075 + 52 - 1 = 52 + 1074 := by norm_num
        rw [e1] at hX
        have hXC := magOf_large_ge 52 11 971 x (by norm_num) (by omega)
        have e2 : 2 ^ 52 * 2 ^ (971 + 52 - 1) = 2 ^ 1074 := by rw [← pow_add]
        rw [e2] at hXC
        have hyy : (if sgnOf 52 11 x ≠ 0
            then fsubOf 52 11 (faddOf 52 11 (fsubOf 52 11 x toint) toint) x
            else fsubOf 52 11 (fsubOf 52 11 (faddOf 52 11 x toint) toint) x) =
            fsubOf 52 11 (if sgnOf 52 11 x ≠ 0 then faddOf 52 11 (fsubOf 52 11 x toint) toint
              else fsubOf 52 11 (faddOf 52 11 x toint) toint) x := by
          split <;> rfl
        obtain ⟨mc, mf⟩ := mid_round 52 11 1074 x toint 0x3ff0000000000000 _ hx hfin t1 t2 t3 hX
          (by norm_num) (by norm_num) (by norm_num) (by norm_num) (by omega) (by omega) (by omega)
          o1 o2 o3 hXC rfl
        constructor
        · unfold ceil; rw [expField64, ← hsg]; dsimp only
          rw [if_neg hcond, if_neg hc2, hyy]
          exact mc
        · unfold floor; rw [expField64, ← hsg]; dsimp only
          rw [if_neg hcond, if_neg hc2, hyy]
          exact mf

theorem ceil_spec (x : Nat) (hx : x < 2 ^ 64) (hfin : isFinite64 x) :
    ceil x < 2 ^ 64 ∧ isFinite64 (ceil x) ∧ val64 (ceil x) = (⌈val64 x⌉ : ℚ) ∧
    (2 ^ 1074 ∣ magOf 52 11 x → ceil x = x) := by
  obtain ⟨⟨c1, c2, c3, c4⟩, _⟩ := ceil_floor_mag x hx hfin
  refine ⟨c4, c3, ?_, ?_⟩
  · apply val_ceil_of 52 11 x (ceil x) c1
    rw [scaleOf_double]; exact c2
  · intro hd
    apply pattern_ext 52 11 (ceil x) x c4 hx c3 hfin c1 _ (by norm_num) (by norm_num)
    rw [c2, ceil_mul_of_dvd _ _ (two_pow_pos' _) hd, Nat.div_mul_cancel hd, ite_self]

theorem floor_spec (x : Nat) (hx : x < 2 ^ 64) (hfin : isFinite64 x) :
    floor x < 2 ^ 64 ∧ isFinite64 (floor x) ∧ val64 (floor x) = (⌊val64 x⌋ : ℚ) ∧
    (2 ^ 1074 ∣ magOf 52 11 x → floor x = x) := by
  obtain ⟨_, ⟨c1, c2, c3, c4⟩⟩ := ceil_floor_mag x hx hfin
  refine ⟨c4, c3, ?_, ?_⟩
  · apply val_floor_of 52 11 x (floor x) c1
    rw [scaleOf_double]; exact c2
  · intro hd
    apply pattern_ext 52 11 (floor x) x c4 hx c3 hfin c1 _ (by norm_num) (by norm_num)
    rw [c2, ceil_mul_of_dvd _ _ (two_pow_pos' _) hd, Nat.div_mul_cancel hd, ite_self]

theorem rint_fix (x : Nat) (hx : x < 2 ^ 64) (hfin : isFinite64 x)
    (hd : 2 ^ 1074 ∣ magOf 52 11 x) : rint x = x := by
  by_cases hE : expOf 52 11 x < 1075
  · obtain ⟨r1, r2, r3, r4⟩ := rint_spec x hx hE
    apply pattern_ext 52 11 (rint x) x r4 hx r3 hfin r2 _ (by norm_num) (by norm_num)
    rw [r1]; exact (rneDiv_floor_ceil _ _ (two_pow_pos' _)).2.2.2.2 hd
  · unfold rint; rw [expField64]; dsimp only
    rw [if_pos (by omega)]

theorem rintf_fix (x : Nat) (hx : x < 2 ^ 32) (hfin : isFinite32 x)
    (hd : 2 ^ 149 ∣ magOf 23 8 x) : rintf x = x := by
  by_cases hE : expOf 23 8 x < 150
  · obtain ⟨r1, r2, r3, r4⟩ := rintf_spec x hx hE
    apply pattern_ext 23 8 (rintf x) x r4 hx r3 hfin r2 _ (by norm_num) (by norm_num)
    rw [r1]; exact (rneDiv_floor_ceil _ _ (two_pow_pos' _)).2.2.2.2 hd
  · unfold rintf; rw [expField32]; dsimp only
    rw [if_pos (by omega)]

theorem rint_int (x : Nat) (hx : x < 2 ^ 64) (hfin : isFinite64 x) :
    rint x < 2 ^ 64 ∧ isFinite64 (rint x) ∧ 2 ^ 1074 ∣ magOf 52 11 (rint x) := by
  by_cases hE : expOf 52 11 x < 1075
  · obtain ⟨r1, r2, r3, r4⟩ := rint_spec x hx hE
    exact ⟨r4, r3, by rw [r1]; exact Nat.dvd_mul_left _ _⟩
  · have h : rint x = x := by
      unfold rint; rw [expField64]; dsimp only
      rw [if_pos (by omega)]
    rw [h]
    have hd := magOf_large_dvd 52 11 1023 x (by norm_num) (by omega)
    have e : 1023 + 52 - 1 = 1074 := by norm_num
    rw [e] at hd
    exact ⟨hx, hfin, hd⟩

theorem rintf_int (x : Nat) (hx : x < 2 ^ 32) (hfin : isFinite32 x) :
    rintf x < 2 ^ 32 ∧ isFinite32 (rintf x) ∧ 2 ^ 149 ∣ magOf 23 8 (rintf x) := by
  by_cases hE : expOf 23 8 x < 150
  · obtain ⟨r1, r2, r3, r4⟩ := rintf_spec x hx hE
    exact ⟨r4, r3, by rw [r1]; exact Nat.dvd_mul_left _ _⟩
  · have h : rintf x = x := by
      unfold rintf; rw [expField32]; dsimp only
      rw [if_pos (by omega)]
    rw [h]
    exact ⟨hx, hfin, magOf_large_dvd 23 8 127 x (by norm_num) (by omega)⟩

/-- C4: with the double additions modelled as IEEE round-to-nearest-even, for
every finite double `x` the values satisfy `floor x ≤ x ≤ ceil x` (they are the
integer floor and ceiling of `x`), with equality on both sides exactly when `x`
is integer-valued; `ceil 2.3 = 3.0` and `floor 2.3 = 2.0`. -/
theorem ceil_floor_bracket (x : Nat) (hx : x < 2 ^ 64) (hfin : isFinite64 x) :
    isFinite64 (floor x) ∧ isFinite64 (ceil x) ∧
    val64 (floor x) = (⌊val64 x⌋ : ℚ) ∧ val64 (ceil x) = (⌈val64 x⌉ : ℚ) ∧
    val64 (floor x) ≤ val64 x ∧ val64 x ≤ val64 (ceil x) ∧
    ((val64 (floor x) = val64 x ∧ val64 x = val64 (ceil x)) ↔ IsIntVal (val64 x)) ∧
    ceil 0x4002666666666666 = 0x4008000000000000 ∧
    floor 0x4002666666666666 = 0x4000000000000000 := by
  obtain ⟨_, f2, f3, _⟩ := floor_spec x hx hfin
  obtain ⟨_, c2, c3, _⟩ := ceil_spec x hx hfin
  refine ⟨f2, c2, f3, c3, ?_, ?_, ?_, by decide, by decide⟩
  · rw [f3]; exact Int.floor_le _
  · rw [c3]; exact Int.le_ceil _
  · rw [f3, c3]
    constructor
    · rintro ⟨h1, _⟩
      exact ⟨⌊val64 x⌋, h1.symm⟩
    · rintro ⟨n, hn⟩
      rw [hn, Int.floor_intCast, Int.ceil_intCast]
      exact ⟨rfl, rfl⟩

/-- Witness for C4 at `x = -2.5`. -/
theorem ceil_floor_bracket_witness :
    val64 (floor 0xc004000000000000) ≤ val64 0xc004000000000000 ∧
    val64 0xc004000000000000 ≤ val64 (ceil 0xc004000000000000) ∧
    ceil 0xc004000000000000 = 0xc000000000000000 ∧
    floor 0xc004000000000000 = 0xc008000000000000 :=
  ⟨(ceil_floor_bracket 0xc004000000000000 (by decide) (by decide)).2.2.2.2.1,
   (ceil_floor_bracket 0xc004000000000000 (by decide) (by decide)).2.2.2.2.2.1,
   by decide, by decide⟩

/-- C7: with floating-point additions modelled as IEEE round-to-nearest-even,
the add-and-subtract based rounding functions are idempotent bit for bit:
`ceil (ceil x) = ceil x`, `floor (floor x) = floor x`, `rint (rint x) = rint x`
for every finite double `x` and `rintf (rintf z) = rintf z` for every finite
float `z`. -/
theorem addsub_rounding_idempotent (x z : Nat) (hx : x < 2 ^ 64) (hxf : isFinite64 x)
    (hz : z < 2 ^ 32) (hzf : isFinite32 z) :
    ceil (ceil x) = ceil x ∧ floor (floor x) = floor x ∧ rint (rint x) = rint x ∧
    rintf (rintf z) = rintf z := by
  obtain ⟨⟨c1, c2, c3, c4⟩, ⟨f1, f2, f3, f4⟩⟩ := ceil_floor_mag x hx hxf
  obtain ⟨r1, r2, r3⟩ := rint_int x hx hxf
  obtain ⟨s1, s2, s3⟩ := rintf_int z hz hzf
  refine ⟨?_, ?_, rint_fix _ r1 r2 r3, rintf_fix _ s1 s2 s3⟩
  · apply (ceil_spec (ceil x) c4 c3).2.2.2
    rw [c2]; split <;> exact Nat.dvd_mul_left _ _
  · apply (floor_spec (floor x) f4 f3).2.2.2
    rw [f2]; split <;> exact Nat.dvd_mul_left _ _

/-- Witness for C7 at `x = 2.3` and `z = 2.5f`. -/
theorem addsub_rounding_idempotent_witness :
    ceil (ceil 0x4002666666666666) = ceil 0x4002666666666666 ∧
    floor (floor 0x4002666666666666) = floor 0x4002666666666666 ∧
    rint (rint 0x4002666666666666) = rint 0x4002666666666666 ∧
    rintf (rintf 0x40200000) = rintf 0x40200000 :=
  addsub_rounding_idempotent 0x4002666666666666 0x40200000 (by decide) (by decide) (by decide)
    (by decide)

theorem sqrtBody_form (ix top : Nat) : ∃ S D1 D2 : Nat,
    sqrtBody ix top = faddOf 52 11
      ((S &&& 0x000fffffffffffff) ||| (((((top + 0x3ff) % 2 ^ 64) >>> 1) <<< 52) % 2 ^ 64))
      ((if D2 = 0 then 0 else 0x0010000000000000) ||| ((D1 ^^^ D2) &&& 0x8000000000000000)) :=
  ⟨_, _, _, rfl⟩

theorem sqrtfBody_form (ix : Nat) : ∃ S D1 D2 : Nat,
    sqrtfBody ix = faddOf 23 8
      ((S &&& 0x007fffff) ||| ((((ix >>> 1) + (0x3f800000 >>> 1)) % 2 ^ 32) &&& 0x7f800000))
      ((if D2 = 0 then 0 else 0x01000000) ||| ((D1 ^^^ D2) &&& 0x80000000)) :=
  ⟨_, _, _, rfl⟩

theorem div_mod_of_eq (n q r K : Nat) (h : n = q * K + r) (hr : r < K) :
    n / K = q ∧ n % K = r := by
  have hK : 0 < K := by omega
  subst h
  constructor
  · rw [Nat.add_comm, Nat.add_mul_div_right _ _ hK, Nat.div_eq_of_lt hr, Nat.zero_add]
  · rw [Nat.add_comm, Nat.add_mul_mod_self_right, Nat.mod_eq_of_lt hr]

/-- A perturbation of `d` units with `4 * d ≤ 2 ^ e` does not change the
rounding of a value `A * 2 ^ e` with a full significand `A`. -/
theorem roundOf_near (p w A e d : Nat) (hA1 : 2 ^ p ≤ A) (hA2 : A < 2 ^ (p + 1))
    (hd0 : 0 < d) (hd : 4 * d ≤ 2 ^ e) (he : 1 ≤ e)
    (hf : e + 2 < 2 ^ w) (hB : p + e < 8192) (hp : 1 ≤ p) :
    roundOf p w 0 (A * 2 ^ e + d) = e * 2 ^ p + A ∧
    roundOf p w 0 (A * 2 ^ e - d) = e * 2 ^ p + A := by
  have hP := two_pow_pos' p
  have hP2 : 2 ≤ 2 ^ p := by
    have := Nat.pow_le_pow_right (by norm_num : 0 < 2) hp
    simpa using this
  have hp1 : 2 ^ (p + 1) = 2 * 2 ^ p := by rw [pow_succ]; omega
  have he1 : 2 ^ e = 2 * 2 ^ (e - 1) := by
    obtain ⟨e', rfl⟩ : ∃ e', e = e' + 1 := ⟨e - 1, by omega⟩
    rw [Nat.add_sub_cancel, pow_succ]; omega
  have hpe : 2 ^ (p + e) = 2 ^ p * 2 ^ e := pow_add 2 p e
  have hpe1 : 2 ^ (p + e + 1) = 2 * (2 ^ p * 2 ^ e) := by rw [pow_succ, hpe]; omega
  have hAE : 2 ^ p * 2 ^ e ≤ A * 2 ^ e := Nat.mul_le_mul_right _ hA1
  have hAE2 : A * 2 ^ e + 2 ^ e ≤ 2 * (2 ^ p * 2 ^ e) := by
    have : (A + 1) * 2 ^ e ≤ (2 * 2 ^ p) * 2 ^ e := Nat.mul_le_mul_right _ (by omega)
    have e1 : (A + 1) * 2 ^ e = A * 2 ^ e + 2 ^ e := by ring
    have e2 : (2 * 2 ^ p) * 2 ^ e = 2 * (2 ^ p * 2 ^ e) := by ring
    omega
  have hinf : ¬ (e * 2 ^ p + A ≥ infOf p w) := by
    rw [infOf_eq, not_le]
    have h5 : e + 2 ≤ 2 ^ w - 1 := by omega
    have h6 := Nat.mul_le_mul_right (2 ^ p) h5
    have : (e + 2) * 2 ^ p = e * 2 ^ p + 2 * 2 ^ p := by ring
    omega
  have hk : p + e - p = e := by omega
  constructor
  · have h1 : 2 ^ (p + e) ≤ A * 2 ^ e + d := by rw [hpe]; omega
    have h2 : A * 2 ^ e + d < 2 ^ (p + e + 1) := by rw [hpe1]; omega
    obtain ⟨d1, d2⟩ := div_mod_of_eq (A * 2 ^ e + d) A d (2 ^ e) rfl (by omega)
    rw [roundOf_eq p w _ (p + e) h1 h2 hB, hk, d1, d2]
    have hc : ¬ (2 * d > 2 ^ e ∨ (2 * d = 2 ^ e ∧ A % 2 = 1)) := by omega
    simp only [if_neg hc, Nat.add_zero]
    rw [if_neg hinf]
  · by_cases hAP : A = 2 ^ p
    · -- the value is a power of two: the perturbed value lies in the binade below
      have hk' : p + (e - 1) - p = e - 1 := by omega
      have hpe' : 2 ^ (p + (e - 1)) = 2 ^ p * 2 ^ (e - 1) := pow_add 2 p (e - 1)
      have hpe1' : 2 ^ (p + (e - 1) + 1) = 2 * (2 ^ p * 2 ^ (e - 1)) := by
        rw [pow_succ, hpe']; omega
      have hPH : 2 * 2 ^ (e - 1) ≤ 2 ^ p * 2 ^ (e - 1) := Nat.mul_le_mul_right _ hP2
      have hval : A * 2 ^ e = 2 * (2 ^ p * 2 ^ (e - 1)) := by rw [hAP, he1]; ring
      have hn : A * 2 ^ e - d =
          (2 * 2 ^ p - 1) * 2 ^ (e - 1) + (2 ^ (e - 1) - d) := by
        have : (2 * 2 ^ p - 1) * 2 ^ (e - 1) = 2 * (2 ^ p * 2 ^ (e - 1)) - 2 ^ (e - 1) := by
          rw [Nat.sub_mul, one_mul]; ring_nf
        omega
      have h1 : 2 ^ (p + (e - 1)) ≤ A * 2 ^ e - d := by rw [hpe', hval]; omega
      have h2 : A * 2 ^ e - d < 2 ^ (p + (e - 1) + 1) := by rw [hpe1', hval]; omega
      obtain ⟨d1, d2⟩ := div_mod_of_eq _ _ _ (2 ^ (e - 1)) hn (by omega)
      rw [roundOf_eq p w _ (p + (e - 1)) h1 h2 (by omega), hk', d1, d2]
      have hodd : (2 * 2 ^ p - 1) % 2 = 1 := by omega
      have hc : 2 * (2 ^ (e - 1) - d) > 2 ^ (e - 1) ∨
          (2 * (2 ^ (e - 1) - d) = 2 ^ (e - 1) ∧ (2 * 2 ^ p - 1) % 2 = 1) := by omega
      simp only [if_pos hc]
      have e3 : (e - 1) * 2 ^ p + (2 * 2 ^ p - 1 + 1) = e * 2 ^ p + A := by
        obtain ⟨e', rfl⟩ : ∃ e', e = e' + 1 := ⟨e - 1, by omega⟩
        rw [Nat.add_sub_cancel, Nat.add_mul, one_mul, hAP]; omega
      rw [e3, if_neg hinf]
    · have hn : A * 2 ^ e - d = (A - 1) * 2 ^ e + (2 ^ e - d) := by
        have : (A - 1) * 2 ^ e = A * 2 ^ e - 2 ^ e := by rw [Nat.sub_mul, one_mul]
        omega
      have hAE' : 2 ^ p * 2 ^ e + 2 ^ e ≤ A * 2 ^ e := by
        have : (2 ^ p + 1) * 2 ^ e ≤ A * 2 ^ e := Nat.mul_le_mul_right _ (by omega)
        have e1 : (2 ^ p + 1) * 2 ^ e = 2 ^ p * 2 ^ e + 2 ^ e := by ring
        omega
      have h1 : 2 ^ (p + e) ≤ A * 2 ^ e - d := by rw [hpe]; omega
      have h2 : A * 2 ^ e - d < 2 ^ (p + e + 1) := by rw [hpe1]; omega
      obtain ⟨d1, d2⟩ := div_mod_of_eq _ _ _ (2 ^ e) hn (by omega)
      rw [roundOf_eq p w _ (p + e) h1 h2 hB, hk, d1, d2]
      have hc : 2 * (2 ^ e - d) > 2 ^ e ∨
          (2 * (2 ^ e - d) = 2 ^ e ∧ (A - 1) % 2 = 1) := by omega
      simp only [if_pos hc]
      have e3 : A - 1 + 1 = A := by omega
      rw [e3, if_neg hinf]

/-- Adding `±0` or `±T`, for a positive `T` of at most a quarter of the unit
in the last place of `y`, to a positive normal `y` returns `y`. -/
theorem faddOf_tiny (p w y t T : Nat) (hy : y < 2 ^ (p + w)) (hfy : isFiniteOf p w y)
    (hE : 2 ≤ expOf p w y) (hT : T < 2 ^ (p + w)) (hfT : isFiniteOf p w T)
    (hT0 : 0 < magOf p w T) (hTd : 4 * magOf p w T ≤ 2 ^ (expOf p w y - 1))
    (ht : t = 0 ∨ t = 2 ^ (p + w) ∨ t = T ∨ t = 2 ^ (p + w) + T)
    (hp : 1 ≤ p) (hw : 2 ≤ w) (hB : p + 2 ^ w ≤ 8192) :
    faddOf p w y t = y := by
  have hP := two_pow_pos' p
  have hW4 : 2 ^ 2 ≤ 2 ^ w := Nat.pow_le_pow_right (by norm_num) hw
  have hEl := expOf_lt p w y
  have hM := manOf_lt p y
  have hfy' : expOf p w y ≠ 2 ^ w - 1 := hfy
  have hsy : sgnOf p w y = 0 := by unfold sgnOf; rw [Nat.div_eq_of_lt hy]
  have hsT : sgnOf p w T = 0 := by unfold sgnOf; rw [Nat.div_eq_of_lt hT]
  have hparts : y = expOf p w y * 2 ^ p + manOf p y := by
    obtain ⟨h, _⟩ := parts_of_fields p w y (lt_of_lt_of_le hy
      (Nat.pow_le_pow_right (by norm_num) (by omega)))
    rw [hsy, Nat.zero_mul, Nat.zero_add] at h
    exact h
  have hmag : magOf p w y = (2 ^ p + manOf p y) * 2 ^ (expOf p w y - 1) := by
    rw [magOf_def, if_neg (by omega)]
  have hye : y = (expOf p w y - 1) * 2 ^ p + (2 ^ p + manOf p y) := by
    obtain ⟨E', hE'⟩ : ∃ E', expOf p w y = E' + 1 := ⟨expOf p w y - 1, by omega⟩
    rw [hE', Nat.add_sub_cancel]
    rw [hE', Nat.add_mul, one_mul] at hparts
    omega
  have hp1 : 2 ^ (p + 1) = 2 * 2 ^ p := by rw [pow_succ]; omega
  obtain ⟨n1, n2⟩ := roundOf_near p w (2 ^ p + manOf p y) (expOf p w y - 1) (magOf p w T)
    (by omega) (by omega) hT0 hTd (by omega) (by omega) (by omega) hp
  have hYpos : magOf p w T < magOf p w y := by
    rw [hmag]
    have h1 : 1 * 2 ^ (expOf p w y - 1) ≤ (2 ^ p + manOf p y) * 2 ^ (expOf p w y - 1) :=
      Nat.mul_le_mul_right _ (by omega)
    omega
  have hvy : svalOf p w y = (magOf p w y : Int) := svalOf_pos p w y hsy
  obtain ⟨z1, z2, z3, z4⟩ := zero_fields p w hw
  obtain ⟨m1, m2, m3, m4⟩ := negzero_fields p w hw
  obtain ⟨g1, g2, g3, g4, g5⟩ := fields_add_sign p w T hT
  have hrt := roundOf_magOf p w y hy hfy hw hB
  rcases ht with rfl | rfl | rfl | rfl
  · have hf0 : isFiniteOf p w 0 := by unfold isFiniteOf; rw [z2]; omega
    rw [faddOf_finite p w y 0 hfy hf0, z4, hvy, Int.add_zero, if_neg (by omega),
      if_pos (by omega), Int.toNat_ofNat, hrt]
  · have hf0 : isFiniteOf p w (2 ^ (p + w)) := by unfold isFiniteOf; rw [m2]; omega
    rw [faddOf_finite p w y _ hfy hf0, m4, hvy, Int.add_zero, if_neg (by omega),
      if_pos (by omega), Int.toNat_ofNat, hrt]
  · have hv : svalOf p w y + svalOf p w t = ((magOf p w y + magOf p w t : Nat) : Int) := by
      rw [hvy, svalOf_pos p w _ hsT]; push_cast; rfl
    rw [faddOf_finite p w y _ hfy hfT, hv, if_neg (by omega), if_pos (by omega),
      Int.toNat_ofNat, hmag, n1, ← hye]
  · have hf0 : isFiniteOf p w (2 ^ (p + w) + T) := by
      unfold isFiniteOf at *; rw [g2]; exact hfT
    have hv : svalOf p w y + svalOf p w (2 ^ (p + w) + T) =
        ((magOf p w y - magOf p w T : Nat) : Int) := by
      rw [hvy, svalOf_neg p w _ g1, g4]; omega
    rw [faddOf_finite p w y _ hfy hf0, hv, if_neg (by omega), if_pos (by omega),
      Int.toNat_ofNat, hmag, n2, ← hye]

theorem tiny_cases (D1 D2 n k T M : Nat) (hk : k < n) (hT : T = 2 ^ k) (hM : M = 2 ^ n) :
    (if D2 = 0 then 0 else T) ||| ((D1 ^^^ D2) &&& M) = 0 ∨
    (if D2 = 0 then 0 else T) ||| ((D1 ^^^ D2) &&& M) = 2 ^ n ∨
    (if D2 = 0 then 0 else T) ||| ((D1 ^^^ D2) &&& M) = 2 ^ k ∨
    (if D2 = 0 then 0 else T) ||| ((D1 ^^^ D2) &&& M) = 2 ^ n + 2 ^ k := by
  subst hT hM
  rw [and_bit]
  have hlt : 2 ^ k < 2 ^ n := Nat.pow_lt_pow_right (by norm_num) hk
  have h2 : (D1 ^^^ D2) / 2 ^ n % 2 = 0 ∨ (D1 ^^^ D2) / 2 ^ n % 2 = 1 := by omega
  rcases h2 with h | h <;> rw [h] <;> split
  · left; simp
  · right; right; left; simp
  · right; left; simp
  · right; right; right
    rw [Nat.lor_comm, or_disjoint 1 (2 ^ k) n hlt, one_mul]

theorem roundOf_exact_sh (p w sh n L : Nat) (h1 : 2 ^ L ≤ n) (h2 : n < 2 ^ (L + 1))
    (hL : L < 8192) (hk : sh ≤ L - p) (hd : 2 ^ (L - p) ∣ n) (hov : L - p - sh + 2 < 2 ^ w)
    (hpL : p ≤ L) :
    roundOf p w sh n = (L - p - sh) * 2 ^ p + n / 2 ^ (L - p) := by
  have hK := two_pow_pos' (L - p)
  unfold roundOf
  rw [ilog2_eq n L h1 h2 hL, Nat.max_eq_right hk]
  simp only [Nat.shiftLeft_eq, Nat.shiftRight_eq_div_pow, one_mul]
  rw [Nat.mod_eq_zero_of_dvd hd]
  have hc : ¬ (2 * 0 > 2 ^ (L - p) ∨ (2 * 0 = 2 ^ (L - p) ∧ n / 2 ^ (L - p) % 2 = 1)) := by omega
  rw [if_neg hc, if_neg]
  rw [infOf_eq, not_le]
  have hq2 : n / 2 ^ (L - p) < 2 ^ (p + 1) := by
    rw [Nat.div_lt_iff_lt_mul hK, ← pow_add]
    have : p + 1 + (L - p) = L + 1 := by omega
    rw [this]; exact h2
  have h5 : L - p - sh + 2 ≤ 2 ^ w - 1 := by omega
  have h6 := Nat.mul_le_mul_right (2 ^ p) h5
  have : (L - p - sh + 2) * 2 ^ p = (L - p - sh) * 2 ^ p + 2 * 2 ^ p := by ring
  rw [pow_succ] at hq2
  omega

/-- Scaling a positive subnormal by `2 ^ p` (the renormalisation of `sqrt` and
`sqrtf`) is exact: the result is the normal number with the significand of `x`
shifted up to the leading position. -/
theorem fmulOf_subnormal (p w x T : Nat) (hx0 : 0 < x) (hx : x < 2 ^ p)
    (hT : T < 2 ^ (p + w)) (hfT : isFiniteOf p w T)
    (hTm : magOf p w T = 2 ^ (p + scaleOf p w)) (hw : 2 ≤ w) (hpw : p + 2 < 2 ^ w)
    (hB : 2 * p + scaleOf p w < 8192) :
    ∃ L, L < p ∧ 2 ^ L ≤ x ∧ x < 2 ^ (L + 1) ∧
      fmulOf p w x T = L * 2 ^ p + x * 2 ^ (p - L) := by
  have hP := two_pow_pos' p
  obtain ⟨L, h1, h2, hLp⟩ := exists_ilog x p hx0 (by omega) hx
  refine ⟨L, hLp, h1, h2, ?_⟩
  have hxs : x < 2 ^ (p + 1) := by rw [pow_succ]; omega
  obtain ⟨s1, s2, s3⟩ := magOf_small p w x hxs hw
  have hex : expOf p w x = 0 := by
    unfold expOf; rw [Nat.div_eq_of_lt hx]; simp
  have hsT : sgnOf p w T = 0 := by unfold sgnOf; rw [Nat.div_eq_of_lt hT]
  have hW4 : 2 ^ 2 ≤ 2 ^ w := Nat.pow_le_pow_right (by norm_num) hw
  have hfx : isFiniteOf p w x := by unfold isFiniteOf; rw [hex]; omega
  have hzT : ¬ isZeroOf p w T := by
    intro h
    have := (magOf_eq_zero_iff p w T).2 h
    rw [hTm] at this
    exact absurd this (two_pow_pos' _).ne'
  unfold fmulOf
  have c1 : ¬ (isNaNOf p w x ∨ isNaNOf p w T) := by
    rintro (h | h)
    · exact finite_not_nan p w x hfx h
    · exact finite_not_nan p w T hfT h
  have c2 : ¬ ((isInfOf p w x ∧ isZeroOf p w T) ∨ (isZeroOf p w x ∧ isInfOf p w T)) := by
    rintro (⟨h, _⟩ | ⟨_, h⟩)
    · exact finite_not_inf p w x hfx h
    · exact finite_not_inf p w T hfT h
  have c3 : ¬ (isInfOf p w x ∨ isInfOf p w T) := by
    rintro (h | h)
    · exact finite_not_inf p w x hfx h
    · exact finite_not_inf p w T hfT h
  rw [if_neg c1, if_neg c2]
  dsimp only
  rw [if_neg c3, s3, hsT, s1, hTm]
  have e0 : (0 ^^^ 0) <<< (p + w) = 0 := by simp
  rw [e0, Nat.zero_add]
  generalize scaleOf p w = c at *
  have hn1 : 2 ^ (L + (p + c)) ≤ x * 2 ^ (p + c) := by
    rw [pow_add]; exact Nat.mul_le_mul_right _ h1
  have hn2 : x * 2 ^ (p + c) < 2 ^ (L + (p + c) + 1) := by
    have : L + (p + c) + 1 = (L + 1) + (p + c) := by omega
    rw [this, pow_add 2 (L + 1) (p + c)]
    exact Nat.mul_lt_mul_of_pos_right h2 (two_pow_pos' _)
  have hkk : L + (p + c) - p = L + c := by omega
  have hsplit : 2 ^ (p + c) = 2 ^ (p - L) * 2 ^ (L + c) := by
    rw [← pow_add]; congr 1; omega
  have hd : 2 ^ (L + (p + c) - p) ∣ x * 2 ^ (p + c) := by
    rw [hkk, hsplit, ← Nat.mul_assoc]; exact Nat.dvd_mul_left _ _
  rw [roundOf_exact_sh p w c _ (L + (p + c)) hn1 hn2 (by omega) (by omega) hd (by omega)
    (by omega), hkk]
  have e1 : L + c - c = L := by omega
  rw [e1, hsplit, ← Nat.mul_assoc, Nat.mul_div_cancel _ (two_pow_pos' _)]

theorem sqrtBody_val (ix top F : Nat) (hF : ((top + 0x3ff) % 2 ^ 64) >>> 1 = F)
    (hF1 : 55 ≤ F) (hF2 : F < 2047) :
    ∃ S, sqrtBody ix top = F * 2 ^ 52 + S % 2 ^ 52 := by
  obtain ⟨S, D1, D2, h⟩ := sqrtBody_form ix top
  refine ⟨S, ?_⟩
  rw [h, hF]
  have e1 : (F <<< 52) % 2 ^ 64 = F * 2 ^ 52 := by
    rw [Nat.shiftLeft_eq]; omega
  have e2 : (0x000fffffffffffff : Nat) = 2 ^ 52 - 1 := by norm_num
  have hS : S % 2 ^ 52 < 2 ^ 52 := Nat.mod_lt _ (by norm_num)
  rw [e1, e2, and_low_mask, Nat.lor_comm, or_disjoint F _ 52 hS]
  obtain ⟨g1, g2, g3⟩ := fields_of_parts 52 11 0 F (S % 2 ^ 52) hS (by omega) (by norm_num)
  rw [Nat.zero_mul, Nat.zero_add] at g1 g2 g3
  have hT : magOf 52 11 (2 ^ 52) = 2 ^ 52 := by decide
  have hpow : 2 ^ 54 ≤ 2 ^ (F - 1) := Nat.pow_le_pow_right (by norm_num) (by omega)
  apply faddOf_tiny 52 11 _ _ (2 ^ 52) (by omega) (by unfold isFiniteOf; rw [g1]; omega)
    (by rw [g1]; omega) (by norm_num) (by decide) (by rw [hT]; norm_num)
    (by rw [g1, hT]; omega) _ (by norm_num) (by norm_num) (by norm_num)
  exact tiny_cases D1 D2 63 52 _ _ (by norm_num) (by norm_num) (by norm_num)

theorem sqrtfBody_val (ix F : Nat)
    (hF : (((ix >>> 1) + (0x3f800000 >>> 1)) % 2 ^ 32) &&& 0x7f800000 = F * 2 ^ 23)
    (hF1 : 27 ≤ F) (hF2 : F < 255) :
    ∃ S, sqrtfBody ix = F * 2 ^ 23 + S % 2 ^ 23 := by
  obtain ⟨S, D1, D2, h⟩ := sqrtfBody_form ix
  refine ⟨S, ?_⟩
  rw [h, hF]
  have e2 : (0x007fffff : Nat) = 2 ^ 23 - 1 := by norm_num
  have hS : S % 2 ^ 23 < 2 ^ 23 := Nat.mod_lt _ (by norm_num)
  rw [e2, and_low_mask, Nat.lor_comm, or_disjoint F _ 23 hS]
  obtain ⟨g1, g2, g3⟩ := fields_of_parts 23 8 0 F (S % 2 ^ 23) hS (by omega) (by norm_num)
  rw [Nat.zero_mul, Nat.zero_add] at g1 g2 g3
  have hT : magOf 23 8 (2 ^ 24) = 2 ^ 24 := by decide
  have hpow : 2 ^ 26 ≤ 2 ^ (F - 1) := Nat.pow_le_pow_right (by norm_num) (by omega)
  apply faddOf_tiny 23 8 _ _ (2 ^ 24) (by omega) (by unfold isFiniteOf; rw [g1]; omega)
    (by rw [g1]; omega) (by norm_num) (by decide) (by rw [hT]; norm_num)
    (by rw [g1, hT]; omega) _ (by norm_num) (by norm_num) (by norm_num)
  exact tiny_cases D1 D2 31 24 _ _ (by norm_num) (by norm_num) (by norm_num)

/-- On a positive finite double `sqrt` returns a positive normal number. -/
theorem sqrt_pos (x : Nat) (hx0 : 0 < x) (hx : x < 0x7ff0000000000000) :
    ∃ F S, 55 ≤ F ∧ F < 2047 ∧ sqrt x = F * 2 ^ 52 + S % 2 ^ 52 := by
  unfold sqrt
  dsimp only
  rw [Nat.shiftRight_eq_div_pow]
  by_cases hn : 2 ^ 52 ≤ x
  · have hc : ¬ (sub64 (x / 2 ^ 52) 0x001 ≥ 0x7ff - 0x001) := by unfold sub64; omega
    rw [if_neg hc]
    obtain ⟨S, hS⟩ := sqrtBody_val x (x / 2 ^ 52) (((x / 2 ^ 52 + 0x3ff) % 2 ^ 64) / 2)
      (by rw [Nat.shiftRight_eq_div_pow]) (by omega) (by omega)
    exact ⟨_, S, by omega, by omega, hS⟩
  · have hc : sub64 (x / 2 ^ 52) 0x001 ≥ 0x7ff - 0x001 := by unfold sub64; omega
    rw [if_pos hc, if_neg (by omega), if_neg (by omega), if_neg (by omega)]
    obtain ⟨t1, t2, t3⟩ := toint_fields
    obtain ⟨L, hL, h1, h2, hm⟩ := fmulOf_subnormal 52 11 x toint hx0 (by omega) t1 t2
      (by rw [scaleOf_double]; exact t3) (by norm_num) (by norm_num)
      (by rw [scaleOf_double]; norm_num)
    have htoint : (0x4330000000000000 : Nat) = toint := rfl
    rw [htoint, hm, Nat.shiftRight_eq_div_pow]
    have hQ1 : 2 ^ 52 ≤ x * 2 ^ (52 - L) := by
      have := Nat.mul_le_mul_right (2 ^ (52 - L)) h1
      rw [← pow_add] at this
      have e : L + (52 - L) = 52 := by omega
      rw [e] at this; exact this
    have hQ2 : x * 2 ^ (52 - L) < 2 ^ 53 := by
      have := Nat.mul_lt_mul_of_pos_right h2 (two_pow_pos' (52 - L))
      rw [← pow_add] at this
      have e : L + 1 + (52 - L) = 53 := by omega
      rw [e] at this; exact this
    generalize x * 2 ^ (52 - L) = Q at *
    have htop : (L * 2 ^ 52 + Q) / 2 ^ 52 = L + 1 := by omega
    rw [htop]
    obtain ⟨S, hS⟩ := sqrtBody_val (L * 2 ^ 52 + Q) (sub64 (L + 1) 52) ((L + 972) / 2)
      (by rw [Nat.shiftRight_eq_div_pow]; unfold sub64; omega) (by omega) (by omega)
    exact ⟨_, S, by omega, by omega, hS⟩

/-- On a positive finite float `sqrtf` returns a positive normal number. -/
theorem sqrtf_pos (x : Nat) (hx0 : 0 < x) (hx : x < 0x7f800000) :
    ∃ F S, 27 ≤ F ∧ F < 255 ∧ sqrtf x = F * 2 ^ 23 + S % 2 ^ 23 := by
  have hmask : (0x7f800000 : Nat) = (2 ^ 31 - 1) ^^^ (2 ^ 23 - 1) := by decide
  have hey : ∀ ix : Nat, (((ix >>> 1) + (0x3f800000 >>> 1)) % 2 ^ 32) &&& 0x7f800000 =
      ((ix / 2 + 0x1fc00000) % 2 ^ 32 % 2 ^ 31 / 2 ^ 23) * 2 ^ 23 := by
    intro ix
    have e : (0x3f800000 >>> 1 : Nat) = 0x1fc00000 := by decide
    rw [hmask, and_high_mask _ 31 23 (by norm_num), Nat.shiftRight_eq_div_pow, e, pow_one]
  unfold sqrtf
  dsimp only
  by_cases hn : 2 ^ 23 ≤ x
  · have hc : ¬ (sub32 x 0x00800000 ≥ 0x7f800000 - 0x00800000) := by unfold sub32; omega
    rw [if_neg hc]
    obtain ⟨S, hS⟩ := sqrtfBody_val x _ (hey x) (by omega) (by omega)
    exact ⟨_, S, by omega, by omega, hS⟩
  · have hc : sub32 x 0x00800000 ≥ 0x7f800000 - 0x00800000 := by unfold sub32; omega
    rw [if_pos hc, if_neg (by omega), if_neg (by omega), if_neg (by omega)]
    obtain ⟨t1, t2, t3⟩ := tointf_fields
    obtain ⟨L, hL, h1, h2, hm⟩ := fmulOf_subnormal 23 8 x tointf hx0 (by omega) t1 t2
      (by rw [scaleOf_float]; exact t3) (by norm_num) (by norm_num)
      (by rw [scaleOf_float]; norm_num)
    have htoint : (0x4b000000 : Nat) = tointf := rfl
    have h23 : (23 <<< 23 : Nat) = 192937984 := by decide
    rw [htoint, hm, h23]
    have hQ1 : 2 ^ 23 ≤ x * 2 ^ (23 - L) := by
      have := Nat.mul_le_mul_right (2 ^ (23 - L)) h1
      rw [← pow_add] at this
      have e : L + (23 - L) = 23 := by omega
      rw [e] at this; exact this
    have hQ2 : x * 2 ^ (23 - L) < 2 ^ 24 := by
      have := Nat.mul_lt_mul_of_pos_right h2 (two_pow_pos' (23 - L))
      rw [← pow_add] at this
      have e : L + 1 + (23 - L) = 24 := by omega
      rw [e] at this; exact this
    generalize x * 2 ^ (23 - L) = Q at *
    obtain ⟨S, hS⟩ := sqrtfBody_val (sub32 (L * 2 ^ 23 + Q) 192937984) _ (hey _)
      (by unfold sub32; omega) (by unfold sub32; omega)
    exact ⟨_, S, by unfold sub32; omega, by unfold sub32; omega, hS⟩

theorem qnan_is_nan : isNaNOf 52 11 (qnanOf 52 11) ∧ isNaNOf 23 8 (qnanOf 23 8) :=
  ⟨by decide, by decide⟩

/-- In the model every NaN result is the quiet NaN `qnanOf`, so the
invalid-operand helper `(x - x) / (x - x)` returns it for every `x`: `x - x`
is `+0` for finite `x` and NaN otherwise. -/
theorem fsub_self (p w x : Nat) (hx : x < 2 ^ (p + w + 1)) :
    fsubOf p w x x = 0 ∨ fsubOf p w x x = qnanOf p w := by
  obtain ⟨n1, n2, n3, n4, n5, n6⟩ := fnegOf_fields p w x hx
  have hs := (parts_of_fields p w x hx).2
  unfold fsubOf faddOf
  by_cases h1 : isNaNOf p w x ∨ isNaNOf p w (fnegOf p w x)
  · right; rw [if_pos h1]
  · rw [if_neg h1]
    by_cases h2 : isInfOf p w x
    · right
      have h3 : isInfOf p w (fnegOf p w x) := by
        unfold isInfOf at *; rw [n2, n3]; exact h2
      rw [if_pos h2, if_pos ⟨h3, by rw [n6]; omega⟩]
    · left
      have h3 : ¬ isInfOf p w (fnegOf p w x) := by
        unfold isInfOf at *; rw [n2, n3]; exact h2
      rw [if_neg h2, if_neg h3]
      dsimp only
      rw [n5, if_pos (by omega), if_neg]
      rw [n6]; omega

theorem fdiv_invalid (p w z : Nat) (hz : z = 0 ∨ (z = qnanOf p w ∧ isNaNOf p w (qnanOf p w))) :
    fdivOf p w z z = qnanOf p w := by
  unfold fdivOf
  rcases hz with rfl | ⟨rfl, h⟩
  · by_cases h1 : isNaNOf p w 0 ∨ isNaNOf p w 0
    · rw [if_pos h1]
    · rw [if_neg h1, if_pos]
      right
      unfold isZeroOf; simp
  · rw [if_pos (Or.inl h)]

theorem math_invalid_eq (x : Nat) (hx : x < 2 ^ 64) : __math_invalid x = qnanOf 52 11 := by
  unfold __math_invalid
  rcases fsub_self 52 11 x hx with h | h
  · rw [h]; exact fdiv_invalid 52 11 0 (Or.inl rfl)
  · rw [h]; exact fdiv_invalid 52 11 _ (Or.inr ⟨rfl, qnan_is_nan.1⟩)

theorem math_invalidf_eq (x : Nat) (hx : x < 2 ^ 32) : __math_invalidf x = qnanOf 23 8 := by
  unfold __math_invalidf
  rcases fsub_self 23 8 x hx with h | h
  · rw [h]; exact fdiv_invalid 23 8 0 (Or.inl rfl)
  · rw [h]; exact fdiv_invalid 23 8 _ (Or.inr ⟨rfl, qnan_is_nan.2⟩)

theorem sqrt_special (x : Nat) (hx : x < 2 ^ 64) :
    ((x = 0 ∨ x = 0x8000000000000000 ∨ x = 0x7ff0000000000000) → sqrt x = x) ∧
    ((0x7ff0000000000000 < x ∧ x ≠ 0x8000000000000000) → sqrt x = __math_invalid x) := by
  constructor
  · rintro (rfl | rfl | rfl) <;> decide
  · rintro ⟨h1, h2⟩
    unfold sqrt
    dsimp only
    rw [Nat.shiftRight_eq_div_pow]
    have hc : sub64 (x / 2 ^ 52) 0x001 ≥ 0x7ff - 0x001 := by unfold sub64; omega
    rw [if_pos hc, if_neg (by omega), if_neg (by omega), if_pos h1]

theorem sqrtf_special (x : Nat) (hx : x < 2 ^ 32) :
    ((x = 0 ∨ x = 0x80000000 ∨ x = 0x7f800000) → sqrtf x = x) ∧
    ((0x7f800000 < x ∧ x ≠ 0x80000000) → sqrtf x = __math_invalidf x) := by
  constructor
  · rintro (rfl | rfl | rfl) <;> decide
  · rintro ⟨h1, h2⟩
    unfold sqrtf
    dsimp only
    have hc : sub32 x 0x00800000 ≥ 0x7f800000 - 0x00800000 := by unfold sub32; omega
    rw [if_pos hc, if_neg (by omega), if_neg (by omega), if_pos h1]

theorem nan64_iff (x : Nat) (hx : x < 2 ^ 64) :
    isNaNOf 52 11 x ↔ (0x7ff0000000000000 < x ∧ x < 0x8000000000000000) ∨ 0xfff0000000000000 < x := by
  unfold isNaNOf expOf manOf; omega

theorem nan32_iff (x : Nat) (hx : x < 2 ^ 32) :
    isNaNOf 23 8 x ↔ (0x7f800000 < x ∧ x < 0x80000000) ∨ 0xff800000 < x := by
  unfold isNaNOf expOf manOf; omega

/-- C2: `sqrt` and `sqrtf` classify every input bit pattern.  `+0`, `-0` and
`+Inf` are returned unchanged; a NaN, `-Inf` or any non-zero value with the
sign bit set gives the NaN of the invalid-operand helper; every other input
(positive finite, normal or subnormal) gives a finite number with the sign
bit clear.  Hence the result is NaN exactly when the input is NaN or negative
and non-zero; `sqrt (-1.0)` is NaN, `sqrt (-0.0) = -0.0`, `sqrt (+Inf) = +Inf`. -/
theorem sqrt_classification (x z : Nat) (hx : x < 2 ^ 64) (hz : z < 2 ^ 32) :
    (((x = 0 ∨ x = 0x8000000000000000 ∨ x = 0x7ff0000000000000) → sqrt x = x) ∧
      ((isNaNOf 52 11 x ∨ x = 0xfff0000000000000 ∨
          (signbit x = 1 ∧ x ≠ 0x8000000000000000)) →
        sqrt x = __math_invalid x ∧ isNaNOf 52 11 (sqrt x)) ∧
      ((0 < x ∧ x < 0x7ff0000000000000) → isFinite64 (sqrt x) ∧ signbit (sqrt x) = 0) ∧
      (isNaNOf 52 11 (sqrt x) ↔
        (isNaNOf 52 11 x ∨ (signbit x = 1 ∧ x ≠ 0x8000000000000000)))) ∧
    (((z = 0 ∨ z = 0x80000000 ∨ z = 0x7f800000) → sqrtf z = z) ∧
      ((isNaNOf 23 8 z ∨ z = 0xff800000 ∨ (z >>> 31 = 1 ∧ z ≠ 0x80000000)) →
        sqrtf z = __math_invalidf z ∧ isNaNOf 23 8 (sqrtf z)) ∧
      ((0 < z ∧ z < 0x7f800000) → isFinite32 (sqrtf z) ∧ sqrtf z >>> 31 = 0) ∧
      (isNaNOf 23 8 (sqrtf z) ↔ (isNaNOf 23 8 z ∨ (z >>> 31 = 1 ∧ z ≠ 0x80000000)))) ∧
    isNaNOf 52 11 (sqrt 0xbff0000000000000) ∧
    sqrt 0x8000000000000000 = 0x8000000000000000 ∧
    sqrt 0x7ff0000000000000 = 0x7ff0000000000000 := by
  refine ⟨?_, ?_, by decide, by decide, by decide⟩
  · obtain ⟨s1, s2⟩ := sqrt_special x hx
    have hn := nan64_iff x hx
    have hsb : signbit x = x / 2 ^ 63 := by unfold signbit; rw [Nat.shiftRight_eq_div_pow]
    have hinv : (isNaNOf 52 11 x ∨ x = 0xfff0000000000000 ∨
        (signbit x = 1 ∧ x ≠ 0x8000000000000000)) →
        sqrt x = __math_invalid x ∧ isNaNOf 52 11 (sqrt x) := by
      intro h
      have h1 : 0x7ff0000000000000 < x ∧ x ≠ 0x8000000000000000 := by
        rw [hn, hsb] at h; omega
      have := s2 h1
      rw [this, math_invalid_eq x hx]
      exact ⟨rfl, qnan_is_nan.1⟩
    have hpos : (0 < x ∧ x < 0x7ff0000000000000) →
        isFinite64 (sqrt x) ∧ signbit (sqrt x) = 0 := by
      rintro ⟨h0, h1⟩
      obtain ⟨F, S, f1, f2, hS⟩ := sqrt_pos x h0 h1
      have hSl : S % 2 ^ 52 < 2 ^ 52 := Nat.mod_lt _ (by norm_num)
      obtain ⟨g1, g2, g3⟩ := fields_of_parts 52 11 0 F (S % 2 ^ 52) hSl (by omega) (by norm_num)
      rw [Nat.zero_mul, Nat.zero_add] at g1
      rw [hS]
      refine ⟨?_, ?_⟩
      · unfold isFinite64 isFiniteOf; rw [g1]; omega
      · unfold signbit; rw [Nat.shiftRight_eq_div_pow]; omega
    refine ⟨s1, hinv, hpos, ?_⟩
    constructor
    · intro hnan
      by_contra hcon
      rw [hn, hsb] at hcon
      by_cases hc1 : x = 0 ∨ x = 0x8000000000000000 ∨ x = 0x7ff0000000000000
      · rw [s1 hc1] at hnan
        rw [hn] at hnan; omega
      · have hp := hpos ⟨by omega, by omega⟩
        exact hp.1 hnan.1
    · intro h
      exact (hinv (by rcases h with h | h
                      · exact Or.inl h
                      · exact Or.inr (Or.inr h))).2
  · obtain ⟨s1, s2⟩ := sqrtf_special z hz
    have hn := nan32_iff z hz
    have hinv : (isNaNOf 23 8 z ∨ z = 0xff800000 ∨ (z >>> 31 = 1 ∧ z ≠ 0x80000000)) →
        sqrtf z = __math_invalidf z ∧ isNaNOf 23 8 (sqrtf z) := by
      intro h
      have h1 : 0x7f800000 < z ∧ z ≠ 0x80000000 := by
        rw [hn, Nat.shiftRight_eq_div_pow] at h; omega
      have := s2 h1
      rw [this, math_invalidf_eq z hz]
      exact ⟨rfl, qnan_is_nan.2⟩
    have hpos : (0 < z ∧ z < 0x7f800000) → isFinite32 (sqrtf z) ∧ sqrtf z >>> 31 = 0 := by
      rintro ⟨h0, h1⟩
      obtain ⟨F, S, f1, f2, hS⟩ := sqrtf_pos z h0 h1
      have hSl : S % 2 ^ 23 < 2 ^ 23 := Nat.mod_lt _ (by norm_num)
      obtain ⟨g1, g2, g3⟩ := fields_of_parts 23 8 0 F (S % 2 ^ 23) hSl (by omega) (by norm_num)
      rw [Nat.zero_mul, Nat.zero_add] at g1
      rw [hS]
      refine ⟨?_, ?_⟩
      · unfold isFinite32 isFiniteOf; rw [g1]; omega
      · rw [Nat.shiftRight_eq_div_pow]; omega
    refine ⟨s1, hinv, hpos, ?_⟩
    constructor
    · intro hnan
      by_contra hcon
      rw [hn, Nat.shiftRight_eq_div_pow] at hcon
      by_cases hc1 : z = 0 ∨ z = 0x80000000 ∨ z = 0x7f800000
      · rw [s1 hc1] at hnan
        rw [hn] at hnan; omega
      · have hp := hpos ⟨by omega, by omega⟩
        exact hp.1 hnan.1
    · intro h
      exact (hinv (by rcases h with h | h
                      · exact Or.inl h
                      · exact Or.inr (Or.inr h))).2

/-- Witness for C2 at the double `-1.0` and the float `+Inf`. -/
theorem sqrt_classification_witness :
    isNaNOf 52 11 (sqrt 0xbff0000000000000) ∧ sqrtf 0x7f800000 = 0x7f800000 :=
  ⟨((sqrt_classification 0xbff0000000000000 0x7f800000 (by decide) (by decide)).1.2.1
      (Or.inr (Or.inr ⟨by decide, by decide⟩))).2,
   (sqrt_classification 0xbff0000000000000 0x7f800000 (by decide) (by decide)).2.1.1
      (Or.inr (Or.inr rfl))⟩

/-! ## Stages of the square root -/

theorem sqrtBody_parts (ix top : Nat) :
    sqrtBody ix top = faddOf 52 11 (sqrtParts ix top).1 (sqrtParts ix top).2 := rfl

theorem sqrtfBody_parts (ix : Nat) :
    sqrtfBody ix = faddOf 23 8 (sqrtfParts ix).1 (sqrtfParts ix).2 := rfl

theorem sqrt_main (x ix top : Nat) (h : sqrtNorm x = some (ix, top)) :
    sqrt x = sqrtBody ix top := by
  unfold sqrtNorm at h
  unfold sqrt
  dsimp only at h ⊢
  by_cases h1 : sub64 (x >>> 52) 0x001 ≥ 0x7ff - 0x001
  · rw [if_pos h1] at h ⊢
    by_cases h2 : (x * 2) % 2 ^ 64 = 0
    · rw [if_pos h2] at h; exact absurd h (by simp)
    · rw [if_neg h2] at h ⊢
      by_cases h3 : x = 0x7ff0000000000000
      · rw [if_pos h3] at h; exact absurd h (by simp)
      · rw [if_neg h3] at h ⊢
        by_cases h4 : x > 0x7ff0000000000000
        · rw [if_pos h4] at h; exact absurd h (by simp)
        · rw [if_neg h4] at h ⊢
          obtain ⟨ha, hb⟩ := Prod.mk.inj (Option.some.inj h)
          exact congr (congrArg sqrtBody ha) hb
  · rw [if_neg h1] at h ⊢
    obtain ⟨ha, hb⟩ := Prod.mk.inj (Option.some.inj h)
    exact congr (congrArg sqrtBody ha) hb

theorem sqrtf_main (x ix : Nat) (h : sqrtfNorm x = some ix) :
    sqrtf x = sqrtfBody ix := by
  unfold sqrtfNorm at h
  unfold sqrtf
  dsimp only at h ⊢
  by_cases h1 : sub32 x 0x00800000 ≥ 0x7f800000 - 0x00800000
  · rw [if_pos h1] at h ⊢
    by_cases h2 : (x * 2) % 2 ^ 32 = 0
    · rw [if_pos h2] at h; exact absurd h (by simp)
    · rw [if_neg h2] at h ⊢
      by_cases h3 : x = 0x7f800000
      · rw [if_pos h3] at h; exact absurd h (by simp)
      · rw [if_neg h3] at h ⊢
        by_cases h4 : x > 0x7f800000
        · rw [if_pos h4] at h; exact absurd h (by simp)
        · rw [if_neg h4] at h ⊢
          exact congrArg sqrtfBody (Option.some.inj h)
  · rw [if_neg h1] at h ⊢
    exact congrArg sqrtfBody (Option.some.inj h)

theorem sqrt_none (x : Nat) (h : sqrtNorm x = none) :
    sqrt x = if (x * 2) % 2 ^ 64 = 0 then x
      else if x = 0x7ff0000000000000 then x else __math_invalid x := by
  unfold sqrtNorm at h
  unfold sqrt
  dsimp only at h ⊢
  by_cases h1 : sub64 (x >>> 52) 0x001 ≥ 0x7ff - 0x001
  · rw [if_pos h1] at h ⊢
    by_cases h2 : (x * 2) % 2 ^ 64 = 0
    · rw [if_pos h2, if_pos h2]
    · rw [if_neg h2] at h ⊢
      rw [if_neg h2]
      by_cases h3 : x = 0x7ff0000000000000
      · rw [if_pos h3, if_pos h3]
      · rw [if_neg h3] at h ⊢
        rw [if_neg h3]
        by_cases h4 : x > 0x7ff0000000000000
        · rw [if_pos h4]
        · rw [if_neg h4] at h; exact absurd h (by simp)
  · rw [if_neg h1] at h; exact absurd h (by simp)

theorem sqrtf_none (x : Nat) (h : sqrtfNorm x = none) :
    sqrtf x = if (x * 2) % 2 ^ 32 = 0 then x
      else if x = 0x7f800000 then x else __math_invalidf x := by
  unfold sqrtfNorm at h
  unfold sqrtf
  dsimp only at h ⊢
  by_cases h1 : sub32 x 0x00800000 ≥ 0x7f800000 - 0x00800000
  · rw [if_pos h1] at h ⊢
    by_cases h2 : (x * 2) % 2 ^ 32 = 0
    · rw [if_pos h2, if_pos h2]
    · rw [if_neg h2] at h ⊢
      rw [if_neg h2]
      by_cases h3 : x = 0x7f800000
      · rw [if_pos h3, if_pos h3]
      · rw [if_neg h3] at h ⊢
        rw [if_neg h3]
        by_cases h4 : x > 0x7f800000
        · rw [if_pos h4]
        · rw [if_neg h4] at h; exact absurd h (by simp)
  · rw [if_neg h1] at h; exact absurd h (by simp)

/-! ## Sign bit of `fabs` -/

theorem fnegOf_eq_xor (p w a : Nat) (ha : a < 2 ^ (p + w + 1)) :
    fnegOf p w a = a ^^^ 2 ^ (p + w) := by
  have hP := two_pow_pos' (p + w)
  have hlow : a % 2 ^ (p + w) < 2 ^ (p + w) := Nat.mod_lt _ hP
  have hdm := Nat.div_add_mod a (2 ^ (p + w))
  have hq : a / 2 ^ (p + w) < 2 := by
    rw [Nat.div_lt_iff_lt_mul hP, Nat.mul_comm, ← pow_succ]; exact ha
  have hbit : (a % 2 ^ (p + w)).testBit (p + w) = false := Nat.testBit_lt_two_pow hlow
  have hor := or_disjoint 1 (a % 2 ^ (p + w)) (p + w) hlow
  rw [Nat.one_mul] at hor
  unfold fnegOf sgnOf
  have hq2 : a / 2 ^ (p + w) = 0 ∨ a / 2 ^ (p + w) = 1 := by
    generalize a / 2 ^ (p + w) = q at hq; omega
  rcases hq2 with h | h
  · rw [h, if_pos rfl]
    rw [h, Nat.mul_zero, Nat.zero_add] at hdm
    rw [← hdm, Nat.add_comm, ← hor]
    apply Nat.eq_of_testBit_eq
    intro i
    rw [Nat.testBit_or, Nat.testBit_xor, Nat.testBit_two_pow]
    by_cases hi : p + w = i
    · subst hi; simp [hbit]
    · simp [hi]
  · rw [h, if_neg (by norm_num)]
    rw [h, Nat.mul_one] at hdm
    rw [← hdm, Nat.add_sub_cancel_left, ← hor]
    apply Nat.eq_of_testBit_eq
    intro i
    rw [Nat.testBit_xor, Nat.testBit_or, Nat.testBit_two_pow]
    by_cases hi : p + w = i
    · subst hi; simp [hbit]
    · simp [hi]

theorem val_nonneg_of_sgn (p w u : Nat) (h : sgnOf p w u = 0) : 0 ≤ valOf p w u := by
  unfold valOf
  rw [svalOf_pos p w u h]
  positivity

/-- C11: `fabs` and `fabsf` clear the sign bit and keep every other bit of
the pattern, whatever the pattern encodes (finite, infinite or NaN).  Hence
the sign of the result is clear, its value is non-negative when it is finite,
and a pattern and its negation, which differ in the sign bit only, have the
same `fabs`. -/
theorem fabs_clears_sign_bit (x z : Nat) (hx : x < 2 ^ 64) (hz : z < 2 ^ 32) :
    ((∀ i, i < 63 → (fabs x).testBit i = x.testBit i) ∧ (fabs x).testBit 63 = false ∧
      fabs x < 2 ^ 64) ∧
    signbit (fabs x) = 0 ∧
    (isFinite64 x → isFinite64 (fabs x) ∧ 0 ≤ val64 (fabs x)) ∧
    (fnegOf 52 11 x = x ^^^ 2 ^ 63 ∧ fabs (fnegOf 52 11 x) = fabs x) ∧
    ((∀ i, i < 31 → (fabsf z).testBit i = z.testBit i) ∧ (fabsf z).testBit 31 = false ∧
      fabsf z < 2 ^ 32) ∧
    sgnOf 23 8 (fabsf z) = 0 ∧
    (isFinite32 z → isFinite32 (fabsf z) ∧ 0 ≤ val32 (fabsf z)) ∧
    (fnegOf 23 8 z = z ^^^ 2 ^ 31 ∧ fabsf (fnegOf 23 8 z) = fabsf z) := by
  have hlt : x % 2 ^ 63 < 2 ^ 63 := Nat.mod_lt _ (by norm_num)
  have hlt2 : z % 2 ^ 31 < 2 ^ 31 := Nat.mod_lt _ (by norm_num)
  have hs1 : sgnOf 52 11 (x % 2 ^ 63) = 0 := by
    unfold sgnOf; rw [Nat.div_eq_of_lt hlt]
  have hs2 : sgnOf 23 8 (z % 2 ^ 31) = 0 := by
    unfold sgnOf; rw [Nat.div_eq_of_lt hlt2]
  obtain ⟨a1, _, _⟩ := low_fields 52 11 x
  obtain ⟨b1, _, _⟩ := low_fields 23 8 z
  refine ⟨⟨?_, ?_, ?_⟩, ?_, ?_, ⟨fnegOf_eq_xor 52 11 x hx, ?_⟩, ⟨?_, ?_, ?_⟩, ?_, ?_,
    ⟨fnegOf_eq_xor 23 8 z hz, ?_⟩⟩
  · intro i hi
    rw [fabs_eq, Nat.testBit_mod_two_pow]; simp [hi]
  · rw [fabs_eq, Nat.testBit_mod_two_pow]; simp
  · rw [fabs_eq]; omega
  · unfold signbit; rw [fabs_eq, Nat.shiftRight_eq_div_pow, Nat.div_eq_of_lt hlt]
  · intro hf
    rw [fabs_eq]
    refine ⟨?_, val_nonneg_of_sgn 52 11 _ hs1⟩
    unfold isFinite64 isFiniteOf at *
    rw [a1]; exact hf
  · rw [fabs_eq, fabs_eq]
    unfold fnegOf sgnOf
    split <;> omega
  · intro i hi
    rw [fabsf_eq, Nat.testBit_mod_two_pow]; simp [hi]
  · rw [fabsf_eq, Nat.testBit_mod_two_pow]; simp
  · rw [fabsf_eq]; omega
  · rw [fabsf_eq]; exact hs2
  · intro hf
    rw [fabsf_eq]
    refine ⟨?_, val_nonneg_of_sgn 23 8 _ hs2⟩
    unfold isFinite32 isFiniteOf at *
    rw [b1]; exact hf
  · rw [fabsf_eq, fabsf_eq]
    unfold fnegOf sgnOf
    split <;> omega

/-- Witness for C11 at the double `-2.5` and the float NaN `0xffc00001`. -/
theorem fabs_clears_sign_bit_witness :
    fabs 0xc004000000000000 = 0x4004000000000000 ∧ fabsf 0xffc00001 = 0x7fc00001 ∧
    signbit (fabs 0xc004000000000000) = 0 ∧
    fabs (fnegOf 52 11 0xc004000000000000) = fabs 0xc004000000000000 :=
  ⟨by decide, by decide,
    (fabs_clears_sign_bit 0xc004000000000000 0xffc00001 (by decide) (by decide)).2.1,
    (fabs_clears_sign_bit 0xc004000000000000 0xffc00001 (by decide) (by decide)).2.2.2.1.2⟩

/-! ## Concrete square roots -/

/-- C12: `sqrt(4.0)` is exactly `2.0`.  The input takes the main path, the
final rounding assembles `2.0`, and the perturbation is the zero of the exact
case (`d2 == 0`, here with the sign bit set: `-0.0`).  `sqrtf(2.0f)` is the
conversion to `float`, round to nearest even, of `sqrt(2.0)`: it is the pattern
`0x3fb504f3`, whose distance from `sqrt(2.0)` is below half a unit in the last
place of a `float` in `[1, 2)`, which is `2 ^ 1050` units of `2 ^ (-1074)`. -/
theorem sqrt_four_sqrtf_two :
    sqrt 0x4010000000000000 = 0x4000000000000000 ∧
    sqrtNorm 0x4010000000000000 = some (0x4010000000000000, 0x401) ∧
    sqrtParts 0x4010000000000000 0x401 = (0x4000000000000000, 0x8000000000000000) ∧
    isZeroOf 52 11 0x8000000000000000 ∧
    sqrtf 0x40000000 = doubleToFloat (sqrt 0x4000000000000000) ∧
    sqrtf 0x40000000 = 0x3fb504f3 ∧
    (magOf 52 11 (sqrt 0x4000000000000000) - (magOf 23 8 (sqrtf 0x40000000) <<< 925)) +
      ((magOf 23 8 (sqrtf 0x40000000) <<< 925) - magOf 52 11 (sqrt 0x4000000000000000))
        < 1 <<< 1050 := by
  refine ⟨by decide, by decide, by decide, by decide, by decide, by decide, by decide⟩

theorem rsqrt_tab_entries : ∀ i, i < 128 →
    ∃ v, __rsqrt_tab.get? i = some v ∧ __rsqrt_tab.getD i 0 = v ∧ 0x8040 ≤ v ∧ v ≤ 0xff02 := by
  decide

/-- C13: the index with which `sqrt` and `sqrtf` read `__rsqrt_tab` is below
128, the length of the table, whatever the value of `ix` is on reaching the
lookup; the lookup therefore yields an entry of the table, and the initial
estimate is this entry shifted left by 16.  This covers a renormalised
subnormal such as the smallest one, whose `top` has wrapped. -/
theorem rsqrt_index_in_range (ix : Nat) :
    __rsqrt_tab.length = 128 ∧
    (sqrtIdx ix < 128 ∧
      ∃ v, __rsqrt_tab.get? (sqrtIdx ix) = some v ∧ rsqrtEst (sqrtIdx ix) = v * 2 ^ 16) ∧
    (sqrtfIdx ix < 128 ∧
      ∃ v, __rsqrt_tab.get? (sqrtfIdx ix) = some v ∧ rsqrtEst (sqrtfIdx ix) = v * 2 ^ 16) ∧
    sqrtNorm 1 = some (0x0010000000000000, 2 ^ 64 - 51) ∧
    sqrtfNorm 1 = some (2 ^ 32 - 22 * 2 ^ 23) := by
  have key : ∀ i, i < 128 →
      ∃ v, __rsqrt_tab.get? i = some v ∧ rsqrtEst i = v * 2 ^ 16 := by
    intro i hi
    obtain ⟨v, h1, h2, _, h4⟩ := rsqrt_tab_entries i hi
    refine ⟨v, h1, ?_⟩
    unfold rsqrtEst
    rw [h2, Nat.shiftLeft_eq]
    omega
  have h1 : sqrtIdx ix < 128 := Nat.mod_lt _ (by norm_num)
  have h2 : sqrtfIdx ix < 128 := Nat.mod_lt _ (by norm_num)
  exact ⟨rfl, ⟨h1, key _ h1⟩, ⟨h2, key _ h2⟩, by decide, by decide⟩

/-! ## Accuracy of the table -/

theorem rsqrt_tab_bounds : ∀ i, i < 128 →
    255 ^ 2 * 2 ^ 32 * (if 64 ≤ i then 64 else 32) <
        (__rsqrt_tab.getD i 0) ^ 2 * (if 64 ≤ i then i else 64 + i) * 256 ^ 2 ∧
      (__rsqrt_tab.getD i 0) ^ 2 * (if 64 ≤ i then i + 1 else 65 + i) * 256 ^ 2 ≤
        257 ^ 2 * 2 ^ 32 * (if 64 ≤ i then 64 else 32) := by
  decide

/-- An estimate `r` with `(1 - ε)² < r² m < (1 + ε)²` has relative error below
`ε` with respect to `1 / sqrt m`. -/
theorem rel_err_of_sq (r m ε : ℝ) (hr : 0 ≤ r) (hε : ε ≤ 1) (hε0 : 0 ≤ ε)
    (h1 : (1 - ε) ^ 2 < r ^ 2 * m) (h2 : r ^ 2 * m < (1 + ε) ^ 2) :
    |r * Real.sqrt m - 1| < ε := by
  have e : r * Real.sqrt m = Real.sqrt (r ^ 2 * m) := by
    rw [Real.sqrt_mul (sq_nonneg r), Real.sqrt_sq hr]
  rw [e, abs_lt]
  constructor
  · have := (Real.lt_sqrt (by linarith : (0 : ℝ) ≤ 1 - ε)).2 h1
    linarith
  · have := (Real.sqrt_lt' (by linarith : (0 : ℝ) < 1 + ε)).2 h2
    linarith

/-- C14: the initial estimate `r = __rsqrt_tab[i] / 2 ^ 16` has relative error
below `2 ^ (-8)` on the whole interval of reduced arguments `m` in `[1, 4)` that
select the index `i`: `[1 + (i - 64) / 64, 1 + (i - 63) / 64)` for `i ≥ 64` and
`[2 + i / 32, 2 + (i + 1) / 32)` for `i < 64`. -/
theorem rsqrt_tab_rel_error (i : Nat) (hi : i < 128) (m : ℝ)
    (hm : if 64 ≤ i then 1 + ((i : ℝ) - 64) / 64 ≤ m ∧ m < 1 + ((i : ℝ) - 63) / 64
      else 2 + (i : ℝ) / 32 ≤ m ∧ m < 2 + ((i : ℝ) + 1) / 32) :
    |((__rsqrt_tab.getD i 0 : Nat) : ℝ) / 2 ^ 16 * Real.sqrt m - 1| < 1 / 2 ^ 8 := by
  obtain ⟨b1, b2⟩ := rsqrt_tab_bounds i hi
  generalize __rsqrt_tab.getD i 0 = T at *
  have hT : (0 : ℝ) ≤ (T : ℝ) := Nat.cast_nonneg T
  have hT2 : (0 : ℝ) ≤ (T : ℝ) ^ 2 := sq_nonneg _
  have hT0 : 0 < (T : ℝ) ^ 2 := by
    have : 0 < T := by
      rcases Nat.eq_zero_or_pos T with h0 | h0
      · subst h0; simp at b1
      · exact h0
    positivity
  have e : ((T : ℝ) / 2 ^ 16) ^ 2 * m = (T : ℝ) ^ 2 * m / 2 ^ 32 := by ring
  by_cases h : 64 ≤ i
  · simp only [if_pos h] at b1 b2 hm
    have c1 : ((255 ^ 2 * 2 ^ 32 * 64 : Nat) : ℝ) < ((T ^ 2 * i * 256 ^ 2 : Nat) : ℝ) := by
      exact_mod_cast b1
    have c2 : ((T ^ 2 * (i + 1) * 256 ^ 2 : Nat) : ℝ) ≤ ((257 ^ 2 * 2 ^ 32 * 64 : Nat) : ℝ) := by
      exact_mod_cast b2
    push_cast at c1 c2
    have d1 : (T : ℝ) ^ 2 * ((i : ℝ) / 64) ≤ (T : ℝ) ^ 2 * m :=
      mul_le_mul_of_nonneg_left (by linarith [hm.1]) hT2
    have d2 : (T : ℝ) ^ 2 * m < (T : ℝ) ^ 2 * (((i : ℝ) + 1) / 64) :=
      mul_lt_mul_of_pos_left (by linarith [hm.2]) hT0
    apply rel_err_of_sq _ _ _ (by positivity) (by norm_num) (by norm_num)
    · rw [e, lt_div_iff₀ (by positivity)]
      linarith
    · rw [e, div_lt_iff₀ (by positivity)]
      linarith
  · simp only [if_neg h] at b1 b2 hm
    have c1 : ((255 ^ 2 * 2 ^ 32 * 32 : Nat) : ℝ) < ((T ^ 2 * (64 + i) * 256 ^ 2 : Nat) : ℝ) := by
      exact_mod_cast b1
    have c2 : ((T ^ 2 * (65 + i) * 256 ^ 2 : Nat) : ℝ) ≤ ((257 ^ 2 * 2 ^ 32 * 32 : Nat) : ℝ) := by
      exact_mod_cast b2
    push_cast at c1 c2
    have d1 : (T : ℝ) ^ 2 * ((64 + (i : ℝ)) / 32) ≤ (T : ℝ) ^ 2 * m :=
      mul_le_mul_of_nonneg_left (by linarith [hm.1]) hT2
    have d2 : (T : ℝ) ^ 2 * m < (T : ℝ) ^ 2 * ((65 + (i : ℝ)) / 32) :=
      mul_lt_mul_of_pos_left (by linarith [hm.2]) hT0
    apply rel_err_of_sq _ _ _ (by positivity) (by norm_num) (by norm_num)
    · rw [e, lt_div_iff₀ (by positivity)]
      linarith
    · rw [e, div_lt_iff₀ (by positivity)]
      linarith

/-- Witness for C14 at the index 64 and `m = 1`. -/
theorem rsqrt_tab_rel_error_witness :
    |((__rsqrt_tab.getD 64 0 : Nat) : ℝ) / 2 ^ 16 * Real.sqrt 1 - 1| < 1 / 2 ^ 8 :=
  rsqrt_tab_rel_error 64 (by decide) 1 (by norm_num)

/-! ## Special-case block and argument reduction -/

theorem or_top_bit (r k : Nat) (hr : r < 2 ^ (k + 1)) :
    r ||| 2 ^ k = 2 ^ k + r % 2 ^ k := by
  have hP := two_pow_pos' k
  have hlow : r % 2 ^ k < 2 ^ k := Nat.mod_lt _ hP
  have hdm := Nat.div_add_mod r (2 ^ k)
  have hq : r / 2 ^ k < 2 := by
    rw [Nat.div_lt_iff_lt_mul hP, Nat.mul_comm, ← pow_succ]; exact hr
  have hor := or_disjoint 1 (r % 2 ^ k) k hlow
  rw [Nat.one_mul] at hor
  have hq2 : r / 2 ^ k = 0 ∨ r / 2 ^ k = 1 := by
    generalize r / 2 ^ k = q at hq; omega
  rcases hq2 with h | h
  · rw [h, Nat.mul_zero, Nat.zero_add] at hdm
    rw [hdm] at hor ⊢
    rw [Nat.lor_comm, hor]
  · rw [h, Nat.mul_one] at hdm
    rw [← hor]
    nth_rewrite 1 [← hdm]
    rw [← hor, Nat.lor_comm, ← Nat.lor_assoc, Nat.or_self]

theorem sqrtM_eq (E M top : Nat) (hM : M < 2 ^ 52) :
    sqrtM (E * 2 ^ 52 + M) top = (2 ^ 52 + M) * 2 ^ (11 - top % 2) := by
  unfold sqrtM
  dsimp only
  have e1 : ((E * 2 ^ 52 + M) <<< 11) % 2 ^ 64 = (E % 2) * 2 ^ 63 + M * 2 ^ 11 := by
    rw [Nat.shiftLeft_eq]; omega
  have e2 : (0x8000000000000000 : Nat) = 2 ^ 63 := by norm_num
  have e3 : top &&& 1 = top % 2 := Nat.and_one_is_mod top
  rw [e1, e2, or_top_bit _ 63 (by omega), e3]
  have e4 : ((E % 2) * 2 ^ 63 + M * 2 ^ 11) % 2 ^ 63 = M * 2 ^ 11 := by omega
  rw [e4]
  have h2 : top % 2 = 0 ∨ top % 2 = 1 := by omega
  rcases h2 with h | h
  · rw [h, if_neg (by norm_num)]; norm_num; omega
  · rw [h, if_pos (by norm_num), Nat.shiftRight_eq_div_pow]; norm_num; omega

theorem sqrtIdx_eq (E M : Nat) (hM : M < 2 ^ 52) :
    sqrtIdx (E * 2 ^ 52 + M) = (E % 2) * 64 + (2 ^ 52 + M) / 2 ^ 46 % 64 := by
  unfold sqrtIdx
  rw [Nat.shiftRight_eq_div_pow]
  omega

/-- The special-case block of `sqrt` on a positive finite input: the input is
`Q * 2 ^ (e - 52)` units of `2 ^ (-1074)` with a 53-bit `Q`, and the block
leaves `top ≡ e - 51` modulo `2 ^ 64` and the significand bits of `Q` in
`ix`. -/
theorem sqrtNorm_spec (x : Nat) (hx0 : 0 < x) (hx : x < 0x7ff0000000000000) :
    ∃ e Q ix top, sqrtNorm x = some (ix, top) ∧ e ≤ 2097 ∧ 2 ^ 52 ≤ Q ∧ Q < 2 ^ 53 ∧
      magOf 52 11 x * 2 ^ 52 = Q * 2 ^ e ∧
      sqrtEven top = (e + 1) % 2 ∧
      sqrtTop top = (e + 972) / 2 ∧
      sqrtM ix top = Q * 2 ^ (10 + e % 2) ∧
      sqrtIdx ix = ((e + 1) % 2) * 64 + Q / 2 ^ 46 % 64 := by
  have e3 : ∀ top : Nat, top &&& 1 = top % 2 := Nat.and_one_is_mod
  unfold sqrtNorm
  dsimp only
  rw [Nat.shiftRight_eq_div_pow]
  by_cases hn : 2 ^ 52 ≤ x
  · have hc : ¬ (sub64 (x / 2 ^ 52) 0x001 ≥ 0x7ff - 0x001) := by unfold sub64; omega
    rw [if_neg hc]
    have hdm : x = (x / 2 ^ 52) * 2 ^ 52 + x % 2 ^ 52 := by omega
    have hM : x % 2 ^ 52 < 2 ^ 52 := Nat.mod_lt _ (by norm_num)
    have hE1 : 1 ≤ x / 2 ^ 52 := by omega
    have hE2 : x / 2 ^ 52 < 2047 := by omega
    have hexp : expOf 52 11 x = x / 2 ^ 52 := by unfold expOf; omega
    refine ⟨x / 2 ^ 52 + 51, 2 ^ 52 + x % 2 ^ 52, x, x / 2 ^ 52, rfl, by omega, by omega,
      by omega, ?_, ?_, ?_, ?_, ?_⟩
    · rw [magOf_def, hexp, if_neg (by omega)]
      unfold manOf
      have : x / 2 ^ 52 + 51 = (x / 2 ^ 52 - 1) + 52 := by omega
      rw [this, pow_add]; ring
    · unfold sqrtEven; rw [e3]; omega
    · unfold sqrtTop; rw [Nat.shiftRight_eq_div_pow]; omega
    · nth_rewrite 1 [hdm]
      rw [sqrtM_eq _ _ _ hM]
      have h2 : x / 2 ^ 52 % 2 = 0 ∨ x / 2 ^ 52 % 2 = 1 := by omega
      rcases h2 with h | h
      · have : (x / 2 ^ 52 + 51) % 2 = 1 := by omega
        rw [h, this]
      · have : (x / 2 ^ 52 + 51) % 2 = 0 := by omega
        rw [h, this]
    · nth_rewrite 1 [hdm]
      rw [sqrtIdx_eq _ _ hM]
      have : (x / 2 ^ 52 + 51 + 1) % 2 = x / 2 ^ 52 % 2 := by omega
      rw [this]
  · have hc : sub64 (x / 2 ^ 52) 0x001 ≥ 0x7ff - 0x001 := by unfold sub64; omega
    rw [if_pos hc, if_neg (by omega), if_neg (by omega), if_neg (by omega)]
    obtain ⟨t1, t2, t3⟩ := toint_fields
    obtain ⟨L, hL, h1, h2, hm⟩ := fmulOf_subnormal 52 11 x toint hx0 (by omega) t1 t2
      (by rw [scaleOf_double]; exact t3) (by norm_num) (by norm_num)
      (by rw [scaleOf_double]; norm_num)
    have htoint : (0x4330000000000000 : Nat) = toint := rfl
    rw [htoint, hm, Nat.shiftRight_eq_div_pow]
    have hQ1 : 2 ^ 52 ≤ x * 2 ^ (52 - L) := by
      have := Nat.mul_le_mul_right (2 ^ (52 - L)) h1
      rw [← pow_add] at this
      have e : L + (52 - L) = 52 := by omega
      rw [e] at this; exact this
    have hQ2 : x * 2 ^ (52 - L) < 2 ^ 53 := by
      have := Nat.mul_lt_mul_of_pos_right h2 (two_pow_pos' (52 - L))
      rw [← pow_add] at this
      have e : L + 1 + (52 - L) = 53 := by omega
      rw [e] at this; exact this
    have hmag : magOf 52 11 x * 2 ^ 52 = x * 2 ^ (52 - L) * 2 ^ L := by
      rw [(magOf_small 52 11 x (by omega) (by norm_num)).1, Nat.mul_assoc, ← pow_add]
      have e : 52 - L + L = 52 := by omega
      rw [e]
    generalize x * 2 ^ (52 - L) = Q at *
    have htop : (L * 2 ^ 52 + Q) / 2 ^ 52 = L + 1 := by omega
    have hix : L * 2 ^ 52 + Q = (L + 1) * 2 ^ 52 + (Q - 2 ^ 52) := by omega
    have hM : Q - 2 ^ 52 < 2 ^ 52 := by omega
    have hQ : 2 ^ 52 + (Q - 2 ^ 52) = Q := by omega
    rw [htop]
    have hs : sub64 (L + 1) 52 % 2 = (L + 1) % 2 := by unfold sub64; omega
    refine ⟨L, Q, _, _, rfl, by omega, hQ1, hQ2, hmag, ?_, ?_, ?_, ?_⟩
    · unfold sqrtEven; rw [e3, hs]
    · unfold sqrtTop sub64; rw [Nat.shiftRight_eq_div_pow]; omega
    · rw [hix, sqrtM_eq _ _ _ hM, hQ, hs]
      have h2 : L % 2 = 0 ∨ L % 2 = 1 := by omega
      rcases h2 with h | h
      · have : (L + 1) % 2 = 1 := by omega
        rw [h, this]
      · have : (L + 1) % 2 = 0 := by omega
        rw [h, this]
    · rw [hix, sqrtIdx_eq _ _ hM, hQ]

theorem sqrtfM_eq (E M : Nat) (hM : M < 2 ^ 23) :
    sqrtfM (E * 2 ^ 23 + M) = (2 ^ 23 + M) * 2 ^ (8 - E % 2) := by
  unfold sqrtfM
  dsimp only
  have e0 : (0x00800000 : Nat) = 2 ^ 23 := by norm_num
  have e1 : ((E * 2 ^ 23 + M) <<< 8) % 2 ^ 32 = (E % 2) * 2 ^ 31 + M * 2 ^ 8 := by
    rw [Nat.shiftLeft_eq]; omega
  have e2 : (0x80000000 : Nat) = 2 ^ 31 := by norm_num
  have e3 : (0x7fffffff : Nat) = 2 ^ 31 - 1 := by norm_num
  have e4 : ((E * 2 ^ 23 + M) <<< 7) % 2 ^ 32 % 2 ^ 31 = (E % 2) * 2 ^ 30 + M * 2 ^ 7 := by
    rw [Nat.shiftLeft_eq]; omega
  have e5 : (E * 2 ^ 23 + M) / 2 ^ 23 % 2 = E % 2 := by omega
  rw [e0, and_bit, e5, e1, e2, or_top_bit _ 31 (by omega), e3, and_low_mask, e4]
  have h2 : E % 2 = 0 ∨ E % 2 = 1 := by omega
  rcases h2 with h | h
  · rw [h, if_neg (by norm_num)]; norm_num; omega
  · rw [h, if_pos (by norm_num)]; norm_num; omega

theorem sqrtfEy_eq (ix : Nat) :
    sqrtfEy ix = ((ix / 2 + 0x1fc00000) % 2 ^ 32 % 2 ^ 31 / 2 ^ 23) * 2 ^ 23 := by
  have hmask : (0x7f800000 : Nat) = (2 ^ 31 - 1) ^^^ (2 ^ 23 - 1) := by decide
  have e : (0x3f800000 >>> 1 : Nat) = 0x1fc00000 := by decide
  unfold sqrtfEy
  dsimp only
  rw [hmask, and_high_mask _ 31 23 (by norm_num), Nat.shiftRight_eq_div_pow, e, pow_one]

/-- The special-case block of `sqrtf` on a positive finite input: the input is
`Q * 2 ^ (e - 23)` units of `2 ^ (-149)` with a 24-bit `Q`. -/
theorem sqrtfNorm_spec (z : Nat) (hz0 : 0 < z) (hz : z < 0x7f800000) :
    ∃ e Q ix, sqrtfNorm z = some ix ∧ e ≤ 276 ∧ 2 ^ 23 ≤ Q ∧ Q < 2 ^ 24 ∧
      magOf 23 8 z * 2 ^ 23 = Q * 2 ^ e ∧
      sqrtfEy ix = ((e + 105) / 2) * 2 ^ 23 ∧
      sqrtfM ix = Q * 2 ^ (8 - e % 2) ∧
      sqrtfIdx ix = (e % 2) * 64 + Q / 2 ^ 17 % 64 := by
  unfold sqrtfNorm
  dsimp only
  by_cases hn : 2 ^ 23 ≤ z
  · have hc : ¬ (sub32 z 0x00800000 ≥ 0x7f800000 - 0x00800000) := by unfold sub32; omega
    rw [if_neg hc]
    have hdm : z = (z / 2 ^ 23) * 2 ^ 23 + z % 2 ^ 23 := by omega
    have hM : z % 2 ^ 23 < 2 ^ 23 := Nat.mod_lt _ (by norm_num)
    have hexp : expOf 23 8 z = z / 2 ^ 23 := by unfold expOf; omega
    refine ⟨z / 2 ^ 23 + 22, 2 ^ 23 + z % 2 ^ 23, z, rfl, by omega, by omega,
      by omega, ?_, ?_, ?_, ?_⟩
    · rw [magOf_def, hexp, if_neg (by omega)]
      unfold manOf
      have : z / 2 ^ 23 + 22 = (z / 2 ^ 23 - 1) + 23 := by omega
      rw [this, pow_add]; ring
    · rw [sqrtfEy_eq]; omega
    · nth_rewrite 1 [hdm]
      rw [sqrtfM_eq _ _ hM]
      have : (z / 2 ^ 23 + 22) % 2 = z / 2 ^ 23 % 2 := by omega
      rw [this]
    · unfold sqrtfIdx; rw [Nat.shiftRight_eq_div_pow]; omega
  · have hc : sub32 z 0x00800000 ≥ 0x7f800000 - 0x00800000 := by unfold sub32; omega
    rw [if_pos hc, if_neg (by omega), if_neg (by omega), if_neg (by omega)]
    obtain ⟨t1, t2, t3⟩ := tointf_fields
    obtain ⟨L, hL, h1, h2, hm⟩ := fmulOf_subnormal 23 8 z tointf hz0 (by omega) t1 t2
      (by rw [scaleOf_float]; exact t3) (by norm_num) (by norm_num)
      (by rw [scaleOf_float]; norm_num)
    have htoint : (0x4b000000 : Nat) = tointf := rfl
    have h23 : (23 <<< 23 : Nat) = 192937984 := by decide
    rw [htoint, hm, h23]
    have hQ1 : 2 ^ 23 ≤ z * 2 ^ (23 - L) := by
      have := Nat.mul_le_mul_right (2 ^ (23 - L)) h1
      rw [← pow_add] at this
      have e : L + (23 - L) = 23 := by omega
      rw [e] at this; exact this
    have hQ2 : z * 2 ^ (23 - L) < 2 ^ 24 := by
      have := Nat.mul_lt_mul_of_pos_right h2 (two_pow_pos' (23 - L))
      rw [← pow_add] at this
      have e : L + 1 + (23 - L) = 24 := by omega
      rw [e] at this; exact this
    have hmag : magOf 23 8 z * 2 ^ 23 = z * 2 ^ (23 - L) * 2 ^ L := by
      rw [(magOf_small 23 8 z (by omega) (by norm_num)).1, Nat.mul_assoc, ← pow_add]
      have e : 23 - L + L = 23 := by omega
      rw [e]
    generalize z * 2 ^ (23 - L) = Q at *
    have hix : sub32 (L * 2 ^ 23 + Q) 192937984 =
        ((L + 490) % 512) * 2 ^ 23 + (Q - 2 ^ 23) := by unfold sub32; omega
    have hM : Q - 2 ^ 23 < 2 ^ 23 := by omega
    have hQ : 2 ^ 23 + (Q - 2 ^ 23) = Q := by omega
    refine ⟨L, Q, _, rfl, by omega, hQ1, hQ2, hmag, ?_, ?_, ?_⟩
    · rw [sqrtfEy_eq, hix]; omega
    · rw [hix, sqrtfM_eq _ _ hM, hQ]
      have : (L + 490) % 512 % 2 = L % 2 := by omega
      rw [this]
    · rw [hix]; unfold sqrtfIdx; rw [Nat.shiftRight_eq_div_pow]; omega

/-! ## The perturbation -/

theorem sqrtNorm_some (x ix top : Nat) (hx : x < 2 ^ 64) (h : sqrtNorm x = some (ix, top)) :
    0 < x ∧ x < 0x7ff0000000000000 := by
  unfold sqrtNorm at h
  dsimp only at h
  rw [Nat.shiftRight_eq_div_pow] at h
  by_cases h1 : sub64 (x / 2 ^ 52) 0x001 ≥ 0x7ff - 0x001
  · rw [if_pos h1] at h
    by_cases h2 : (x * 2) % 2 ^ 64 = 0
    · rw [if_pos h2] at h; exact absurd h (by simp)
    · rw [if_neg h2] at h
      by_cases h3 : x = 0x7ff0000000000000
      · rw [if_pos h3] at h; exact absurd h (by simp)
      · rw [if_neg h3] at h
        by_cases h4 : x > 0x7ff0000000000000
        · rw [if_pos h4] at h; exact absurd h (by simp)
        · omega
  · unfold sub64 at h1; omega

theorem sqrtfNorm_some (z iz : Nat) (hz : z < 2 ^ 32) (h : sqrtfNorm z = some iz) :
    0 < z ∧ z < 0x7f800000 := by
  unfold sqrtfNorm at h
  dsimp only at h
  by_cases h1 : sub32 z 0x00800000 ≥ 0x7f800000 - 0x00800000
  · rw [if_pos h1] at h
    by_cases h2 : (z * 2) % 2 ^ 32 = 0
    · rw [if_pos h2] at h; exact absurd h (by simp)
    · rw [if_neg h2] at h
      by_cases h3 : z = 0x7f800000
      · rw [if_pos h3] at h; exact absurd h (by simp)
      · rw [if_neg h3] at h
        by_cases h4 : z > 0x7f800000
        · rw [if_pos h4] at h; exact absurd h (by simp)
        · omega
  · unfold sub32 at h1; omega

theorem sqrtParts_form (ix top : Nat) : ∃ S D1 D2 : Nat,
    sqrtParts ix top =
      ((S &&& 0x000fffffffffffff) ||| ((sqrtTop top <<< 52) % 2 ^ 64),
       (if D2 = 0 then 0 else 0x0010000000000000) ||| ((D1 ^^^ D2) &&& 0x8000000000000000)) :=
  ⟨_, _, _, rfl⟩

theorem sqrtfParts_form (ix : Nat) : ∃ S D1 D2 : Nat,
    sqrtfParts ix =
      ((S &&& 0x007fffff) ||| sqrtfEy ix,
       (if D2 = 0 then 0 else 0x01000000) ||| ((D1 ^^^ D2) &&& 0x80000000)) :=
  ⟨_, _, _, rfl⟩

theorem sqrtParts_val (ix top F : Nat) (hF : sqrtTop top = F) (hF1 : 55 ≤ F) (hF2 : F < 2047) :
    (∃ S, (sqrtParts ix top).1 = F * 2 ^ 52 + S % 2 ^ 52) ∧
    ((sqrtParts ix top).2 = 0 ∨ (sqrtParts ix top).2 = 2 ^ 63 ∨
      (sqrtParts ix top).2 = 2 ^ 52 ∨ (sqrtParts ix top).2 = 2 ^ 63 + 2 ^ 52) ∧
    faddOf 52 11 (sqrtParts ix top).1 (sqrtParts ix top).2 = (sqrtParts ix top).1 := by
  obtain ⟨S, D1, D2, h⟩ := sqrtParts_form ix top
  rw [h, hF]
  dsimp only
  have e1 : (F <<< 52) % 2 ^ 64 = F * 2 ^ 52 := by
    rw [Nat.shiftLeft_eq]; omega
  have e2 : (0x000fffffffffffff : Nat) = 2 ^ 52 - 1 := by norm_num
  have hS : S % 2 ^ 52 < 2 ^ 52 := Nat.mod_lt _ (by norm_num)
  rw [e1, e2, and_low_mask, Nat.lor_comm, or_disjoint F _ 52 hS]
  obtain ⟨g1, g2, g3⟩ := fields_of_parts 52 11 0 F (S % 2 ^ 52) hS (by omega) (by norm_num)
  rw [Nat.zero_mul, Nat.zero_add] at g1 g2 g3
  have hT : magOf 52 11 (2 ^ 52) = 2 ^ 52 := by decide
  have hpow : 2 ^ 54 ≤ 2 ^ (F - 1) := Nat.pow_le_pow_right (by norm_num) (by omega)
  have ht := tiny_cases D1 D2 63 52 0x0010000000000000 0x8000000000000000 (by norm_num)
    (by norm_num) (by norm_num)
  refine ⟨⟨S, rfl⟩, ht, ?_⟩
  exact faddOf_tiny 52 11 _ _ (2 ^ 52) (by omega) (by unfold isFiniteOf; rw [g1]; omega)
    (by rw [g1]; omega) (by norm_num) (by decide) (by rw [hT]; norm_num)
    (by rw [g1, hT]; omega) ht (by norm_num) (by norm_num) (by norm_num)

theorem sqrtfParts_val (ix F : Nat) (hF : sqrtfEy ix = F * 2 ^ 23) (hF1 : 27 ≤ F)
    (hF2 : F < 255) :
    (∃ S, (sqrtfParts ix).1 = F * 2 ^ 23 + S % 2 ^ 23) ∧
    ((sqrtfParts ix).2 = 0 ∨ (sqrtfParts ix).2 = 2 ^ 31 ∨
      (sqrtfParts ix).2 = 2 ^ 24 ∨ (sqrtfParts ix).2 = 2 ^ 31 + 2 ^ 24) ∧
    faddOf 23 8 (sqrtfParts ix).1 (sqrtfParts ix).2 = (sqrtfParts ix).1 := by
  obtain ⟨S, D1, D2, h⟩ := sqrtfParts_form ix
  rw [h, hF]
  dsimp only
  have e2 : (0x007fffff : Nat) = 2 ^ 23 - 1 := by norm_num
  have hS : S % 2 ^ 23 < 2 ^ 23 := Nat.mod_lt _ (by norm_num)
  rw [e2, and_low_mask, Nat.lor_comm, or_disjoint F _ 23 hS]
  obtain ⟨g1, g2, g3⟩ := fields_of_parts 23 8 0 F (S % 2 ^ 23) hS (by omega) (by norm_num)
  rw [Nat.zero_mul, Nat.zero_add] at g1 g2 g3
  have hT : magOf 23 8 (2 ^ 24) = 2 ^ 24 := by decide
  have hpow : 2 ^ 26 ≤ 2 ^ (F - 1) := Nat.pow_le_pow_right (by norm_num) (by omega)
  have ht := tiny_cases D1 D2 31 24 0x01000000 0x80000000 (by norm_num)
    (by norm_num) (by norm_num)
  refine ⟨⟨S, rfl⟩, ht, ?_⟩
  exact faddOf_tiny 23 8 _ _ (2 ^ 24) (by omega) (by unfold isFiniteOf; rw [g1]; omega)
    (by rw [g1]; omega) (by norm_num) (by decide) (by rw [hT]; norm_num)
    (by rw [g1, hT]; omega) ht (by norm_num) (by norm_num) (by norm_num)

theorem tiny_val64 (t : Nat)
    (h : t = 0 ∨ t = 2 ^ 63 ∨ t = 2 ^ 52 ∨ t = 2 ^ 63 + 2 ^ 52) :
    isZeroOf 52 11 t ∨ |val64 t| = 1 / 2 ^ 1022 := by
  have hv : (2 ^ 52 : ℚ) / 2 ^ 1074 = 1 / 2 ^ 1022 := by
    have e : (2 : ℚ) ^ 1074 = 2 ^ 52 * 2 ^ 1022 := by rw [← pow_add]
    rw [e]
    have := mul_div_mul_left (1 : ℚ) (2 ^ 1022) (by positivity : (2 : ℚ) ^ 52 ≠ 0)
    rw [mul_one] at this
    exact this
  rcases h with rfl | rfl | rfl | rfl
  · left; decide
  · left; decide
  · right
    unfold val64
    rw [abs_valOf, scaleOf_double]
    have : magOf 52 11 (2 ^ 52) = 2 ^ 52 := by decide
    rw [this]; push_cast; exact hv
  · right
    unfold val64
    rw [abs_valOf, scaleOf_double]
    have : magOf 52 11 (2 ^ 63 + 2 ^ 52) = 2 ^ 52 := by decide
    rw [this]; push_cast; exact hv

theorem tiny_val32 (t : Nat)
    (h : t = 0 ∨ t = 2 ^ 31 ∨ t = 2 ^ 24 ∨ t = 2 ^ 31 + 2 ^ 24) :
    isZeroOf 23 8 t ∨ |val32 t| = 1 / 2 ^ 125 := by
  have hv : (2 ^ 24 : ℚ) / 2 ^ 149 = 1 / 2 ^ 125 := by
    have e : (2 : ℚ) ^ 149 = 2 ^ 24 * 2 ^ 125 := by rw [← pow_add]
    rw [e]
    have := mul_div_mul_left (1 : ℚ) (2 ^ 125) (by positivity : (2 : ℚ) ^ 24 ≠ 0)
    rw [mul_one] at this
    exact this
  rcases h with rfl | rfl | rfl | rfl
  · left; decide
  · left; decide
  · right
    unfold val32
    rw [abs_valOf, scaleOf_float]
    have : magOf 23 8 (2 ^ 24) = 2 ^ 24 := by decide
    rw [this]; push_cast; exact hv
  · right
    unfold val32
    rw [abs_valOf, scaleOf_float]
    have : magOf 23 8 (2 ^ 31 + 2 ^ 24) = 2 ^ 24 := by decide
    rw [this]; push_cast; exact hv

/-- C15: on the main path of `sqrt` and of `sqrtf` the perturbation `t` is
`+0`, `-0`, or plus or minus `2 ^ (-1022)` (for `sqrtf`: `2 ^ (-125)`), and the
sum `y + t`, rounded to nearest, is the assembled result `y` itself, bit for
bit; so the function returns `y`. -/
theorem sqrt_perturbation_harmless (x ix top z iz : Nat) (hx : x < 2 ^ 64) (hz : z < 2 ^ 32)
    (h1 : sqrtNorm x = some (ix, top)) (h2 : sqrtfNorm z = some iz) :
    ((isZeroOf 52 11 (sqrtParts ix top).2 ∨ |val64 (sqrtParts ix top).2| = 1 / 2 ^ 1022) ∧
      faddOf 52 11 (sqrtParts ix top).1 (sqrtParts ix top).2 = (sqrtParts ix top).1 ∧
      sqrt x = (sqrtParts ix top).1) ∧
    ((isZeroOf 23 8 (sqrtfParts iz).2 ∨ |val32 (sqrtfParts iz).2| = 1 / 2 ^ 125) ∧
      faddOf 23 8 (sqrtfParts iz).1 (sqrtfParts iz).2 = (sqrtfParts iz).1 ∧
      sqrtf z = (sqrtfParts iz).1) := by
  constructor
  · obtain ⟨hx0, hx1⟩ := sqrtNorm_some x ix top hx h1
    obtain ⟨e, Q, ix', top', hn, he, _, _, _, _, hT, _, _⟩ := sqrtNorm_spec x hx0 hx1
    rw [h1] at hn
    obtain ⟨ha, hb⟩ := Prod.mk.inj (Option.some.inj hn)
    subst ha hb
    obtain ⟨_, ht, hadd⟩ := sqrtParts_val ix top _ hT (by omega) (by omega)
    refine ⟨tiny_val64 _ ht, hadd, ?_⟩
    rw [sqrt_main x ix top h1, sqrtBody_parts, hadd]
  · obtain ⟨hz0, hz1⟩ := sqrtfNorm_some z iz hz h2
    obtain ⟨e, Q, ix', hn, he, _, _, _, hT, _, _⟩ := sqrtfNorm_spec z hz0 hz1
    rw [h2] at hn
    have ha := Option.some.inj hn
    subst ha
    obtain ⟨_, ht, hadd⟩ := sqrtfParts_val iz _ hT (by omega) (by omega)
    refine ⟨tiny_val32 _ ht, hadd, ?_⟩
    rw [sqrtf_main z iz h2, sqrtfBody_parts, hadd]

/-- Witness for C15 at the double `2.0` and the float `2.0f`. -/
theorem sqrt_perturbation_harmless_witness :
    sqrt 0x4000000000000000 = (sqrtParts 0x4000000000000000 0x400).1 ∧
    sqrtf 0x40000000 = (sqrtfParts 0x40000000).1 :=
  ⟨(sqrt_perturbation_harmless 0x4000000000000000 0x4000000000000000 0x400 0x40000000
      0x40000000 (by decide) (by decide) (by decide) (by decide)).1.2.2,
    (sqrt_perturbation_harmless 0x4000000000000000 0x4000000000000000 0x400 0x40000000
      0x40000000 (by decide) (by decide) (by decide) (by decide)).2.2.2⟩

/-! ## Exactness of the argument reduction -/

theorem four_zpow (F : Nat) (k : Nat) (hF : F = k + 486) :
    (4 : ℚ) ^ ((F : ℤ) - 1023) = 2 ^ (2 * k) / 2 ^ 1074 := by
  have h4 : ∀ n : ℕ, (4 : ℚ) ^ n = 2 ^ (2 * n) := fun n => by rw [pow_mul]; norm_num
  have e : ((F : ℤ) - 1023) = (k : ℤ) - (537 : ℕ) := by subst hF; push_cast; ring
  rw [e, zpow_sub₀ (by norm_num : (4 : ℚ) ≠ 0), zpow_natCast, zpow_natCast, h4, h4]

/-- C16: the argument reduction of `sqrt` is exact.  A positive finite `x`
(normal or subnormal) reaches the main path, the fixed-point mantissa `m` lies
in `[2 ^ 62, 2 ^ 64)`, the value of `x` is `4 ^ (top - 1023) * (m / 2 ^ 62)`
for the result exponent field `top`, and `m / 2 ^ 62` lies in `[1, 2)` exactly
when the flag `even` is 1. -/
theorem sqrt_reduction_exact (x : Nat) (hx0 : 0 < x) (hx : x < 0x7ff0000000000000) :
    ∃ ix top, sqrtNorm x = some (ix, top) ∧
      2 ^ 62 ≤ sqrtM ix top ∧ sqrtM ix top < 2 ^ 64 ∧
      val64 x = (4 : ℚ) ^ ((sqrtTop top : ℤ) - 1023) * ((sqrtM ix top : ℚ) / 2 ^ 62) ∧
      (sqrtEven top = 0 ∨ sqrtEven top = 1) ∧
      (sqrtM ix top < 2 ^ 63 ↔ sqrtEven top = 1) := by
  obtain ⟨e, Q, ix, top, hn, he, hQ1, hQ2, hmag, hev, hT, hM, _⟩ := sqrtNorm_spec x hx0 hx
  have hs : sgnOf 52 11 x = 0 := by unfold sgnOf; omega
  have hval : val64 x = (magOf 52 11 x : ℚ) / 2 ^ 1074 := by
    unfold val64 valOf
    rw [svalOf_pos 52 11 x hs, scaleOf_double]; push_cast; rfl
  have hmagq : (magOf 52 11 x : ℚ) * 2 ^ 52 = (Q : ℚ) * 2 ^ e := by exact_mod_cast hmag
  have hY : (0 : ℚ) < 2 ^ 1074 := by positivity
  have h2 : e % 2 = 0 ∨ e % 2 = 1 := by omega
  refine ⟨ix, top, hn, ?_, ?_, ?_, ?_, ?_⟩
  · rw [hM]; rcases h2 with h | h <;> rw [h] <;> norm_num <;> omega
  · rw [hM]; rcases h2 with h | h <;> rw [h] <;> norm_num <;> omega
  · rw [hval, hT, hM]
    generalize (magOf 52 11 x : ℚ) = mg at *
    rcases h2 with h | h
    · obtain ⟨k, hk⟩ : ∃ k, e = 2 * k := ⟨e / 2, by omega⟩
      rw [four_zpow _ k (by omega), h]
      rw [hk] at hmagq
      generalize (2 : ℚ) ^ 1074 = Y at *
      have hX : (0 : ℚ) < 2 ^ (2 * k) := by positivity
      generalize (2 : ℚ) ^ (2 * k) = X at *
      push_cast
      field_simp
      linear_combination (2 ^ 10 * Y : ℚ) * hmagq
    · obtain ⟨k, hk⟩ : ∃ k, e = 2 * k + 1 := ⟨e / 2, by omega⟩
      rw [four_zpow _ k (by omega), h]
      rw [hk, pow_succ (2 : ℚ) (2 * k)] at hmagq
      generalize (2 : ℚ) ^ 1074 = Y at *
      have hX : (0 : ℚ) < 2 ^ (2 * k) := by positivity
      generalize (2 : ℚ) ^ (2 * k) = X at *
      push_cast
      field_simp
      linear_combination (2 ^ 10 * Y : ℚ) * hmagq
  · rw [hev]; omega
  · rw [hM, hev]
    rcases h2 with h | h
    · have : (e + 1) % 2 = 1 := by omega
      rw [h, this]; norm_num; omega
    · have : (e + 1) % 2 = 0 := by omega
      rw [h, this]; norm_num; omega

/-- Witness for C16 at the smallest subnormal, whose `top` wraps. -/
theorem sqrt_reduction_exact_witness :
    ∃ ix top, sqrtNorm 1 = some (ix, top) ∧
      2 ^ 62 ≤ sqrtM ix top ∧ sqrtM ix top < 2 ^ 64 ∧
      val64 1 = (4 : ℚ) ^ ((sqrtTop top : ℤ) - 1023) * ((sqrtM ix top : ℚ) / 2 ^ 62) ∧
      (sqrtEven top = 0 ∨ sqrtEven top = 1) ∧
      (sqrtM ix top < 2 ^ 63 ↔ sqrtEven top = 1) :=
  sqrt_reduction_exact 1 (by decide) (by decide)

/-! ## Small arguments of `ceil` and `floor` -/

theorem abs_val_lt_one_iff (x : Nat) : |val64 x| < 1 ↔ expOf 52 11 x ≤ 0x3fe := by
  unfold val64
  rw [abs_valOf, scaleOf_double, div_lt_one (by positivity)]
  have e0 : (2 : ℚ) ^ 1074 = ((2 ^ 1074 : ℕ) : ℚ) := by rw [Nat.cast_pow, Nat.cast_ofNat]
  rw [e0, Nat.cast_lt]
  constructor
  · intro h
    by_contra hE
    have h2 := magOf_large_ge 52 11 971 x (by norm_num) (by omega)
    rw [← pow_add 2 52 (971 + 52 - 1)] at h2
    have e : 52 + (971 + 52 - 1) = 1074 := by norm_num
    rw [e] at h2
    exact absurd h (by omega)
  · intro h
    have := magOf_small_lt 52 11 1023 x (by omega)
    have e : 1023 + 52 - 1 = 1074 := by norm_num
    rw [e] at this
    exact this

/-- C18: the small-magnitude case of the double `ceil` and `floor`.  A pattern
has magnitude below 1 exactly when its biased exponent is at most `0x3fe`
(subnormals included).  For such a pattern that is not a zero, `ceil` returns
`1.0` when the sign bit is clear and `-0.0` when it is set, and `floor` returns
`+0.0` when the sign bit is clear and `-1.0` when it is set; the intermediate
`y` of the source takes no part in these results.  `+0` and `-0` are returned
unchanged. -/
theorem ceil_floor_small (x : Nat) (hx : x < 2 ^ 64) :
    (|val64 x| < 1 ↔ expOf 52 11 x ≤ 0x3fe) ∧
    (expOf 52 11 x ≤ 0x3fe → x % 2 ^ 63 ≠ 0 →
      ceil x = (if signbit x = 0 then 0x3ff0000000000000 else 0x8000000000000000) ∧
      floor x = (if signbit x = 0 then 0 else 0xbff0000000000000)) ∧
    (x % 2 ^ 63 = 0 → ceil x = x ∧ floor x = x) := by
  refine ⟨abs_val_lt_one_iff x, ?_, ?_⟩
  · intro hE hnz
    have hfin : isFiniteOf 52 11 x := by unfold isFiniteOf; omega
    have hfeq : ¬ feqOf 52 11 x 0 := by
      rw [feq_zero_iff 52 11 x hx hfin, magOf_eq_zero_iff]; exact hnz
    have hc : ¬ (((expOf 52 11 x : Nat) : Int) ≥ 0x3ff + 52 ∨ feqOf 52 11 x 0) := by
      rintro (h | h)
      · omega
      · exact hfeq h
    have hc2 : ((expOf 52 11 x : Nat) : Int) ≤ 0x3ff - 1 := by omega
    unfold signbit
    constructor
    · unfold ceil
      dsimp only
      rw [expField64, if_neg hc, if_pos hc2]
      by_cases hs : x >>> 63 = 0
      · rw [if_neg (by simp [hs]), if_pos hs]
      · rw [if_pos hs, if_neg hs]
    · unfold floor
      dsimp only
      rw [expField64, if_neg hc, if_pos hc2]
      by_cases hs : x >>> 63 = 0
      · rw [if_neg (by simp [hs]), if_pos hs]
      · rw [if_pos hs, if_neg hs]
  · intro hz
    have hE : expOf 52 11 x = 0 := by unfold expOf; omega
    have hfin : isFiniteOf 52 11 x := by unfold isFiniteOf; omega
    have hfeq : feqOf 52 11 x 0 := by
      rw [feq_zero_iff 52 11 x hx hfin, magOf_eq_zero_iff]; exact hz
    constructor
    · unfold ceil
      dsimp only
      rw [if_pos (Or.inr hfeq)]
    · unfold floor
      dsimp only
      rw [if_pos (Or.inr hfeq)]

/-- Witness for C18 at the double `-0.3`. -/
theorem ceil_floor_small_witness :
    ceil 0xbfd3333333333333 = 0x8000000000000000 ∧
    floor 0xbfd3333333333333 = 0xbff0000000000000 :=
  (ceil_floor_small 0xbfd3333333333333 (by decide)).2.1 (by decide) (by decide)

/-! ## Sign symmetry of `ceilf` and `floorf` -/

theorem neg_round_sym (x K J : Nat) (hK : 0 < K) (hKJ : K * J = 2 ^ 31) :
    (x + (K - 1) < 2 ^ 31 →
      (x + 2 ^ 31 + (K - 1)) / K * K = (x + (K - 1)) / K * K + 2 ^ 31 ∧
      (x + (K - 1)) / K * K < 2 ^ 31) ∧
    (2 ^ 31 ≤ x → x / K * K = (x - 2 ^ 31) / K * K + 2 ^ 31) := by
  constructor
  · intro h
    have e : x + 2 ^ 31 + (K - 1) = x + (K - 1) + K * J := by omega
    rw [e, Nat.add_mul_div_left _ _ hK, Nat.add_mul, Nat.mul_comm J K, hKJ]
    have := Nat.div_mul_le_self (x + (K - 1)) K
    exact ⟨rfl, by omega⟩
  · intro h
    have e : x = x - 2 ^ 31 + K * J := by omega
    nth_rewrite 1 [e]
    rw [Nat.add_mul_div_left _ _ hK, Nat.add_mul, Nat.mul_comm J K, hKJ]

/-- C19: `ceilf(x)` is, bit for bit, the negation of `floorf(-x)` for every
32-bit pattern `x`, signed zeros, infinities and NaNs included; the negation
flips the sign bit and nothing else. -/
theorem ceilf_neg_floorf_neg (x : Nat) (hx : x < 2 ^ 32) :
    fnegOf 23 8 x = x ^^^ 0x80000000 ∧
    fnegOf 23 8 (floorf (fnegOf 23 8 x)) = floorf (fnegOf 23 8 x) ^^^ 0x80000000 ∧
    ceilf x = fnegOf 23 8 (floorf (fnegOf 23 8 x)) := by
  obtain ⟨n1, n2, _, _, _, _⟩ := fnegOf_fields 23 8 x hx
  have hx' : fnegOf 23 8 x < 2 ^ 32 := n1
  have hfn : ∀ a, fnegOf 23 8 a = if a / 2 ^ 31 % 2 = 0 then a + 2 ^ 31 else a - 2 ^ 31 := by
    intro a; rfl
  have key : ceilf x = fnegOf 23 8 (floorf (fnegOf 23 8 x)) ∧
      floorf (fnegOf 23 8 x) < 2 ^ 32 := by
    rw [ceilf_eq x hx, floorf_eq _ hx', n2]
    have hneg : fnegOf 23 8 x = if x / 2 ^ 31 = 0 then x + 2 ^ 31 else x - 2 ^ 31 := by
      rw [hfn]
      have : x / 2 ^ 31 % 2 = x / 2 ^ 31 := by omega
      rw [this]
    have hE : expOf 23 8 x = x / 2 ^ 23 % 256 := rfl
    generalize expOf 23 8 x = E at *
    have hE2 : E < 256 := by omega
    by_cases h1 : E ≥ 150
    · rw [if_pos h1, if_pos h1, hneg, hfn]
      split <;> split <;> omega
    · rw [if_neg h1, if_neg h1]
      by_cases h2 : E ≥ 127
      · rw [if_pos h2, if_pos h2, hneg]
        have hk : 150 - E ≤ 23 := by omega
        have hKJ : 2 ^ (150 - E) * 2 ^ (31 - (150 - E)) = 2 ^ 31 := by
          rw [← pow_add]; congr 1; omega
        have hK := two_pow_pos' (150 - E)
        have hK2 : 2 ^ (150 - E) ≤ 2 ^ 23 := Nat.pow_le_pow_right (by norm_num) hk
        obtain ⟨r1, r2⟩ := neg_round_sym x _ _ hK hKJ
        generalize 2 ^ (150 - E) = K at *
        by_cases hs : x / 2 ^ 31 = 0
        · rw [if_pos hs, if_pos hs, if_pos (by omega)]
          obtain ⟨r3, r4⟩ := r1 (by omega)
          rw [r3, hfn]
          generalize (x + (K - 1)) / K * K = q at *
          rw [if_neg (by omega)]
          omega
        · rw [if_neg hs, if_neg hs, if_neg (by omega)]
          have r3 := r2 (by omega)
          rw [r3, hfn]
          have r5 := Nat.div_mul_le_self (x - 2 ^ 31) K
          generalize (x - 2 ^ 31) / K * K = q at *
          rw [if_pos (by omega)]
          omega
      · rw [if_neg h2, if_neg h2, hneg, hfn]
        split_ifs <;> (constructor <;> first | omega | contradiction)
  refine ⟨?_, ?_, key.1⟩
  · have := fnegOf_eq_xor 23 8 x hx
    rw [this]; norm_num
  · have := fnegOf_eq_xor 23 8 _ key.2
    rw [this]; norm_num

/-- Witness for C19 at the float `2.5f`. -/
theorem ceilf_neg_floorf_neg_witness :
    ceilf 0x40200000 = fnegOf 23 8 (floorf (fnegOf 23 8 0x40200000)) :=
  (ceilf_neg_floorf_neg 0x40200000 (by decide)).2.2

/-! ## Error of `mul64` -/

/-- C20: the sum formed by `mul64` does not overflow 64 bits, and the value
returned is `a * b / 2 ^ 64 - e` with an error `0 ≤ e < 3`. -/
theorem mul64_error_bound (a b : Nat) (ha : a < 2 ^ 64) (hb : b < 2 ^ 64) :
    (a >>> 32) * (b >>> 32) + (((a >>> 32) * (b &&& 0xffffffff)) >>> 32) +
        (((a &&& 0xffffffff) * (b >>> 32)) >>> 32) < 2 ^ 64 ∧
    mul64 a b = (a >>> 32) * (b >>> 32) + (((a >>> 32) * (b &&& 0xffffffff)) >>> 32) +
        (((a &&& 0xffffffff) * (b >>> 32)) >>> 32) ∧
    (mul64 a b * 2 ^ 64 ≤ a * b ∧ a * b < (mul64 a b + 3) * 2 ^ 64) ∧
    (((a : ℚ) * b / 2 ^ 64 - 3 < (mul64 a b : ℚ)) ∧ (mul64 a b : ℚ) ≤ (a : ℚ) * b / 2 ^ 64) := by
  have em : (0xffffffff : Nat) = 2 ^ 32 - 1 := by norm_num
  have key : (a / 2 ^ 32) * (b / 2 ^ 32) + (a / 2 ^ 32) * (b % 2 ^ 32) / 2 ^ 32 +
        (a % 2 ^ 32) * (b / 2 ^ 32) / 2 ^ 32 < 2 ^ 64 ∧
      ((a / 2 ^ 32) * (b / 2 ^ 32) + (a / 2 ^ 32) * (b % 2 ^ 32) / 2 ^ 32 +
        (a % 2 ^ 32) * (b / 2 ^ 32) / 2 ^ 32) * 2 ^ 64 ≤ a * b ∧
      a * b < ((a / 2 ^ 32) * (b / 2 ^ 32) + (a / 2 ^ 32) * (b % 2 ^ 32) / 2 ^ 32 +
        (a % 2 ^ 32) * (b / 2 ^ 32) / 2 ^ 32 + 3) * 2 ^ 64 := by
    have h1 : a = (a / 2 ^ 32) * 2 ^ 32 + a % 2 ^ 32 := by omega
    have h2 : b = (b / 2 ^ 32) * 2 ^ 32 + b % 2 ^ 32 := by omega
    have h3 : a % 2 ^ 32 < 2 ^ 32 := Nat.mod_lt _ (by norm_num)
    have h4 : b % 2 ^ 32 < 2 ^ 32 := Nat.mod_lt _ (by norm_num)
    have h5 : a / 2 ^ 32 < 2 ^ 32 := by omega
    have h6 : b / 2 ^ 32 < 2 ^ 32 := by omega
    generalize a / 2 ^ 32 = ahi at *
    generalize a % 2 ^ 32 = alo at *
    generalize b / 2 ^ 32 = bhi at *
    generalize b % 2 ^ 32 = blo at *
    have hab : a * b = ahi * bhi * 2 ^ 64 + (ahi * blo + alo * bhi) * 2 ^ 32 + alo * blo := by
      rw [h1, h2]; ring
    have p3 : alo * blo < 2 ^ 32 * 2 ^ 32 := Nat.mul_lt_mul'' h3 h4
    have p0 : ahi * bhi ≤ (2 ^ 32 - 1) * (2 ^ 32 - 1) := Nat.mul_le_mul (by omega) (by omega)
    have p1 : ahi * blo ≤ (2 ^ 32 - 1) * (2 ^ 32 - 1) := Nat.mul_le_mul (by omega) (by omega)
    have p2 : alo * bhi ≤ (2 ^ 32 - 1) * (2 ^ 32 - 1) := Nat.mul_le_mul (by omega) (by omega)
    rw [hab]
    generalize ahi * bhi = P0 at *
    generalize ahi * blo = P1 at *
    generalize alo * bhi = P2 at *
    generalize alo * blo = P3 at *
    refine ⟨by omega, by omega, by omega⟩
  have hsum : (a >>> 32) * (b >>> 32) + (((a >>> 32) * (b &&& 0xffffffff)) >>> 32) +
      (((a &&& 0xffffffff) * (b >>> 32)) >>> 32) =
      (a / 2 ^ 32) * (b / 2 ^ 32) + (a / 2 ^ 32) * (b % 2 ^ 32) / 2 ^ 32 +
        (a % 2 ^ 32) * (b / 2 ^ 32) / 2 ^ 32 := by
    simp only [em, and_low_mask, Nat.shiftRight_eq_div_pow]
  have hmul : mul64 a b = (a / 2 ^ 32) * (b / 2 ^ 32) + (a / 2 ^ 32) * (b % 2 ^ 32) / 2 ^ 32 +
        (a % 2 ^ 32) * (b / 2 ^ 32) / 2 ^ 32 := by
    unfold mul64
    dsimp only
    rw [hsum, Nat.mod_eq_of_lt key.1]
  rw [hsum, hmul]
  generalize (a / 2 ^ 32) * (b / 2 ^ 32) + (a / 2 ^ 32) * (b % 2 ^ 32) / 2 ^ 32 +
        (a % 2 ^ 32) * (b / 2 ^ 32) / 2 ^ 32 = r at *
  obtain ⟨k1, k2, k3⟩ := key
  refine ⟨k1, rfl, ⟨k2, k3⟩, ?_, ?_⟩
  · have : ((a * b : Nat) : ℚ) < (((r + 3) * 2 ^ 64 : Nat) : ℚ) := by exact_mod_cast k3
    push_cast at this
    rw [sub_lt_iff_lt_add, div_lt_iff₀ (by positivity)]
    exact this
  · have : (((r * 2 ^ 64 : Nat)) : ℚ) ≤ ((a * b : Nat) : ℚ) := by exact_mod_cast k2
    push_cast at this
    rw [le_div_iff₀ (by positivity)]
    exact this

/-- Witness for C20 at `a = b = 2 ^ 64 - 1`, where the error is largest. -/
theorem mul64_error_bound_witness :
    mul64 0xffffffffffffffff 0xffffffffffffffff * 2 ^ 64 ≤
        0xffffffffffffffff * 0xffffffffffffffff ∧
      0xffffffffffffffff * 0xffffffffffffffff <
        (mul64 0xffffffffffffffff 0xffffffffffffffff + 3) * 2 ^ 64 :=
  (mul64_error_bound 0xffffffffffffffff 0xffffffffffffffff (by decide) (by decide)).2.2.1

/-! ## Error analysis of the Goldschmidt iterations of `sqrtf` -/

/-- First Goldschmidt iteration in exact real arithmetic with truncation
errors: `A` is `r σ`, `P` is `s / σ`, and the errors of the products are at most
`2 ^ (-30)`, and `2 ^ (-29)` for the last one. -/
theorem gold_iter1 (A P D U B C : ℝ)
    (hA1 : 1 - 1 / 2 ^ 8 < A) (hA2 : A < 1 + 1 / 2 ^ 8)
    (hP1 : A - 1 / 2 ^ 30 < P) (hP2 : P ≤ A)
    (hD1 : P * A - 1 / 2 ^ 30 < D) (hD2 : D ≤ P * A) (hU : U = 3 - D)
    (hB1 : A * U / 2 - 1 / 2 ^ 30 < B) (hB2 : B ≤ A * U / 2)
    (hC1 : P * U / 2 - 1 / 2 ^ 29 < C) (hC2 : C ≤ P * U / 2) :
    0 < D ∧ D < 3 / 2 ∧ 3 / 2 < U ∧ U < 2 + 1 / 2 ^ 6 ∧
    |B - 1| < 1 / 2 ^ 15 ∧ |C - 1| < 1 / 2 ^ 15 ∧
    -(4 / 2 ^ 30) < C - B ∧ C - B < 1 / 2 ^ 30 := by
  have hP0 : 0 < P := by linarith only [hA1, hP1]
  have hA0 : 0 < A := by linarith only [hA1]
  -- bounds on the product P * A
  have hPA2 : P * A ≤ A * A := mul_le_mul_of_nonneg_right hP2 hA0.le
  have hPA1 : (A - 1 / 2 ^ 30) * A ≤ P * A := mul_le_mul_of_nonneg_right hP1.le hA0.le
  have hAA2 : A * A < (1 + 1 / 2 ^ 8) * (1 + 1 / 2 ^ 8) :=
    mul_lt_mul'' hA2 hA2 hA0.le hA0.le
  have hAA1 : (1 - 1 / 2 ^ 8) * (1 - 1 / 2 ^ 8) < A * A :=
    mul_lt_mul'' hA1 hA1 (by norm_num) (by norm_num)
  have hAt1 : A * (1 / 2 ^ 30) < (1 + 1 / 2 ^ 8) * (1 / 2 ^ 30) :=
    mul_lt_mul_of_pos_right hA2 (by norm_num)
  have hD0 : 0 < D := by linarith only [hD1, hPA1, hAA1, hAt1]
  have hD3 : D < 3 / 2 := by linarith only [hD2, hPA2, hAA2]
  have hU1 : 3 / 2 < U := by rw [hU]; linarith only [hD3]
  have hU2 : U < 2 + 1 / 2 ^ 6 := by rw [hU]; linarith only [hD1, hPA1, hAA1, hAt1]
  -- the exact iteration g A = A (3 - A²) / 2 = 1 - (A - 1)² (A + 2) / 2
  have hg : A * (3 - A * A) / 2 = 1 - (A - 1) ^ 2 * (A + 2) / 2 := by ring
  have hsq : (A - 1) ^ 2 < (1 / 2 ^ 8) ^ 2 := by
    apply sq_lt_sq' <;> linarith only [hA1, hA2]
  have hsq0 : 0 ≤ (A - 1) ^ 2 := sq_nonneg _
  have hg1 : 1 - (1 / 2 ^ 8) ^ 2 * (3 + 1 / 2 ^ 8) / 2 < A * (3 - A * A) / 2 := by
    rw [hg]
    have h1 : (A - 1) ^ 2 * (A + 2) ≤ (1 / 2 ^ 8) ^ 2 * (A + 2) :=
      mul_le_mul_of_nonneg_right hsq.le (by linarith only [hA0])
    have h2 : (1 / 2 ^ 8 : ℝ) ^ 2 * (A + 2) < (1 / 2 ^ 8) ^ 2 * (3 + 1 / 2 ^ 8) := by
      apply mul_lt_mul_of_pos_left _ (by norm_num); linarith only [hA2]
    linarith only [h1, h2]
  have hg2 : A * (3 - A * A) / 2 ≤ 1 := by
    rw [hg]
    have h1 : 0 ≤ (A - 1) ^ 2 * (A + 2) := mul_nonneg hsq0 (by linarith only [hA0])
    linarith only [h1]
  -- U against 3 - A²
  have hUa : 3 - A * A ≤ U := by rw [hU]; linarith only [hD2, hPA2]
  have hUb : U < 3 - A * A + 3 / 2 ^ 30 := by
    rw [hU]; linarith only [hD1, hPA1, hAt1]
  have hAU1 : A * (3 - A * A) ≤ A * U := mul_le_mul_of_nonneg_left hUa hA0.le
  have hAU2 : A * U < A * (3 - A * A + 3 / 2 ^ 30) := mul_lt_mul_of_pos_left hUb hA0
  have hAt : A * (3 / 2 ^ 30) < (1 + 1 / 2 ^ 8) * (3 / 2 ^ 30) :=
    mul_lt_mul_of_pos_right hA2 (by norm_num)
  have hB3 : B < 1 + 2 / 2 ^ 30 := by linarith only [hB2, hAU2, hg2, hAt]
  have hB4 : 1 - 1 / 2 ^ 15 + 5 / 2 ^ 30 < B := by linarith only [hg1, hAU1, hB1]
  -- C against B
  have hPU2 : P * U ≤ A * U := mul_le_mul_of_nonneg_right hP2 (by linarith only [hU1])
  have hPU1 : (A - 1 / 2 ^ 30) * U < P * U :=
    mul_lt_mul_of_pos_right hP1 (by linarith only [hU1])
  have hUt : (1 / 2 ^ 30) * U < (1 / 2 ^ 30) * (2 + 1 / 2 ^ 6) :=
    mul_lt_mul_of_pos_left hU2 (by norm_num)
  have hCB2 : C - B < 1 / 2 ^ 30 := by linarith only [hC2, hPU2, hB1]
  have hCB1 : -(4 / 2 ^ 30) < C - B := by linarith only [hC1, hB2, hPU1, hUt]
  refine ⟨hD0, hD3, hU1, hU2, ?_, ?_, hCB1, hCB2⟩
  · rw [abs_lt]; constructor <;> linarith only [hB3, hB4]
  · rw [abs_lt]; constructor <;> linarith only [hB3, hB4, hCB1, hCB2]

/-- Second Goldschmidt iteration: `B` is `r σ` and `C` is `s / σ` after the
first iteration, `E` is `s / σ` after the second one. -/
theorem gold_iter2 (B C D U E : ℝ)
    (hB : |B - 1| < 1 / 2 ^ 15) (hC : |C - 1| < 1 / 2 ^ 15)
    (hCB1 : -(4 / 2 ^ 30) < C - B) (hCB2 : C - B < 1 / 2 ^ 30)
    (hD1 : C * B - 1 / 2 ^ 30 < D) (hD2 : D ≤ C * B) (hU : U = 3 - D)
    (hE1 : C * U / 2 - 1 / 2 ^ 29 < E) (hE2 : E ≤ C * U / 2) :
    0 < D ∧ D < 3 / 2 ∧ 3 / 2 < U ∧ U < 2 + 1 / 2 ^ 6 ∧ |E - 1| < 1 / 2 ^ 27 := by
  obtain ⟨b1, b2⟩ := abs_lt.1 hB
  obtain ⟨c1, c2⟩ := abs_lt.1 hC
  have hC0 : 0 < C := by linarith only [c1]
  -- products of the small quantities
  have hxy : |(B - 1) * (C - 1)| < 1 / 2 ^ 15 * (1 / 2 ^ 15) := by
    rw [abs_mul]
    exact mul_lt_mul'' hB hC (abs_nonneg _) (abs_nonneg _)
  obtain ⟨xy1, xy2⟩ := abs_lt.1 hxy
  have hyy : |(C - 1) * (C - 1)| < 1 / 2 ^ 15 * (1 / 2 ^ 15) := by
    rw [abs_mul]
    exact mul_lt_mul'' hC hC (abs_nonneg _) (abs_nonneg _)
  obtain ⟨yy1, yy2⟩ := abs_lt.1 hyy
  have hyy0 : 0 ≤ (C - 1) * (C - 1) := mul_self_nonneg _
  have hxyy : |(B - 1) * ((C - 1) * (C - 1))| < 1 / 2 ^ 15 * (1 / 2 ^ 15 * (1 / 2 ^ 15)) := by
    rw [abs_mul]
    exact mul_lt_mul'' hB hyy (abs_nonneg _) (abs_nonneg _)
  obtain ⟨xyy1, xyy2⟩ := abs_lt.1 hxyy
  have e1 : C * B = 1 + (B - 1) + (C - 1) + (B - 1) * (C - 1) := by ring
  have e2 : C * (3 - C * B) = 2 + (C - B) - 2 * ((B - 1) * (C - 1)) - (C - 1) * (C - 1) -
      (B - 1) * ((C - 1) * (C - 1)) := by ring
  have hD0 : 0 < D := by linarith only [hD1, e1, b1, c1, xy1]
  have hD3 : D < 3 / 2 := by linarith only [hD2, e1, b2, c2, xy2]
  have hU1 : 3 / 2 < U := by rw [hU]; linarith only [hD3]
  have hU2 : U < 2 + 1 / 2 ^ 6 := by rw [hU]; linarith only [hD1, e1, b1, c1, xy1]
  have hUa : 3 - C * B ≤ U := by rw [hU]; linarith only [hD2]
  have hUb : U < 3 - C * B + 1 / 2 ^ 30 := by rw [hU]; linarith only [hD1]
  have hCU1 : C * (3 - C * B) ≤ C * U := mul_le_mul_of_nonneg_left hUa hC0.le
  have hCU2 : C * U < C * (3 - C * B + 1 / 2 ^ 30) := mul_lt_mul_of_pos_left hUb hC0
  have hCt : C * (1 / 2 ^ 30) < (1 + 1 / 2 ^ 15) * (1 / 2 ^ 30) :=
    mul_lt_mul_of_pos_right (by linarith only [c2]) (by norm_num)
  have e3 : C * (3 - C * B + 1 / 2 ^ 30) = C * (3 - C * B) + C * (1 / 2 ^ 30) := by ring
  refine ⟨hD0, hD3, hU1, hU2, ?_⟩
  rw [abs_lt]
  constructor
  · linarith only [hE1, hCU1, e2, hCB1, xy2, yy2, xyy2]
  · linarith only [hE2, hCU2, e3, e2, hCB2, xy1, hyy0, xyy1, hCt]

/-- The product `R U`, which becomes the next estimate `r`, stays below 2 when
the estimate `R` is at most `1 - 2 ^ (-9)`; so `mul32(r, u) << 1` does not
overflow. -/
theorem gold_r_bound (R σ A P D U : ℝ) (hR0 : 0 < R) (hR : R ≤ 1 - 1 / 2 ^ 9) (hσ : 1 ≤ σ)
    (hA : A = R * σ) (hA2 : A < 1 + 1 / 2 ^ 8)
    (hP1 : A - 1 / 2 ^ 30 < P) (hD1 : P * A - 1 / 2 ^ 30 < D) (hU : U = 3 - D) :
    R * U < 2 := by
  have hRA : R ≤ A := by rw [hA]; nlinarith only [hR0, hσ]
  have hA0 : 0 < A := lt_of_lt_of_le hR0 hRA
  have hPA1 : (A - 1 / 2 ^ 30) * A ≤ P * A := mul_le_mul_of_nonneg_right hP1.le hA0.le
  have hAt1 : A * (1 / 2 ^ 30) < (1 + 1 / 2 ^ 8) * (1 / 2 ^ 30) :=
    mul_lt_mul_of_pos_right hA2 (by norm_num)
  have hRR : R * R ≤ A * A := mul_le_mul hRA hRA hR0.le hA0.le
  have hUb : U < 3 - R * R + 3 / 2 ^ 30 := by
    rw [hU]; linarith only [hD1, hPA1, hAt1, hRR]
  have h1 : R * U < R * (3 - R * R + 3 / 2 ^ 30) := mul_lt_mul_of_pos_left hUb hR0
  have e : R * (3 - R * R + 3 / 2 ^ 30) = 2 - (1 - R) * (1 - R) * (2 + R) + R * (3 / 2 ^ 30) := by
    ring
  have h2 : (1 / 2 ^ 9) * (1 / 2 ^ 9) ≤ (1 - R) * (1 - R) :=
    mul_le_mul (by linarith only [hR]) (by linarith only [hR]) (by norm_num)
      (by linarith only [hR])
  have h3 : (1 / 2 ^ 9) * (1 / 2 ^ 9) * 2 ≤ (1 - R) * (1 - R) * (2 + R) :=
    mul_le_mul h2 (by linarith only [hR0]) (by norm_num) (by nlinarith only [h2])
  have h4 : R * (3 / 2 ^ 30) ≤ 1 * (3 / 2 ^ 30) :=
    mul_le_mul_of_nonneg_right (by linarith only [hR]) (by norm_num)
  linarith only [h1, e, h3, h4]

theorem gold_d_bound (X Y D : ℝ) (hX : |X - 1| < 1 / 2 ^ 8) (hY : |Y - 1| < 1 / 2 ^ 8)
    (hD2 : D ≤ X * Y) : D < 3 / 2 := by
  obtain ⟨x1, x2⟩ := abs_lt.1 hX
  obtain ⟨y1, y2⟩ := abs_lt.1 hY
  have h : X * Y < (1 + 1 / 2 ^ 8) * (1 + 1 / 2 ^ 8) :=
    mul_lt_mul'' (by linarith only [x2]) (by linarith only [y2])
      (by linarith only [x1]) (by linarith only [y1])
  linarith only [h, hD2]

theorem mul32_floor (a b : Nat) (ha : a < 2 ^ 32) (hb : b < 2 ^ 32) :
    mul32 a b * 2 ^ 32 ≤ a * b ∧ a * b < (mul32 a b + 1) * 2 ^ 32 ∧
    mul32 a b < 2 ^ 32 := by
  unfold mul32
  rw [Nat.mod_eq_of_lt ha, Nat.mod_eq_of_lt hb, Nat.shiftRight_eq_div_pow]
  have h := Nat.mul_lt_mul'' ha hb
  generalize a * b = n at *
  omega

theorem mul32_floor_real (a b : Nat) (ha : a < 2 ^ 32) (hb : b < 2 ^ 32) :
    (mul32 a b : ℝ) * 2 ^ 32 ≤ (a : ℝ) * b ∧ (a : ℝ) * b < ((mul32 a b : ℝ) + 1) * 2 ^ 32 := by
  obtain ⟨h1, h2, _⟩ := mul32_floor a b ha hb
  constructor
  · exact_mod_cast h1
  · exact_mod_cast h2

theorem sub32_of_le (a b : Nat) (ha : a < 2 ^ 32) (hb : b ≤ a) : sub32 a b = a - b := by
  unfold sub32; omega

/-- The two Goldschmidt iterations of `sqrtf` in 32-bit fixed point: started
from an estimate `T * 2 ^ 16` whose relative error is below `2 ^ (-8)`, none of
the intermediate values wraps, and the result `s` (representation 3.29) is
within 8 units of `2 ^ 29 * sqrt (m / 2 ^ 30)`. -/
theorem sqrtfApprox_bound (m T : Nat) (hm1 : 2 ^ 30 ≤ m) (hm2 : m < 2 ^ 32)
    (hT : T ≤ 0xff02) (h1 : 255 ^ 2 * 2 ^ 46 < T ^ 2 * m) (h2 : T ^ 2 * m < 257 ^ 2 * 2 ^ 46) :
    |(sqrtfApprox m (T * 2 ^ 16) : ℝ) - Real.sqrt ((m : ℝ) * 2 ^ 28)| < 8 := by
  have hT0 : 0 < T := by
    rcases Nat.eq_zero_or_pos T with h | h
    · subst h; simp at h1
    · exact h
  have hr0lt : T * 2 ^ 16 < 2 ^ 32 := by omega
  have hr0def : ((T * 2 ^ 16 : Nat) : ℝ) = (T : ℝ) * 2 ^ 16 := by push_cast; ring
  have hTr : (T : ℝ) ≤ 0xff02 := by exact_mod_cast hT
  have hTr0 : (0 : ℝ) < (T : ℝ) := by exact_mod_cast hT0
  have hmr1 : (2 : ℝ) ^ 30 ≤ (m : ℝ) := by exact_mod_cast hm1
  have hmr2 : (m : ℝ) < 2 ^ 32 := by exact_mod_cast hm2
  have c1 : ((255 ^ 2 * 2 ^ 46 : Nat) : ℝ) < ((T ^ 2 * m : Nat) : ℝ) := by exact_mod_cast h1
  have c2 : ((T ^ 2 * m : Nat) : ℝ) < ((257 ^ 2 * 2 ^ 46 : Nat) : ℝ) := by exact_mod_cast h2
  push_cast at c1 c2
  -- the exact square root
  obtain ⟨σ, hσdef⟩ : ∃ σ, σ = Real.sqrt ((m : ℝ) / 2 ^ 30) := ⟨_, rfl⟩
  have hσ0 : 0 ≤ σ := by rw [hσdef]; exact Real.sqrt_nonneg _
  have hσsq : σ * σ = (m : ℝ) / 2 ^ 30 := by
    rw [hσdef]; exact Real.mul_self_sqrt (by positivity)
  have hm : (m : ℝ) = 2 ^ 30 * (σ * σ) := by rw [hσsq]; field_simp
  have hσ1 : 1 ≤ σ := by
    by_contra h
    have h' : σ < 1 := lt_of_not_ge h
    have : σ * σ < 1 * 1 := mul_lt_mul'' h' h' hσ0 hσ0
    rw [hσsq, div_lt_iff₀ (by positivity)] at this
    linarith only [this, hmr1]
  have hσ2 : σ < 2 := by
    by_contra h
    have h' : 2 ≤ σ := le_of_not_gt h
    have : 2 * 2 ≤ σ * σ := mul_le_mul h' h' (by norm_num) hσ0
    rw [hσsq, le_div_iff₀ (by positivity)] at this
    linarith only [this, hmr2]
  have hσpos : 0 < σ := lt_of_lt_of_le one_pos hσ1
  have hsqrt : Real.sqrt ((m : ℝ) * 2 ^ 28) = 2 ^ 29 * σ := by
    have e : (m : ℝ) * 2 ^ 28 = (2 ^ 29 * σ) * (2 ^ 29 * σ) := by rw [hm]; ring
    rw [e]; exact Real.sqrt_mul_self (by positivity)
  -- the estimate
  obtain ⟨R, hR⟩ : ∃ R : ℝ, R = (T : ℝ) * 2 ^ 16 / 2 ^ 32 := ⟨_, rfl⟩
  obtain ⟨A, hA⟩ : ∃ A : ℝ, A = R * σ := ⟨_, rfl⟩
  have hR0 : 0 < R := by rw [hR]; positivity
  have hRle : R ≤ 1 - 1 / 2 ^ 9 := by
    rw [hR, div_le_iff₀ (by positivity)]; linarith only [hTr]
  have hA0 : 0 < A := by rw [hA]; positivity
  have hAA : A * A = (T : ℝ) ^ 2 * m / 2 ^ 62 := by rw [hA, hR, hm]; ring
  have hA1 : 1 - 1 / 2 ^ 8 < A := by
    by_contra h
    have h' : A ≤ 1 - 1 / 2 ^ 8 := le_of_not_gt h
    have : A * A ≤ (1 - 1 / 2 ^ 8) * (1 - 1 / 2 ^ 8) := mul_le_mul h' h' hA0.le (by norm_num)
    rw [hAA, div_le_iff₀ (by positivity)] at this
    linarith only [this, c1]
  have hA2 : A < 1 + 1 / 2 ^ 8 := by
    by_contra h
    have h' : 1 + 1 / 2 ^ 8 ≤ A := le_of_not_gt h
    have : (1 + 1 / 2 ^ 8) * (1 + 1 / 2 ^ 8) ≤ A * A := mul_le_mul h' h' (by norm_num) hA0.le
    rw [hAA, le_div_iff₀ (by positivity)] at this
    linarith only [this, c2]
  -- first product: s = mul32(m, r)
  unfold sqrtfApprox
  dsimp only
  obtain ⟨f1, f2⟩ := mul32_floor_real m (T * 2 ^ 16) hm2 hr0lt
  obtain ⟨_, _, hs0lt⟩ := mul32_floor m (T * 2 ^ 16) hm2 hr0lt
  rw [hr0def] at f1 f2
  generalize hs0 : mul32 m (T * 2 ^ 16) = s0 at *
  obtain ⟨P, hP⟩ : ∃ P : ℝ, P = (s0 : ℝ) / (2 ^ 30 * σ) := ⟨_, rfl⟩
  have hPs : (s0 : ℝ) = P * (2 ^ 30 * σ) := by rw [hP]; field_simp
  have hTs : (T : ℝ) * 2 ^ 16 = A / σ * 2 ^ 32 := by rw [hA, hR]; field_simp; ring
  have hP2 : P ≤ A := by
    have e : (m : ℝ) * ((T : ℝ) * 2 ^ 16) = A * (2 ^ 62 * σ) := by rw [hm, hTs]; field_simp; ring
    have e' : (s0 : ℝ) * 2 ^ 32 = P * (2 ^ 62 * σ) := by rw [hPs]; ring
    rw [e, e'] at f1
    exact le_of_mul_le_mul_right f1 (by positivity)
  have hP1 : A - 1 / 2 ^ 30 < P := by
    have e : (m : ℝ) * ((T : ℝ) * 2 ^ 16) = A * (2 ^ 62 * σ) := by rw [hm, hTs]; field_simp; ring
    have e' : ((s0 : ℝ) + 1) * 2 ^ 32 = (P + 1 / (2 ^ 30 * σ)) * (2 ^ 62 * σ) := by
      rw [hPs]; field_simp; ring
    rw [e, e'] at f2
    have h3 := lt_of_mul_lt_mul_right f2 (by positivity)
    have h4 : 1 / (2 ^ 30 * σ) ≤ 1 / 2 ^ 30 :=
      one_div_le_one_div_of_le (by positivity) (by nlinarith only [hσ1])
    linarith only [h3, h4]
  -- second product: d = mul32(s, r)
  obtain ⟨f3, f4⟩ := mul32_floor_real s0 (T * 2 ^ 16) hs0lt hr0lt
  obtain ⟨_, _, hd0lt⟩ := mul32_floor s0 (T * 2 ^ 16) hs0lt hr0lt
  rw [hr0def] at f3 f4
  generalize hd0 : mul32 s0 (T * 2 ^ 16) = d0 at *
  obtain ⟨D, hD⟩ : ∃ D : ℝ, D = (d0 : ℝ) / 2 ^ 30 := ⟨_, rfl⟩
  have hDs : (d0 : ℝ) = D * 2 ^ 30 := by rw [hD]; field_simp
  have ePA : (s0 : ℝ) * ((T : ℝ) * 2 ^ 16) = P * A * 2 ^ 62 := by
    rw [hPs, hTs]; field_simp; ring
  have hD2 : D ≤ P * A := by
    have e' : (d0 : ℝ) * 2 ^ 32 = D * 2 ^ 62 := by rw [hDs]; ring
    rw [ePA, e'] at f3
    exact le_of_mul_le_mul_right f3 (by positivity)
  have hD1 : P * A - 1 / 2 ^ 30 < D := by
    have e' : ((d0 : ℝ) + 1) * 2 ^ 32 = (D + 1 / 2 ^ 30) * 2 ^ 62 := by rw [hDs]; ring
    rw [ePA, e'] at f4
    have h3 := lt_of_mul_lt_mul_right f4 (by positivity)
    linarith only [h3]
  have hP0 : 0 < P := by linarith only [hA1, hP1]
  have hDlt : D < 3 / 2 := by
    have h3 : P * A ≤ A * A := mul_le_mul_of_nonneg_right hP2 hA0.le
    have h4 : A * A < (1 + 1 / 2 ^ 8) * (1 + 1 / 2 ^ 8) := mul_lt_mul'' hA2 hA2 hA0.le hA0.le
    linarith only [h3, h4, hD2]
  have hd0le : d0 ≤ 0xc0000000 := by
    have : (d0 : ℝ) < 0xc0000000 := by rw [hDs]; linarith only [hDlt]
    have : d0 < 0xc0000000 := by exact_mod_cast this
    omega
  rw [sub32_of_le 0xc0000000 d0 (by norm_num) hd0le]
  obtain ⟨U, hU⟩ : ∃ U : ℝ, U = ((0xc0000000 - d0 : Nat) : ℝ) / 2 ^ 30 := ⟨_, rfl⟩
  have hUs : ((0xc0000000 - d0 : Nat) : ℝ) = U * 2 ^ 30 := by rw [hU]; field_simp
  have hUD : U = 3 - D := by
    rw [hU, hD, Nat.cast_sub hd0le]; push_cast; ring
  have hu0lt : 0xc0000000 - d0 < 2 ^ 32 := by omega
  generalize hu0 : 0xc0000000 - d0 = u0 at *
  -- third and fourth product: r = mul32(r, u) << 1 and s = mul32(s, u) << 1
  obtain ⟨f5, f6⟩ := mul32_floor_real (T * 2 ^ 16) u0 hr0lt hu0lt
  obtain ⟨f7, f8⟩ := mul32_floor_real s0 u0 hs0lt hu0lt
  rw [hr0def] at f5 f6
  generalize hr1h : mul32 (T * 2 ^ 16) u0 = r1h at *
  generalize hs1h : mul32 s0 u0 = s1h at *
  have hRU := gold_r_bound R σ A P D U hR0 hRle hσ1 hA hA2 hP1 hD1 hUD
  have eRU : (T : ℝ) * 2 ^ 16 * (u0 : ℝ) = R * U * 2 ^ 62 := by
    rw [hUs, hR]; ring
  have hr1hlt : r1h < 2 ^ 31 := by
    have : (r1h : ℝ) * 2 ^ 32 < 2 ^ 31 * 2 ^ 32 := by
      rw [eRU] at f5
      linarith only [f5, hRU]
    have h3 := lt_of_mul_lt_mul_right this (by positivity)
    exact_mod_cast h3
  have hs1hlt : s1h < 2 ^ 31 := by
    have hs0b : (s0 : ℝ) < (1 + 1 / 2 ^ 8) * 2 ^ 31 := by
      rw [hPs]
      have h3 : P * (2 ^ 30 * σ) ≤ A * (2 ^ 30 * σ) :=
        mul_le_mul_of_nonneg_right hP2 (by positivity)
      have h4 : A * (2 ^ 30 * σ) < (1 + 1 / 2 ^ 8) * (2 ^ 30 * 2) :=
        mul_lt_mul'' hA2 (by linarith only [hσ2]) hA0.le (by positivity)
      linarith only [h3, h4]
    have hu0b : (u0 : ℝ) ≤ 0xc0000000 := by
      have : u0 ≤ 0xc0000000 := by omega
      exact_mod_cast this
    have h5 : (s0 : ℝ) * u0 ≤ (s0 : ℝ) * 0xc0000000 :=
      mul_le_mul_of_nonneg_left hu0b (Nat.cast_nonneg _)
    have h6 : (s0 : ℝ) * 0xc0000000 < (1 + 1 / 2 ^ 8) * 2 ^ 31 * 0xc0000000 :=
      mul_lt_mul_of_pos_right hs0b (by norm_num)
    have : (s1h : ℝ) * 2 ^ 32 < 2 ^ 31 * 2 ^ 32 := by
      linarith only [f7, h5, h6]
    have h3 := lt_of_mul_lt_mul_right this (by positivity)
    exact_mod_cast h3
  have er1 : (r1h <<< 1) % 2 ^ 32 = 2 * r1h := by rw [Nat.shiftLeft_eq]; omega
  have es1 : (s1h <<< 1) % 2 ^ 32 = 2 * s1h := by rw [Nat.shiftLeft_eq]; omega
  rw [er1, es1]
  have hr1lt : 2 * r1h < 2 ^ 32 := by omega
  have hs1lt : 2 * s1h < 2 ^ 32 := by omega
  obtain ⟨B, hB⟩ : ∃ B : ℝ, B = 2 * (r1h : ℝ) * σ / 2 ^ 32 := ⟨_, rfl⟩
  obtain ⟨C, hC⟩ : ∃ C : ℝ, C = 2 * (s1h : ℝ) / (2 ^ 30 * σ) := ⟨_, rfl⟩
  have hBs : (r1h : ℝ) = B / σ * 2 ^ 31 := by rw [hB]; field_simp; ring
  have hCs : (s1h : ℝ) = C * σ * 2 ^ 29 := by rw [hC]; field_simp; ring
  have hB2 : B ≤ A * U / 2 := by
    have e1 : (r1h : ℝ) * 2 ^ 32 = B * (2 ^ 63 / σ) := by rw [hBs]; field_simp; ring
    have e2 : R * U * 2 ^ 62 = A * U / 2 * (2 ^ 63 / σ) := by rw [hA]; field_simp; ring
    rw [eRU, e1, e2] at f5
    exact le_of_mul_le_mul_right f5 (by positivity)
  have hB1 : A * U / 2 - 1 / 2 ^ 30 < B := by
    have e1 : ((r1h : ℝ) + 1) * 2 ^ 32 = (B + σ / 2 ^ 31) * (2 ^ 63 / σ) := by
      rw [hBs]; field_simp; ring
    have e2 : R * U * 2 ^ 62 = A * U / 2 * (2 ^ 63 / σ) := by rw [hA]; field_simp; ring
    rw [eRU, e1, e2] at f6
    have h3 := lt_of_mul_lt_mul_right f6 (by positivity)
    linarith only [h3, hσ2]
  have ePU : (s0 : ℝ) * (u0 : ℝ) = P * U / 2 * (σ * 2 ^ 61) := by rw [hPs, hUs]; ring
  have hC2 : C ≤ P * U / 2 := by
    have e1 : (s1h : ℝ) * 2 ^ 32 = C * (σ * 2 ^ 61) := by rw [hCs]; ring
    rw [ePU, e1] at f7
    exact le_of_mul_le_mul_right f7 (by positivity)
  have hC1 : P * U / 2 - 1 / 2 ^ 29 < C := by
    have e1 : ((s1h : ℝ) + 1) * 2 ^ 32 = (C + 1 / (2 ^ 29 * σ)) * (σ * 2 ^ 61) := by
      rw [hCs]; field_simp; ring
    rw [ePU, e1] at f8
    have h3 := lt_of_mul_lt_mul_right f8 (by positivity)
    have h4 : 1 / (2 ^ 29 * σ) ≤ 1 / 2 ^ 29 :=
      one_div_le_one_div_of_le (by positivity) (by nlinarith only [hσ1])
    linarith only [h3, h4]
  obtain ⟨_, _, _, _, hBa, hCa, hCB1, hCB2⟩ :=
    gold_iter1 A P D U B C hA1 hA2 hP1 hP2 hD1 hD2 hUD hB1 hB2 hC1 hC2
  -- second iteration: d = mul32(s, r), u = three - d, s = mul32(s, u)
  obtain ⟨f9, f10⟩ := mul32_floor_real (2 * s1h) (2 * r1h) hs1lt hr1lt
  obtain ⟨_, _, hd1lt⟩ := mul32_floor (2 * s1h) (2 * r1h) hs1lt hr1lt
  generalize hd1 : mul32 (2 * s1h) (2 * r1h) = d1 at *
  push_cast at f9 f10
  obtain ⟨D1, hD1d⟩ : ∃ D1 : ℝ, D1 = (d1 : ℝ) / 2 ^ 30 := ⟨_, rfl⟩
  have hD1s : (d1 : ℝ) = D1 * 2 ^ 30 := by rw [hD1d]; field_simp
  have eCB : 2 * (s1h : ℝ) * (2 * (r1h : ℝ)) = C * B * 2 ^ 62 := by
    rw [hCs, hBs]; field_simp; ring
  have hE2 : D1 ≤ C * B := by
    have e' : (d1 : ℝ) * 2 ^ 32 = D1 * 2 ^ 62 := by rw [hD1s]; ring
    rw [eCB, e'] at f9
    exact le_of_mul_le_mul_right f9 (by positivity)
  have hE1 : C * B - 1 / 2 ^ 30 < D1 := by
    have e' : ((d1 : ℝ) + 1) * 2 ^ 32 = (D1 + 1 / 2 ^ 30) * 2 ^ 62 := by rw [hD1s]; ring
    rw [eCB, e'] at f10
    have h3 := lt_of_mul_lt_mul_right f10 (by positivity)
    linarith only [h3]
  have hD1lt : D1 < 3 / 2 :=
    gold_d_bound C B D1 (lt_trans hCa (by norm_num)) (lt_trans hBa (by norm_num)) hE2
  have hd1le : d1 ≤ 0xc0000000 := by
    have : (d1 : ℝ) < 0xc0000000 := by rw [hD1s]; linarith only [hD1lt]
    have : d1 < 0xc0000000 := by exact_mod_cast this
    omega
  rw [sub32_of_le 0xc0000000 d1 (by norm_num) hd1le]
  obtain ⟨U1, hU1⟩ : ∃ U1 : ℝ, U1 = ((0xc0000000 - d1 : Nat) : ℝ) / 2 ^ 30 := ⟨_, rfl⟩
  have hU1s : ((0xc0000000 - d1 : Nat) : ℝ) = U1 * 2 ^ 30 := by rw [hU1]; field_simp
  have hU1D : U1 = 3 - D1 := by
    rw [hU1, hD1d, Nat.cast_sub hd1le]; push_cast; ring
  have hu1lt : 0xc0000000 - d1 < 2 ^ 32 := by omega
  generalize hu1 : 0xc0000000 - d1 = u1 at *
  obtain ⟨f11, f12⟩ := mul32_floor_real (2 * s1h) u1 hs1lt hu1lt
  generalize hs2 : mul32 (2 * s1h) u1 = s2 at *
  push_cast at f11 f12
  obtain ⟨E, hE⟩ : ∃ E : ℝ, E = (s2 : ℝ) / (2 ^ 29 * σ) := ⟨_, rfl⟩
  have hEs : (s2 : ℝ) = E * (2 ^ 29 * σ) := by rw [hE]; field_simp
  have eCU : 2 * (s1h : ℝ) * (u1 : ℝ) = C * U1 / 2 * (σ * 2 ^ 61) := by rw [hCs, hU1s]; ring
  have hF2 : E ≤ C * U1 / 2 := by
    have e1 : (s2 : ℝ) * 2 ^ 32 = E * (σ * 2 ^ 61) := by rw [hEs]; ring
    rw [eCU, e1] at f11
    exact le_of_mul_le_mul_right f11 (by positivity)
  have hF1 : C * U1 / 2 - 1 / 2 ^ 29 < E := by
    have e1 : ((s2 : ℝ) + 1) * 2 ^ 32 = (E + 1 / (2 ^ 29 * σ)) * (σ * 2 ^ 61) := by
      rw [hEs]; field_simp; ring
    rw [eCU, e1] at f12
    have h3 := lt_of_mul_lt_mul_right f12 (by positivity)
    have h4 : 1 / (2 ^ 29 * σ) ≤ 1 / 2 ^ 29 :=
      one_div_le_one_div_of_le (by positivity) (by nlinarith only [hσ1])
    linarith only [h3, h4]
  obtain ⟨_, _, _, _, hEa⟩ :=
    gold_iter2 B C D1 U1 E hBa hCa hCB1 hCB2 hE1 hE2 hU1D hF1 hF2
  -- conclusion
  rw [hsqrt, hEs]
  have e : E * (2 ^ 29 * σ) - 2 ^ 29 * σ = (E - 1) * (2 ^ 29 * σ) := by ring
  rw [e, abs_mul, abs_of_pos (by positivity : (0 : ℝ) < 2 ^ 29 * σ)]
  have h3 : |E - 1| * (2 ^ 29 * σ) < 1 / 2 ^ 27 * (2 ^ 29 * 2) :=
    mul_lt_mul'' hEa (by linarith only [hσ2]) (abs_nonneg _) (by positivity)
  linarith only [h3]

/-! ## Final rounding of `sqrtf` -/

theorem round_decision (n q s : Nat) (h1 : 4 * q < 4 * n + s) (h2 : 4 * n < 4 * q + 10 * s + 6)
    (hs : s < 2 ^ 24) :
    (s + (sub32 s (sub32 (n % 2 ^ 32) (q % 2 ^ 32)) >>> 31)) % 2 ^ 32 =
      if q + s < n then s + 1 else s := by
  rw [Nat.shiftRight_eq_div_pow]
  have hd0 : sub32 (n % 2 ^ 32) (q % 2 ^ 32) = if q ≤ n then n - q else 2 ^ 32 - (q - n) := by
    unfold sub32
    have hc : n / 2 ^ 32 = q / 2 ^ 32 ∨ n / 2 ^ 32 = q / 2 ^ 32 + 1 ∨
        n / 2 ^ 32 + 1 = q / 2 ^ 32 := by omega
    rcases hc with h | h | h <;> split <;> omega
  rw [hd0]
  unfold sub32
  by_cases hqn : q ≤ n
  · simp only [if_pos hqn]
    obtain ⟨t, ht⟩ : ∃ t, n = q + t := ⟨n - q, by omega⟩
    subst ht
    have ht32 : t % 2 ^ 32 = t := Nat.mod_eq_of_lt (by omega)
    rw [Nat.add_sub_cancel_left, ht32]
    by_cases hts : t ≤ s
    · have e : (s + (2 ^ 32 - t)) % 2 ^ 32 = s - t := by omega
      rw [e, if_neg (by omega)]
      have e2 : (s - t) / 2 ^ 31 = 0 := by omega
      rw [e2]; omega
    · have e : (s + (2 ^ 32 - t)) % 2 ^ 32 = 2 ^ 32 + s - t := by omega
      rw [e, if_pos (by omega)]
      have e2 : (2 ^ 32 + s - t) / 2 ^ 31 = 1 := by omega
      rw [e2]; omega
  · simp only [if_neg hqn]
    obtain ⟨t, ht⟩ : ∃ t, q = n + t := ⟨q - n, by omega⟩
    subst ht
    have e0 : (2 ^ 32 - (n + t - n)) % 2 ^ 32 = 2 ^ 32 - t := by
      rw [Nat.add_sub_cancel_left]; omega
    rw [e0]
    have e : (s + (2 ^ 32 - (2 ^ 32 - t))) % 2 ^ 32 = s + t := by omega
    rw [e, if_neg (by omega)]
    have e2 : (s + t) / 2 ^ 31 = 0 := by omega
    rw [e2]; omega

/-- The final rounding of `sqrtf`: from an approximation `s2` (3.29) within 8
units of the exact root, the rounding decision yields the 24-bit significand
`s'` nearest to `sqrt (m * 2 ^ 16)`, and the assembled pattern is `ey` plus the
23 stored bits of `s'`. -/
theorem sqrtfFinal_spec (m s2 ey : Nat) (hm1 : 2 ^ 30 ≤ m) (hm2 : m ≤ 2 ^ 32 - 2 ^ 8)
    (hs : |(s2 : ℝ) - Real.sqrt ((m : ℝ) * 2 ^ 28)| < 8) (F : Nat) (hey : ey = F * 2 ^ 23) :
    ∃ s', 2 ^ 23 ≤ s' ∧ s' < 2 ^ 24 ∧ (sqrtfFinal m s2 ey).1 = F * 2 ^ 23 + (s' - 2 ^ 23) ∧
      |(s' : ℝ) - Real.sqrt ((m : ℝ) * 2 ^ 16)| < 1 / 2 := by
  have hmr1 : (2 : ℝ) ^ 30 ≤ (m : ℝ) := by exact_mod_cast hm1
  have hmr2 : (m : ℝ) ≤ 2 ^ 32 - 2 ^ 8 := by
    have : ((m : Nat) : ℝ) ≤ ((2 ^ 32 - 2 ^ 8 : Nat) : ℝ) := by exact_mod_cast hm2
    rw [Nat.cast_sub (by norm_num)] at this
    push_cast at this
    linarith only [this]
  obtain ⟨σ, hσdef⟩ : ∃ σ, σ = Real.sqrt ((m : ℝ) * 2 ^ 16) := ⟨_, rfl⟩
  have hσ0 : 0 ≤ σ := by rw [hσdef]; exact Real.sqrt_nonneg _
  have hσsq : σ * σ = (m : ℝ) * 2 ^ 16 := by
    rw [hσdef]; exact Real.mul_self_sqrt (by positivity)
  have hsqrt : Real.sqrt ((m : ℝ) * 2 ^ 28) = 64 * σ := by
    have e : (m : ℝ) * 2 ^ 28 = (64 * σ) * (64 * σ) := by
      have : (64 * σ) * (64 * σ) = 2 ^ 12 * (σ * σ) := by ring
      rw [this, hσsq]; ring
    rw [e]; exact Real.sqrt_mul_self (by positivity)
  have hσ1 : 2 ^ 23 ≤ σ := by
    by_contra h
    have h' : σ < 2 ^ 23 := lt_of_not_ge h
    have : σ * σ < 2 ^ 23 * 2 ^ 23 := mul_lt_mul'' h' h' hσ0 hσ0
    rw [hσsq] at this
    linarith only [this, hmr1]
  have hσ2 : σ < 2 ^ 24 - 1 / 2 := by
    by_contra h
    have h' : 2 ^ 24 - 1 / 2 ≤ σ := le_of_not_gt h
    have : (2 ^ 24 - 1 / 2) * (2 ^ 24 - 1 / 2) ≤ σ * σ := mul_le_mul h' h' (by norm_num) hσ0
    rw [hσsq] at this
    linarith only [this, hmr2]
  rw [hsqrt, abs_lt] at hs
  obtain ⟨hs1, hs2⟩ := hs
  rw [← hσdef]
  -- the truncation s = (s2 - 1) >> 6
  have hs2lo : (1 : ℝ) ≤ (s2 : ℝ) := by linarith only [hs1, hσ1]
  have hs2hi : (s2 : ℝ) < 2 ^ 31 := by linarith only [hs2, hσ2]
  have hs2lo' : 1 ≤ s2 := by exact_mod_cast hs2lo
  have hs2hi' : s2 < 2 ^ 31 := by exact_mod_cast hs2hi
  unfold sqrtfFinal
  dsimp only
  rw [sub32_of_le s2 1 (by omega) hs2lo', Nat.shiftRight_eq_div_pow]
  have hq1 : ((s2 - 1) / 2 ^ 6 : Nat) * 64 ≤ s2 - 1 := by omega
  have hq2 : s2 - 1 < ((s2 - 1) / 2 ^ 6 + 1) * 64 := by omega
  have hq1r : (((s2 - 1) / 2 ^ 6 : Nat) : ℝ) * 64 ≤ (s2 : ℝ) - 1 := by
    have : ((((s2 - 1) / 2 ^ 6) * 64 : Nat) : ℝ) ≤ ((s2 - 1 : Nat) : ℝ) := by exact_mod_cast hq1
    rw [Nat.cast_sub hs2lo'] at this
    push_cast at this
    exact this
  have hq2r : (s2 : ℝ) - 1 < ((((s2 - 1) / 2 ^ 6 : Nat) : ℝ) + 1) * 64 := by
    have : ((s2 - 1 : Nat) : ℝ) < (((((s2 - 1) / 2 ^ 6) + 1) * 64 : Nat) : ℝ) := by
      exact_mod_cast hq2
    rw [Nat.cast_sub hs2lo'] at this
    push_cast at this
    exact this
  generalize (s2 - 1) / 2 ^ 6 = s at *
  have hsA : σ - 73 / 64 < (s : ℝ) := by linarith only [hq2r, hs1]
  have hsB : (s : ℝ) < σ + 7 / 64 := by linarith only [hq1r, hs2]
  have hslt : s < 2 ^ 24 := by
    have : (s : ℝ) < 2 ^ 24 := by linarith only [hsB, hσ2]
    exact_mod_cast this
  have hsge : 2 ^ 23 - 1 ≤ s := by
    have : (2 : ℝ) ^ 23 - 2 < (s : ℝ) := by linarith only [hsA, hσ1]
    have : ((2 ^ 23 - 2 : Nat) : ℝ) < (s : ℝ) := by
      rw [Nat.cast_sub (by norm_num)]; push_cast; linarith only [this]
    have : 2 ^ 23 - 2 < s := by exact_mod_cast this
    omega
  -- the squares
  have hsr0 : (0 : ℝ) ≤ (s : ℝ) := Nat.cast_nonneg _
  have hsr1 : (2 : ℝ) ^ 23 - 1 ≤ (s : ℝ) := by
    have : ((2 ^ 23 - 1 : Nat) : ℝ) ≤ (s : ℝ) := by exact_mod_cast hsge
    rw [Nat.cast_sub (by norm_num)] at this; push_cast at this; linarith only [this]
  have hn1 : 4 * ((s : ℝ) * s) - s < 4 * ((m : ℝ) * 2 ^ 16) := by
    have h3 : ((s : ℝ) - 7 / 64) * ((s : ℝ) - 7 / 64) < σ * σ :=
      mul_lt_mul'' (by linarith only [hsB]) (by linarith only [hsB])
        (by linarith only [hsr1]) (by linarith only [hsr1])
    rw [hσsq] at h3
    linarith only [h3, hsr0]
  have hn2 : 4 * ((m : ℝ) * 2 ^ 16) < 4 * ((s : ℝ) * s) + 10 * s + 6 := by
    have h3 : σ * σ < ((s : ℝ) + 73 / 64) * ((s : ℝ) + 73 / 64) :=
      mul_lt_mul'' (by linarith only [hsA]) (by linarith only [hsA]) hσ0 hσ0
    rw [hσsq] at h3
    linarith only [h3]
  have hn1' : 4 * (s * s) < 4 * (m * 2 ^ 16) + s := by
    have : ((4 * (s * s) : Nat) : ℝ) < ((4 * (m * 2 ^ 16) + s : Nat) : ℝ) := by
      push_cast; linarith only [hn1]
    exact_mod_cast this
  have hn2' : 4 * (m * 2 ^ 16) < 4 * (s * s) + 10 * s + 6 := by
    have : ((4 * (m * 2 ^ 16) : Nat) : ℝ) < ((4 * (s * s) + 10 * s + 6 : Nat) : ℝ) := by
      push_cast; linarith only [hn2]
    exact_mod_cast this
  have hshl : (m <<< 16) % 2 ^ 32 = (m * 2 ^ 16) % 2 ^ 32 := by rw [Nat.shiftLeft_eq]
  rw [hshl]
  -- the rounding decision
  have hdec := round_decision (m * 2 ^ 16) (s * s) s hn1' hn2' hslt
  rw [hdec]
  have hmask : (0x007fffff : Nat) = 2 ^ 23 - 1 := by norm_num
  have hfin : ∀ s' : Nat, 2 ^ 23 ≤ s' → s' < 2 ^ 24 →
      (s' &&& 0x007fffff) ||| ey = F * 2 ^ 23 + (s' - 2 ^ 23) := by
    intro s' h3 h4
    rw [hmask, and_low_mask, hey, Nat.lor_comm, or_disjoint F _ 23 (Nat.mod_lt _ (by norm_num))]
    omega
  by_cases hup : s * s + s < m * 2 ^ 16
  · rw [if_pos hup]
    have hupr : (s : ℝ) * s + s + 1 ≤ (m : ℝ) * 2 ^ 16 := by
      have : ((s * s + s + 1 : Nat) : ℝ) ≤ ((m * 2 ^ 16 : Nat) : ℝ) := by exact_mod_cast hup
      push_cast at this; linarith only [this]
    have h5 : (s : ℝ) + 1 / 2 < σ := by
      by_contra h
      have h' : σ ≤ (s : ℝ) + 1 / 2 := le_of_not_gt h
      have : σ * σ ≤ ((s : ℝ) + 1 / 2) * ((s : ℝ) + 1 / 2) :=
        mul_le_mul h' h' hσ0 (by linarith only [hsr0])
      rw [hσsq] at this
      linarith only [this, hupr]
    have h6 : s + 1 < 2 ^ 24 := by
      have : ((s + 1 : Nat) : ℝ) < 2 ^ 24 := by push_cast; linarith only [h5, hσ2]
      exact_mod_cast this
    refine ⟨s + 1, by omega, h6, hfin _ (by omega) h6, ?_⟩
    rw [abs_lt]; push_cast
    constructor
    · linarith only [hsA]
    · linarith only [h5]
  · rw [if_neg hup]
    have hupr : (m : ℝ) * 2 ^ 16 ≤ (s : ℝ) * s + s := by
      have : ((m * 2 ^ 16 : Nat) : ℝ) ≤ ((s * s + s : Nat) : ℝ) := by
        exact_mod_cast (Nat.le_of_not_lt hup)
      push_cast at this; linarith only [this]
    have h5 : σ < (s : ℝ) + 1 / 2 := by
      by_contra h
      have h' : (s : ℝ) + 1 / 2 ≤ σ := le_of_not_gt h
      have : ((s : ℝ) + 1 / 2) * ((s : ℝ) + 1 / 2) ≤ σ * σ :=
        mul_le_mul h' h' (by linarith only [hsr0]) hσ0
      rw [hσsq] at this
      linarith only [this, hupr]
    have h6 : 2 ^ 23 ≤ s := by
      have : (2 : ℝ) ^ 23 - 1 / 2 < (s : ℝ) := by linarith only [h5, hσ1]
      have : ((2 ^ 23 - 1 : Nat) : ℝ) < (s : ℝ) := by
        rw [Nat.cast_sub (by norm_num)]; push_cast; linarith only [this]
      have : 2 ^ 23 - 1 < s := by exact_mod_cast this
      omega
    refine ⟨s, h6, hslt, hfin _ h6 hslt, ?_⟩
    rw [abs_lt]
    constructor
    · linarith only [h5]
    · linarith only [hsB]

/-- The table entry selected by `sqrtf` for the significand `Q` and the parity
of the exponent has relative error below `2 ^ (-8)` for the reduced argument
`m = Q * 2 ^ (8 - e % 2)`, in the squared integer form used by the error
analysis. -/
theorem sqrtf_table_rel (e Q : Nat) (hQ1 : 2 ^ 23 ≤ Q) (hQ2 : Q < 2 ^ 24) :
    ∃ T, rsqrtEst ((e % 2) * 64 + Q / 2 ^ 17 % 64) = T * 2 ^ 16 ∧ T ≤ 0xff02 ∧
      255 ^ 2 * 2 ^ 46 < T ^ 2 * (Q * 2 ^ (8 - e % 2)) ∧
      T ^ 2 * (Q * 2 ^ (8 - e % 2)) < 257 ^ 2 * 2 ^ 46 := by
  have hi : (e % 2) * 64 + Q / 2 ^ 17 % 64 < 128 := by omega
  obtain ⟨T, _, hT, hT1, hT2⟩ := rsqrt_tab_entries _ hi
  obtain ⟨b1, b2⟩ := rsqrt_tab_bounds _ hi
  rw [hT] at b1 b2
  refine ⟨T, ?_, hT2, ?_, ?_⟩
  · unfold rsqrtEst
    rw [hT, Nat.shiftLeft_eq]; omega
  · have h2 : e % 2 = 0 ∨ e % 2 = 1 := by omega
    rcases h2 with h | h
    · rw [h] at b1 ⊢
      simp only [Nat.zero_mul, Nat.zero_add, Nat.sub_zero] at b1 ⊢
      rw [if_neg (by omega), if_neg (by omega)] at b1
      have hq : (64 + Q / 2 ^ 17 % 64) * 2 ^ 17 ≤ Q := by omega
      have h3 := Nat.mul_le_mul_left (T ^ 2) hq
      generalize Q / 2 ^ 17 % 64 = j at *
      have e1 : T ^ 2 * ((64 + j) * 2 ^ 17) = T ^ 2 * (64 + j) * 2 ^ 17 := by ring
      have e2 : T ^ 2 * (Q * 2 ^ 8) = T ^ 2 * Q * 2 ^ 8 := by ring
      rw [e1] at h3
      rw [e2]
      generalize T ^ 2 * (64 + j) = X at *
      generalize T ^ 2 * Q = Y at *
      omega
    · rw [h] at b1 ⊢
      rw [if_pos (by omega), if_pos (by omega)] at b1
      have hq : (1 * 64 + Q / 2 ^ 17 % 64) * 2 ^ 17 ≤ Q := by omega
      have h3 := Nat.mul_le_mul_left (T ^ 2) hq
      generalize 1 * 64 + Q / 2 ^ 17 % 64 = j at *
      have e1 : T ^ 2 * (j * 2 ^ 17) = T ^ 2 * j * 2 ^ 17 := by ring
      have e2 : T ^ 2 * (Q * 2 ^ (8 - 1)) = T ^ 2 * Q * 2 ^ 7 := by ring
      rw [e1] at h3
      rw [e2]
      generalize T ^ 2 * j = X at *
      generalize T ^ 2 * Q = Y at *
      omega
  · have hT0 : 0 < T ^ 2 := by
      have : 0 < T := by omega
      positivity
    have h2 : e % 2 = 0 ∨ e % 2 = 1 := by omega
    rcases h2 with h | h
    · rw [h] at b2 ⊢
      simp only [Nat.zero_mul, Nat.zero_add, Nat.sub_zero] at b2 ⊢
      rw [if_neg (by omega), if_neg (by omega)] at b2
      have hq : Q < (65 + Q / 2 ^ 17 % 64) * 2 ^ 17 := by omega
      have h3 := Nat.mul_lt_mul_of_pos_left hq hT0
      generalize Q / 2 ^ 17 % 64 = j at *
      have e1 : T ^ 2 * ((65 + j) * 2 ^ 17) = T ^ 2 * (65 + j) * 2 ^ 17 := by ring
      have e2 : T ^ 2 * (Q * 2 ^ 8) = T ^ 2 * Q * 2 ^ 8 := by ring
      rw [e1] at h3
      rw [e2]
      generalize T ^ 2 * (65 + j) = X at *
      generalize T ^ 2 * Q = Y at *
      omega
    · rw [h] at b2 ⊢
      rw [if_pos (by omega)] at b2
      have hq : Q < (1 * 64 + Q / 2 ^ 17 % 64 + 1) * 2 ^ 17 := by omega
      have h3 := Nat.mul_lt_mul_of_pos_left hq hT0
      generalize 1 * 64 + Q / 2 ^ 17 % 64 = j at *
      rw [if_pos (by omega)] at b2
      have e1 : T ^ 2 * ((j + 1) * 2 ^ 17) = T ^ 2 * (j + 1) * 2 ^ 17 := by ring
      have e2 : T ^ 2 * (Q * 2 ^ (8 - 1)) = T ^ 2 * Q * 2 ^ 7 := by ring
      rw [e1] at h3
      rw [e2]
      generalize T ^ 2 * (j + 1) = X at *
      generalize T ^ 2 * Q = Y at *
      omega

/-- A multiple `s' g` of `g` within `g / 2` of `q = σ g ≥ 2 ^ 23 g` is at least
as close to `q` as any `v` that is non-positive, a multiple of `g`, or below
`2 ^ 23 g`. -/
theorem nearest_core (g q σ : ℝ) (s' : Nat) (hg : 0 < g) (hq : q = σ * g)
    (hσ : 2 ^ 23 ≤ σ) (hs' : |(s' : ℝ) - σ| < 1 / 2) (hs1 : 2 ^ 23 ≤ s') (v : ℝ)
    (hv : v ≤ 0 ∨ (∃ k : Nat, v = k * g) ∨ v < 2 ^ 23 * g) :
    |(s' : ℝ) * g - q| ≤ |v - q| := by
  obtain ⟨a1, a2⟩ := abs_lt.1 hs'
  have hs1r : (2 : ℝ) ^ 23 ≤ (s' : ℝ) := by exact_mod_cast hs1
  have e : (s' : ℝ) * g - q = ((s' : ℝ) - σ) * g := by rw [hq]; ring
  have hL : |(s' : ℝ) * g - q| < 1 / 2 * g := by
    rw [e, abs_mul, abs_of_pos hg]
    exact mul_lt_mul_of_pos_right hs' hg
  have hLg : |(s' : ℝ) * g - q| = |(s' : ℝ) - σ| * g := by
    rw [e, abs_mul, abs_of_pos hg]
  have hqg : 2 ^ 23 * g ≤ q := by rw [hq]; exact mul_le_mul_of_nonneg_right hσ hg.le
  rcases hv with h | ⟨k, hk⟩ | h
  · have : |v - q| = q - v := by
      rw [abs_of_nonpos (by linarith only [h, hqg, hg])]; ring
    rw [this]
    linarith only [hL, h, hqg, hg]
  · have e2 : v - q = ((k : ℝ) - σ) * g := by rw [hk, hq]; ring
    rw [hLg, e2, abs_mul, abs_of_pos hg]
    apply mul_le_mul_of_nonneg_right _ hg.le
    by_cases hks : k = s'
    · rw [hks]
    · have hd : (1 : ℝ) ≤ |(k : ℝ) - (s' : ℝ)| := by
        have h3 : (k : ℤ) ≠ (s' : ℤ) := by exact_mod_cast hks
        have h4 : (1 : ℤ) ≤ |(k : ℤ) - (s' : ℤ)| := Int.one_le_abs (sub_ne_zero.2 h3)
        have h5 : ((1 : ℤ) : ℝ) ≤ ((|(k : ℤ) - (s' : ℤ)| : ℤ) : ℝ) := by exact_mod_cast h4
        push_cast at h5
        exact h5
      have h6 : |(k : ℝ) - (s' : ℝ)| ≤ |(k : ℝ) - σ| + |σ - (s' : ℝ)| := abs_sub_le _ _ _
      have h7 : |σ - (s' : ℝ)| = |(s' : ℝ) - σ| := abs_sub_comm _ _
      linarith only [hd, h6, h7, hs']
  · have hvq : v < q := lt_of_lt_of_le h hqg
    have : |v - q| = q - v := by
      rw [abs_of_neg (by linarith only [hvq])]; ring
    rw [this]
    by_cases hc : (s' : ℝ) ≤ σ
    · have : |(s' : ℝ) * g - q| = q - (s' : ℝ) * g := by
        rw [e, abs_of_nonpos (mul_nonpos_of_nonpos_of_nonneg (by linarith only [hc]) hg.le), hq]
        ring
      rw [this]
      have : 2 ^ 23 * g ≤ (s' : ℝ) * g := mul_le_mul_of_nonneg_right hs1r hg.le
      linarith only [this, h]
    · have hc' : σ < (s' : ℝ) := lt_of_not_ge hc
      have hne : s' ≠ 2 ^ 23 := by
        intro h0
        rw [h0] at hc'
        push_cast at hc'
        linarith only [hc', hσ]
      have h8 : 2 ^ 23 + 1 ≤ s' := by omega
      have h8r : (2 : ℝ) ^ 23 + 1 ≤ (s' : ℝ) := by exact_mod_cast h8
      have h9 : (2 ^ 23 + 1 / 2) * g < σ * g :=
        mul_lt_mul_of_pos_right (by linarith only [h8r, a2]) hg
      rw [← hq] at h9
      linarith only [hL, h9, h]

/-! ## Correct rounding of `sqrtf` -/

theorem val32_real (u : Nat) :
    ((val32 u : ℚ) : ℝ) = ((svalOf 23 8 u : Int) : ℝ) / 2 ^ 149 := by
  unfold val32 valOf
  rw [scaleOf_float]
  push_cast
  rfl

/-- The pattern returned by `sqrtf` on a positive finite input: the exponent
field is `F = (e + 105) / 2` and the 24-bit significand `s'` is within a half
of the exact root of the reduced argument `m * 2 ^ 16`. -/
theorem sqrtf_pattern (x : Nat) (hx0 : 0 < x) (hx : x < 0x7f800000) :
    ∃ e Q ix m F s' : Nat, sqrtfNorm x = some ix ∧ sqrtf x = (sqrtfParts ix).1 ∧
      sqrtf x = F * 2 ^ 23 + (s' - 2 ^ 23) ∧ F = (e + 105) / 2 ∧ e ≤ 276 ∧
      m = Q * 2 ^ (8 - e % 2) ∧ 2 ^ 30 ≤ m ∧
      2 ^ 23 ≤ s' ∧ s' < 2 ^ 24 ∧ magOf 23 8 x * 2 ^ 23 = Q * 2 ^ e ∧
      |(s' : ℝ) - Real.sqrt ((m : ℝ) * 2 ^ 16)| < 1 / 2 := by
  obtain ⟨e, Q, ix, hn, he, hQ1, hQ2, hmag, hEy, hM, hIdx⟩ := sqrtfNorm_spec x hx0 hx
  obtain ⟨T, hT, hT2, t1, t2⟩ := sqrtf_table_rel e Q hQ1 hQ2
  have h2 : e % 2 = 0 ∨ e % 2 = 1 := by omega
  have hm1 : 2 ^ 30 ≤ Q * 2 ^ (8 - e % 2) := by
    rcases h2 with h | h <;> rw [h] <;> norm_num <;> omega
  have hm2 : Q * 2 ^ (8 - e % 2) ≤ 2 ^ 32 - 2 ^ 8 := by
    rcases h2 with h | h <;> rw [h] <;> norm_num <;> omega
  obtain ⟨m, hmdef⟩ : ∃ m, m = Q * 2 ^ (8 - e % 2) := ⟨_, rfl⟩
  rw [← hmdef] at hm1 hm2 t1 t2 hM
  have hA := sqrtfApprox_bound m T hm1 (by omega) hT2 t1 t2
  obtain ⟨s', hs1, hs2, hy, hs'⟩ := sqrtfFinal_spec m _ (sqrtfEy ix) hm1 hm2 hA _ hEy
  have hparts : sqrtfParts ix =
      sqrtfFinal (sqrtfM ix) (sqrtfApprox (sqrtfM ix) (rsqrtEst (sqrtfIdx ix))) (sqrtfEy ix) := rfl
  rw [hIdx, hT, hM] at hparts
  rw [← hparts] at hy
  obtain ⟨_, _, hadd⟩ := sqrtfParts_val ix _ hEy (by omega) (by omega)
  have hres : sqrtf x = (sqrtfParts ix).1 := by
    rw [sqrtf_main x ix hn, sqrtfBody_parts, hadd]
  exact ⟨e, Q, ix, m, _, s', hn, hres, hres.trans hy, rfl, he, hmdef, hm1, hs1, hs2, hmag, hs'⟩

/-- C17: `sqrtf` is correctly rounded.  For a positive finite `x` (normal or
subnormal) the main path is taken, the value returned is the pattern `y`
assembled by the final rounding decision, it is a positive finite pattern, its
distance from the exact real square root of `x` is below half a unit in the
last place of the result, and no finite `float` is nearer to the exact square
root. -/
theorem sqrtf_correctly_rounded (x : Nat) (hx0 : 0 < x) (hx : x < 0x7f800000) :
    ∃ ix, sqrtfNorm x = some ix ∧ sqrtf x = (sqrtfParts ix).1 ∧
      sqrtf x < 2 ^ 31 ∧ isFinite32 (sqrtf x) ∧
      2 * |((val32 (sqrtf x) : ℚ) : ℝ) - Real.sqrt ((val32 x : ℚ) : ℝ)| <
        ((ulpOf 23 8 (sqrtf x) : ℚ) : ℝ) ∧
      ∀ z, z < 2 ^ 32 → isFinite32 z →
        |((val32 (sqrtf x) : ℚ) : ℝ) - Real.sqrt ((val32 x : ℚ) : ℝ)| ≤
          |((val32 z : ℚ) : ℝ) - Real.sqrt ((val32 x : ℚ) : ℝ)| := by
  obtain ⟨e, Q, ix, m, F, s', hn, hres, hy, hF, he, hmdef, hm1, hs1, hs2, hmag, hs'⟩ :=
    sqrtf_pattern x hx0 hx
  have h2 : e % 2 = 0 ∨ e % 2 = 1 := by omega
  refine ⟨ix, hn, hres, ?_⟩
  rw [hy]
  -- the fields of the result
  have hF1 : 52 ≤ F := by omega
  have hF2 : F ≤ 190 := by omega
  obtain ⟨g1, g2, g3⟩ := fields_of_parts 23 8 0 F (s' - 2 ^ 23) (by omega) (by omega)
    (by norm_num)
  rw [Nat.zero_mul, Nat.zero_add] at g1 g2 g3
  have hmy : magOf 23 8 (F * 2 ^ 23 + (s' - 2 ^ 23)) = s' * 2 ^ (F - 1) := by
    rw [magOf_def, g1, g2, if_neg (by omega)]
    have : 2 ^ 23 + (s' - 2 ^ 23) = s' := by omega
    rw [this]
  have hvy : svalOf 23 8 (F * 2 ^ 23 + (s' - 2 ^ 23)) = ((s' * 2 ^ (F - 1) : Nat) : Int) := by
    rw [svalOf_pos 23 8 _ g3, hmy]
  have hsx : sgnOf 23 8 x = 0 := by unfold sgnOf; omega
  have hvx : svalOf 23 8 x = ((magOf 23 8 x : Nat) : Int) := svalOf_pos 23 8 x hsx
  -- the exact square root
  obtain ⟨σ, hσdef⟩ : ∃ σ, σ = Real.sqrt ((m : ℝ) * 2 ^ 16) := ⟨_, rfl⟩
  rw [← hσdef] at hs'
  have hσ0 : 0 ≤ σ := by rw [hσdef]; exact Real.sqrt_nonneg _
  have hσsq : σ * σ = (m : ℝ) * 2 ^ 16 := by
    have h0 : (0 : ℝ) ≤ (m : ℝ) * 2 ^ 16 := mul_nonneg (Nat.cast_nonneg m) (by norm_num)
    rw [hσdef]; exact Real.mul_self_sqrt h0
  have hσ1 : 2 ^ 23 ≤ σ := by
    by_contra h
    have h' : σ < 2 ^ 23 := lt_of_not_ge h
    have h3 : σ * σ < 2 ^ 23 * 2 ^ 23 := mul_lt_mul'' h' h' hσ0 hσ0
    rw [hσsq] at h3
    have h4 : ((2 ^ 30 : Nat) : ℝ) ≤ (m : ℝ) := by exact_mod_cast hm1
    push_cast at h4
    linarith only [h3, h4]
  obtain ⟨g, hg⟩ : ∃ g : ℝ, g = 2 ^ (F - 1) := ⟨_, rfl⟩
  have hg0 : 0 < g := by rw [hg]; positivity
  obtain ⟨G, hG⟩ : ∃ G, G = 2 ^ (F - 1) := ⟨_, rfl⟩
  have hgG : g = (G : ℝ) := by rw [hg, hG]; push_cast; rfl
  have hN : magOf 23 8 x * 2 ^ 149 * 2 ^ 23 = m * 2 ^ 16 * (G * G) * 2 ^ 23 := by
    have e1 : magOf 23 8 x * 2 ^ 149 * 2 ^ 23 = Q * 2 ^ (e + 149) := by
      rw [Nat.mul_right_comm, hmag, pow_add]; ring
    have e2 : m * 2 ^ 16 * (G * G) * 2 ^ 23 =
        Q * 2 ^ ((8 - e % 2) + 16 + ((F - 1) + (F - 1)) + 23) := by
      rw [hmdef, hG, pow_add, pow_add, pow_add, pow_add]; ring
    have e3 : e + 149 = (8 - e % 2) + 16 + ((F - 1) + (F - 1)) + 23 := by
      rcases h2 with h | h <;> omega
    rw [e1, e2, e3]
  have hNr : (magOf 23 8 x : ℝ) * 2 ^ 149 = σ * σ * (g * g) := by
    have h3 := Nat.eq_of_mul_eq_mul_right (by norm_num : 0 < 2 ^ 23) hN
    have h4 : ((magOf 23 8 x * 2 ^ 149 : Nat) : ℝ) = ((m * 2 ^ 16 * (G * G) : Nat) : ℝ) := by
      exact_mod_cast h3
    rw [hσsq, hgG]
    push_cast at h4
    linarith only [h4]
  have hsqrt : Real.sqrt ((val32 x : ℚ) : ℝ) = σ * g / 2 ^ 149 := by
    have e1 : ((val32 x : ℚ) : ℝ) = (σ * g / 2 ^ 149) * (σ * g / 2 ^ 149) := by
      rw [val32_real, hvx]
      push_cast
      field_simp
      linear_combination (2 ^ 149 : ℝ) * hNr
    rw [e1]; exact Real.sqrt_mul_self (by positivity)
  have hvalY : ((val32 (F * 2 ^ 23 + (s' - 2 ^ 23)) : ℚ) : ℝ) = (s' : ℝ) * g / 2 ^ 149 := by
    rw [val32_real, hvy, hgG, hG]; push_cast; rfl
  have hdiff : ∀ v : ℝ, |v / 2 ^ 149 - σ * g / 2 ^ 149| = |v - σ * g| / 2 ^ 149 := by
    intro v
    rw [← sub_div, abs_div, abs_of_pos (by positivity : (0 : ℝ) < 2 ^ 149)]
  have hy31 : F * 2 ^ 23 + (s' - 2 ^ 23) < 2 ^ 31 := by omega
  refine ⟨hy31, ?_, ?_, ?_⟩
  · unfold isFinite32 isFiniteOf; rw [g1]; omega
  · rw [hsqrt, hvalY, hdiff]
    have hu : ((ulpOf 23 8 (F * 2 ^ 23 + (s' - 2 ^ 23)) : ℚ) : ℝ) = g / 2 ^ 149 := by
      unfold ulpOf
      rw [g1, scaleOf_float, hg]; push_cast; rfl
    rw [hu]
    have e3 : (s' : ℝ) * g - σ * g = ((s' : ℝ) - σ) * g := by ring
    rw [e3, abs_mul, abs_of_pos hg0]
    have h3 : |(s' : ℝ) - σ| * g < 1 / 2 * g := mul_lt_mul_of_pos_right hs' hg0
    rw [← mul_div_assoc, div_lt_div_iff_of_pos_right (by positivity)]
    linarith only [h3]
  · intro z hz hfz
    rw [hsqrt, hvalY, val32_real, hdiff, hdiff, div_le_div_iff_of_pos_right (by positivity)]
    apply nearest_core g (σ * g) σ s' hg0 rfl hσ1 hs' hs1
    obtain ⟨_, hsz⟩ := parts_of_fields 23 8 z hz
    by_cases hs0 : sgnOf 23 8 z = 0
    · rw [svalOf_pos 23 8 z hs0]
      by_cases hE : expOf 23 8 z ≥ F
      · right; left
        have hd := magOf_large_dvd 23 8 (F - 23) z (by norm_num) (by omega)
        have e4 : F - 23 + 23 - 1 = F - 1 := by omega
        rw [e4] at hd
        obtain ⟨k, hk⟩ := hd
        refine ⟨k, ?_⟩
        rw [hk, hgG, hG]; push_cast; ring
      · right; right
        have hlt := magOf_small_lt 23 8 F z (by omega)
        have e4 : 2 ^ (F + 23 - 1) = 2 ^ 23 * 2 ^ (F - 1) := by
          rw [← pow_add]
          have e5 : F + 23 - 1 = 23 + (F - 1) := by omega
          rw [e5]
        rw [e4] at hlt
        rw [← hG] at hlt
        have : ((magOf 23 8 z : Nat) : ℝ) < ((2 ^ 23 * G : Nat) : ℝ) := by
          exact_mod_cast hlt
        rw [hgG]; push_cast at this ⊢; linarith only [this]
    · left
      rw [svalOf_neg 23 8 z (by omega)]
      push_cast
      have : (0 : ℝ) ≤ (magOf 23 8 z : ℝ) := Nat.cast_nonneg _
      linarith only [this]

/-- Witness for C17 at the float `2.0f`. -/
theorem sqrtf_correctly_rounded_witness :
    ∃ ix, sqrtfNorm 0x40000000 = some ix ∧ sqrtf 0x40000000 = (sqrtfParts ix).1 ∧
      sqrtf 0x40000000 < 2 ^ 31 ∧ isFinite32 (sqrtf 0x40000000) ∧
      2 * |((val32 (sqrtf 0x40000000) : ℚ) : ℝ) - Real.sqrt ((val32 0x40000000 : ℚ) : ℝ)| <
        ((ulpOf 23 8 (sqrtf 0x40000000) : ℚ) : ℝ) ∧
      ∀ z, z < 2 ^ 32 → isFinite32 z →
        |((val32 (sqrtf 0x40000000) : ℚ) : ℝ) - Real.sqrt ((val32 0x40000000 : ℚ) : ℝ)| ≤
          |((val32 z : ℚ) : ℝ) - Real.sqrt ((val32 0x40000000 : ℚ) : ℝ)| :=
  sqrtf_correctly_rounded 0x40000000 (by decide) (by decide)

end MuslMath
